import Mathlib

/-!
Callback registration holder (`registration_holder.h`)

A shallow embedding of `registration::token` and `registration::holder`
(the same code as `ini::registration_token` / `ini::reg_holder` in
`registrationholder.h`).

* `std::shared_ptr<registration_entry>` / `std::weak_ptr<registration_entry>`
  are modelled by a heap of control blocks with an explicit strong count
  (`use_count`); a weak pointer is the index of its control block, it is
  expired when the strong count is zero.
* `std::recursive_mutex m_notification_lock` is an owner thread and a recursion
  count; `std::mutex m_registrations_lock` is a flag.  An acquisition that would
  have to wait ends the run with `Status.blocked`.
* User code (callback bodies and the top-level caller) is a list of `Action`s;
  a callback is a function of the notification argument giving the actions it
  performs and the value it returns.  Callbacks may log, throw, subscribe,
  copy and release tokens and call `notify_all` re-entrantly.
* Every run records a `trace` of observable events.
-/

namespace registration

/-- User code: what a callback body (or the caller of the holder) may do. -/
inductive Action where
  | log (label : Nat)
  | raise (err : Nat)
  | subscribe (callback : Nat → List Action × Nat) (endhandler : Option Nat)
  | copy (tok : Nat)
  | make_default
  | unsubscribe (tok : Nat)
  | notify_all (arg : Nat)
  | notify_all2 (arg : Nat)

/-- `std::recursive_mutex`: `count = 0` means unlocked. -/
structure recursive_mutex where
  owner : Nat
  count : Nat
  deriving DecidableEq, Repr

/-- Observable events, in the order in which they happen. -/
inductive Event where
  | log (label : Nat)
  | call (pass entry arg : Nat)
  | ret (pass entry : Nat)
  | exc (pass entry err : Nat)
  | endhandler (entry label : Nat) (notif : recursive_mutex) (regs : Bool)
  | destroy (entry : Nat)
  deriving DecidableEq, Repr

/-- How a run of user code or of a holder operation ends. -/
inductive Status where
  | ok
  | raised (err : Nat)
  | blocked
  | out_of_fuel
  deriving DecidableEq, Repr

/-- `holder::registration_entry`; the end handler is the label it logs. -/
structure registration_entry where
  m_callback : Nat → List Action × Nat
  m_endhandler : Option Nat

/-- Control block of a `std::shared_ptr<registration_entry>`. -/
structure control_block where
  entry : registration_entry
  strong : Nat

/-- `registration::token`: `m_notify_mutex` is `false` for `nullptr`. -/
structure token where
  m_registration_holder : Option Nat
  m_notify_mutex : Bool
  deriving DecidableEq, Repr

/-- A `holder` together with the entries ever allocated, the token objects
the user holds, and the ghost pass counter and event trace. -/
structure State where
  heap : List control_block
  tokens : List token
  m_registrations : List Nat
  m_registrations_lock : Bool
  m_notification_lock : recursive_mutex
  passes : Nat
  trace : List Event

/-- A freshly constructed `holder` and no tokens. -/
def State.init : State :=
  { heap := [], tokens := [], m_registrations := [], m_registrations_lock := false,
    m_notification_lock := { owner := 0, count := 0 }, passes := 0, trace := [] }

/-- `std::recursive_mutex::lock` by thread `tid`; `none` when it would wait. -/
def recursive_mutex.lock (m : recursive_mutex) (tid : Nat) : Option recursive_mutex :=
  if m.count = 0 then some { owner := tid, count := 1 }
  else if m.owner = tid then some { owner := tid, count := m.count + 1 }
  else none

/-- `std::recursive_mutex::unlock`. -/
def recursive_mutex.unlock (m : recursive_mutex) : recursive_mutex :=
  { owner := m.owner, count := m.count - 1 }

/-- Append an event to the trace. -/
def emit (ev : Event) (s : State) : State :=
  { s with trace := s.trace ++ [ev] }

/-- `std::shared_ptr::use_count` of entry `e`. -/
def use_count (s : State) (e : Nat) : Nat :=
  match s.heap[e]? with
  | some c => c.strong
  | none => 0

/-- `std::weak_ptr::expired`. -/
def expired (s : State) (e : Nat) : Bool :=
  use_count s e == 0

/-- The custom deleter given to the `shared_ptr` in `register_impl`:
`if (p->m_endhandler) p->m_endhandler(); delete p;`. -/
def deleter (e : Nat) (c : registration_entry) (s : State) : State :=
  let s1 := match c.m_endhandler with
    | some l => emit (Event.endhandler e l s.m_notification_lock s.m_registrations_lock) s
    | none => s
  emit (Event.destroy e) s1

/-- Dropping one strong reference (`shared_ptr` destructor or `reset`). -/
def shared_release (e : Nat) (s : State) : State :=
  match s.heap[e]? with
  | none => s
  | some c =>
    if c.strong = 1 then
      deleter e c.entry { s with heap := s.heap.set e { c with strong := 0 } }
    else
      { s with heap := s.heap.set e { c with strong := c.strong - 1 } }

/-- Taking one more strong reference (`shared_ptr` copy). -/
def shared_acquire (e : Nat) (s : State) : State :=
  match s.heap[e]? with
  | none => s
  | some c => { s with heap := s.heap.set e { c with strong := c.strong + 1 } }

/-- `std::weak_ptr::lock`: a strong reference if the entry is still alive. -/
def weak_lock (s : State) (e : Nat) : Option (registration_entry × State) :=
  match s.heap[e]? with
  | none => none
  | some c => if c.strong = 0 then none else some (c.entry, shared_acquire e s)

/-- `holder::collect_unregistered`: `remove_if(expired)`. -/
def collect_unregistered (s : State) : State :=
  { s with m_registrations := s.m_registrations.filter (fun e => !expired s e) }

/-- `holder::register_impl`; the new token is the last one of `tokens`. -/
def register_impl (callback : Nat → List Action × Nat) (endhandler : Option Nat)
    (s : State) : Status × State :=
  if s.m_registrations_lock then (Status.blocked, s) else
  let s1 := collect_unregistered { s with m_registrations_lock := true }
  let p := s1.heap.length
  let c : control_block :=
    { entry := { m_callback := callback, m_endhandler := endhandler }, strong := 1 }
  let t : token := { m_registration_holder := some p, m_notify_mutex := true }
  let s2 := { s1 with heap := s1.heap ++ [c] }
  let s3 := { s2 with m_registrations := s2.m_registrations ++ [p] }
  let s4 := { s3 with tokens := s3.tokens ++ [t] }
  (Status.ok, { s4 with m_registrations_lock := false })

/-- `holder::subscribe(callback)`. -/
def subscribe (callback : Nat → List Action × Nat) (s : State) : Status × State :=
  register_impl callback none s

/-- `holder::subscribe(callback, endhandler)`. -/
def subscribe_with (callback : Nat → List Action × Nat) (endhandler : Option Nat)
    (s : State) : Status × State :=
  register_impl callback endhandler s

/-- `holder::is_empty`. -/
def is_empty (s : State) : Status × Bool :=
  if s.m_registrations_lock then (Status.blocked, false) else
  (Status.ok, s.m_registrations.isEmpty)

/-- A token whose two members are null: `token()`, and a token after `unsubscribe`. -/
def token.null : token :=
  { m_registration_holder := none, m_notify_mutex := false }

/-- Default constructor `token()`; the new token is the last one of `tokens`. -/
def token_default (s : State) : State :=
  { s with tokens := s.tokens ++ [token.null] }

/-- The implicit copy constructor of `token`: copies the shared pointer and
the mutex pointer; the copy is the last one of `tokens`. -/
def token_copy (i : Nat) (s : State) : State :=
  match s.tokens[i]? with
  | none => s
  | some t =>
    let s1 := match t.m_registration_holder with
      | some e => shared_acquire e s
      | none => s
    { s1 with tokens := s1.tokens ++ [t] }

/-- The two statements `m_registration_holder.reset(); m_notify_mutex = nullptr;`. -/
def token_reset (i : Nat) (s : State) : State :=
  match s.tokens[i]? with
  | none => s
  | some t =>
    let s1 := match t.m_registration_holder with
      | some e => shared_release e s
      | none => s
    { s1 with tokens := s1.tokens.set i token.null }

/-- Thread `tid` acquires `m_notification_lock`; `none` when it would wait. -/
def lock_notification (tid : Nat) (s : State) : Option State :=
  match s.m_notification_lock.lock tid with
  | none => none
  | some m => some { s with m_notification_lock := m }

/-- The owner releases `m_notification_lock` once. -/
def unlock_notification (s : State) : State :=
  { s with m_notification_lock := s.m_notification_lock.unlock }

/-- `token::unsubscribe` called by thread `tid` on token `i`. -/
def unsubscribe (tid i : Nat) (s : State) : Status × State :=
  match s.tokens[i]? with
  | none => (Status.ok, s)
  | some t =>
    if t.m_notify_mutex then
      match lock_notification tid s with
      | none => (Status.blocked, s)
      | some s1 => (Status.ok, unlock_notification (token_reset i s1))
    else
      (Status.ok, token_reset i s)

/-- Destructor `~token()`: `unsubscribe();`. -/
def token_dtor (tid i : Nat) (s : State) : Status × State :=
  unsubscribe tid i s

/-- The `for` loop of `holder::notify_all_impl` over the snapshot, for pass `p`;
`call` runs a callback body. -/
def notify_loop (call : List Action → State → Status × State) (p arg : Nat) :
    List Nat → State → Status × State
  | [], s => (Status.ok, s)
  | e :: rest, s =>
    match weak_lock s e with
    | none => notify_loop call p arg rest s
    | some (c, s1) =>
      let r := call (c.m_callback arg).1 (emit (Event.call p e arg) s1)
      match r.1 with
      | Status.ok => notify_loop call p arg rest (shared_release e (emit (Event.ret p e) r.2))
      | Status.raised err => (Status.raised err, shared_release e (emit (Event.exc p e err) r.2))
      | st => (st, r.2)

/-- The `for` loop of `holder::notify_all_impl2`, appending to `resultList`. -/
def notify_loop2 (call : List Action → State → Status × State) (p arg : Nat) :
    List Nat → List Nat → State → Status × List Nat × State
  | [], resultList, s => (Status.ok, resultList, s)
  | e :: rest, resultList, s =>
    match weak_lock s e with
    | none => notify_loop2 call p arg rest resultList s
    | some (c, s1) =>
      let r := call (c.m_callback arg).1 (emit (Event.call p e arg) s1)
      match r.1 with
      | Status.ok =>
        notify_loop2 call p arg rest (resultList ++ [(c.m_callback arg).2])
          (shared_release e (emit (Event.ret p e) r.2))
      | Status.raised err =>
        (Status.raised err, resultList, shared_release e (emit (Event.exc p e err) r.2))
      | st => (st, resultList, r.2)

/-- A new pass takes the next pass number (ghost state). -/
def begin_pass (s : State) : State :=
  { s with passes := s.passes + 1 }

/-- `holder::notify_all_impl` called by thread `tid`. -/
def notify_all_impl (call : List Action → State → Status × State) (tid arg : Nat)
    (s : State) : Status × State :=
  if s.m_registrations_lock then (Status.blocked, s) else
  let entries := s.m_registrations
  match lock_notification tid (begin_pass s) with
  | none => (Status.blocked, begin_pass s)
  | some s1 =>
    let r := notify_loop call s.passes arg entries s1
    match r.1 with
    | Status.ok => (Status.ok, unlock_notification r.2)
    | Status.raised err => (Status.raised err, unlock_notification r.2)
    | st => (st, r.2)

/-- `holder::notify_all_impl2` called by thread `tid`. -/
def notify_all_impl2 (call : List Action → State → Status × State) (tid arg : Nat)
    (s : State) : Status × List Nat × State :=
  if s.m_registrations_lock then (Status.blocked, [], s) else
  let entries := s.m_registrations
  match lock_notification tid (begin_pass s) with
  | none => (Status.blocked, [], begin_pass s)
  | some s1 =>
    let r := notify_loop2 call s.passes arg entries [] s1
    match r.1 with
    | Status.ok => (Status.ok, r.2.1, unlock_notification r.2.2)
    | Status.raised err => (Status.raised err, [], unlock_notification r.2.2)
    | st => (st, [], r.2.2)

/-- One action of user code run by thread `tid`. -/
def run_action (call : List Action → State → Status × State) (tid : Nat) (a : Action)
    (s : State) : Status × State :=
  match a with
  | Action.log l => (Status.ok, emit (Event.log l) s)
  | Action.raise err => (Status.raised err, s)
  | Action.subscribe cb eh => register_impl cb eh s
  | Action.copy i => (Status.ok, token_copy i s)
  | Action.make_default => (Status.ok, token_default s)
  | Action.unsubscribe i => unsubscribe tid i s
  | Action.notify_all arg => notify_all_impl call tid arg s
  | Action.notify_all2 arg =>
    let r := notify_all_impl2 call tid arg s
    (r.1, r.2.2)

/-- A sequence of actions; the first one that does not end normally ends the run. -/
def run_actions (call : List Action → State → Status × State) (tid : Nat) :
    List Action → State → Status × State
  | [], s => (Status.ok, s)
  | a :: rest, s =>
    let r := run_action call tid a s
    match r.1 with
    | Status.ok => run_actions call tid rest r.2
    | _ => r

/-- Run user code on thread `tid`; `fuel` bounds the nesting depth of callback
invocations (a callback that re-enters `notify_all` may recurse for ever). -/
def exec : Nat → Nat → List Action → State → Status × State
  | 0, _, _, s => (Status.out_of_fuel, s)
  | fuel + 1, tid, prog, s => run_actions (exec fuel tid) tid prog s

/-- `holder::notify_all` of a `void` holder, called from the top level. -/
def notify_all (fuel tid arg : Nat) (s : State) : Status × State :=
  notify_all_impl (exec fuel tid) tid arg s

/-- `holder::notify_all` of a holder with a result type, called from the top level. -/
def notify_all2 (fuel tid arg : Nat) (s : State) : Status × List Nat × State :=
  notify_all_impl2 (exec fuel tid) tid arg s

/-! ## Observations on traces and the state invariant -/

/-- Number of tokens whose `m_registration_holder` points to entry `e`. -/
def holders (s : State) (e : Nat) : Nat :=
  s.tokens.countP (fun t => t.m_registration_holder == some e)

/-- The event is the start of an invocation of the callback of entry `e`. -/
def Event.starts (e : Nat) : Event → Bool
  | Event.call _ e1 _ => e1 == e
  | _ => false

/-- The event is the end (normal or by exception) of an invocation of entry `e`. -/
def Event.finishes (e : Nat) : Event → Bool
  | Event.ret _ e1 => e1 == e
  | Event.exc _ e1 _ => e1 == e
  | _ => false

/-- The event is a run of the end handler of entry `e`. -/
def Event.handles (e : Nat) : Event → Bool
  | Event.endhandler e1 _ _ _ => e1 == e
  | _ => false

/-- The event is the deletion of entry `e`. -/
def Event.destroys (e : Nat) : Event → Bool
  | Event.destroy e1 => e1 == e
  | _ => false

/-- The pass an invocation event belongs to. -/
def Event.pass_of : Event → Option Nat
  | Event.call p _ _ => some p
  | Event.ret p _ => some p
  | Event.exc p _ _ => some p
  | _ => none

/-- The entry invoked, when the event is an invocation made by pass `p`. -/
def Event.invoked (p : Nat) : Event → Option Nat
  | Event.call p1 e _ => if p1 = p then some e else none
  | _ => none

/-- The entries whose callbacks pass `p` invoked, in the order of invocation. -/
def invoked_by (p : Nat) (tr : List Event) : List Nat :=
  tr.filterMap (Event.invoked p)

/-- The entry that returned, when the event is a normal return in pass `p`. -/
def Event.returned (p : Nat) : Event → Option Nat
  | Event.ret p1 e => if p1 = p then some e else none
  | _ => none

/-- The entry and the error, when the event is an exception leaving a callback
invoked by pass `p`. -/
def Event.threw (p : Nat) : Event → Option (Nat × Nat)
  | Event.exc p1 e err => if p1 = p then some (e, err) else none
  | _ => none

/-- The entries whose callbacks returned normally to pass `p`, in order. -/
def returned_by (p : Nat) (tr : List Event) : List Nat :=
  tr.filterMap (Event.returned p)

/-- The entries whose callbacks left pass `p` by an exception, with the error. -/
def raised_by (p : Nat) (tr : List Event) : List (Nat × Nat) :=
  tr.filterMap (Event.threw p)

/-- The value the callback of entry `e` returns for the argument `arg`. -/
def callback_result (s : State) (arg e : Nat) : Nat :=
  match s.heap[e]? with
  | some c => (c.entry.m_callback arg).2
  | none => 0

/-- The label logged, when the event is a log entry of user code. -/
def Event.label : Event → Option Nat
  | Event.log l => some l
  | _ => none

/-- The labels user code has logged, in order. -/
def logged (tr : List Event) : List Nat :=
  tr.filterMap Event.label

/-- Number of invocations of entry `e` started in the trace. -/
def started (tr : List Event) (e : Nat) : Nat := tr.countP (Event.starts e)

/-- Number of invocations of entry `e` finished in the trace. -/
def finished (tr : List Event) (e : Nat) : Nat := tr.countP (Event.finishes e)

/-- Number of runs of the end handler of entry `e` in the trace. -/
def handled (tr : List Event) (e : Nat) : Nat := tr.countP (Event.handles e)

/-- Number of deletions of entry `e` in the trace. -/
def destroyed (tr : List Event) (e : Nat) : Nat := tr.countP (Event.destroys e)

/-- The states the holder can be in: reference counts agree with the tokens and
the invocations in progress, the sequence of weak references is in subscription
order and holds every live entry, the trace agrees with the heap, and no entry
is invoked after its deletion. -/
structure wellformed (s : State) : Prop where
  regs_free : s.m_registrations_lock = false
  regs_sorted : s.m_registrations.Pairwise (fun a b => a < b)
  regs_bound : ∀ e ∈ s.m_registrations, e < s.heap.length
  regs_alive : ∀ e, 0 < use_count s e → e ∈ s.m_registrations
  tok_mutex : ∀ t ∈ s.tokens, ∀ e, t.m_registration_holder = some e → t.m_notify_mutex = true
  fin_le : ∀ e, finished s.trace e ≤ started s.trace e
  counts : ∀ e, use_count s e + finished s.trace e = holders s e + started s.trace e
  tags : ∀ ev ∈ s.trace, ∀ p, ev.pass_of = some p → p < s.passes
  deleted : ∀ e, destroyed s.trace e = if e < s.heap.length ∧ use_count s e = 0 then 1 else 0
  ended : ∀ e, handled s.trace e =
    match s.heap[e]? with
    | some c => if c.strong = 0 ∧ c.entry.m_endhandler.isSome then 1 else 0
    | none => 0
  no_revival : ∀ pre post e, s.trace = pre ++ Event.destroy e :: post → started post e = 0

/-- The events of dropping one strong reference to entry `e`: those of the
deleter when the reference is the last one, none otherwise. -/
def release_events (s : State) (e : Nat) : List Event :=
  match s.heap[e]? with
  | none => []
  | some c =>
    if c.strong = 1 then
      (match c.entry.m_endhandler with
        | some l => [Event.endhandler e l s.m_notification_lock s.m_registrations_lock]
        | none => []) ++ [Event.destroy e]
    else []

/-- What every run preserves: the trace and the heap only grow, entry code is
never changed, an expired entry stays expired and is never invoked again, and
the new invocation events belong to passes numbered `n` or later. -/
structure extends_from (n : Nat) (s s1 : State) : Prop where
  trace_ext : ∃ ext, s1.trace = s.trace ++ ext ∧
    (∀ ev ∈ ext, ∀ p, ev.pass_of = some p → n ≤ p) ∧
    (∀ e, e < s.heap.length → use_count s e = 0 → started ext e = 0)
  passes_le : s.passes ≤ s1.passes
  heap_le : s.heap.length ≤ s1.heap.length
  tokens_le : s.tokens.length ≤ s1.tokens.length
  code : ∀ (e : Nat) (c : control_block), s.heap[e]? = some c →
    ∃ c1 : control_block, s1.heap[e]? = some c1 ∧ c1.entry = c.entry
  dead : ∀ e, e < s.heap.length → use_count s e = 0 → use_count s1 e = 0

/-- The relation between the states before and after a run: all new invocation
events belong to passes started during the run. -/
@[reducible] def extends_to (s s1 : State) : Prop := extends_from s.passes s s1

/-- What a run that has come to its end (normally or by an exception)
preserves: no invocation is left in progress and the notification lock is back
in the state it was in. -/
structure balanced (s s1 : State) : Prop where
  in_progress : ∀ e, started s1.trace e + finished s.trace e =
    started s.trace e + finished s1.trace e
  lock_count : s1.m_notification_lock.count = s.m_notification_lock.count
  lock_owner : 0 < s.m_notification_lock.count →
    s1.m_notification_lock.owner = s.m_notification_lock.owner

/-- What the loop of pass `p` over the snapshot `snap` has done when it ran from
`s` to the outcome `r`; `L` lists the entries it invoked. -/
structure pass_outcome (p : Nat) (snap : List Nat) (s : State) (r : Status × State)
    (L : List Nat) : Prop where
  invoked : invoked_by p r.2.trace = invoked_by p s.trace ++ L
  sublist : L.Sublist snap
  alive : ∀ e ∈ L, 0 < use_count s e
  on_ok : r.1 = Status.ok →
    returned_by p r.2.trace = returned_by p s.trace ++ L ∧
    raised_by p r.2.trace = raised_by p s.trace ∧
    ∀ e ∈ snap, e ∉ L → use_count r.2 e = 0
  on_raise : ∀ err, r.1 = Status.raised err →
    ∃ pre k post L1, snap = pre ++ k :: post ∧ List.Sublist L1 pre ∧ L = L1 ++ [k] ∧
      returned_by p r.2.trace = returned_by p s.trace ++ L1 ∧
      raised_by p r.2.trace = raised_by p s.trace ++ [(k, err)]
  on_stop : r.1 ≠ Status.ok → (∀ err, r.1 ≠ Status.raised err) →
    raised_by p r.2.trace = raised_by p s.trace

/-- The status of a run that has come to its end. -/
def Status.completed : Status → Bool
  | Status.ok => true
  | Status.raised _ => true
  | _ => false

/-- The outcome `r` of a run from `s` respects the invariant. -/
def sound (s : State) (r : Status × State) : Prop :=
  wellformed r.2 ∧ extends_to s r.2 ∧ (r.1.completed = true → balanced s r.2)

/-! ## Threads

Several threads use one holder.  A thread is a stack of activations; one step
of one thread is one of the operations the holder's two locks make atomic with
respect to each other, or one action of user code.  A step that would have to
wait for a lock is not enabled. -/

/-- One activation on the call stack of a thread: user code still to run;
`notify_all_impl` after it has copied the registrations and before it has
locked `m_notification_lock`; the `for` loop of pass `p` between two
iterations, with the entries still to visit; the loop during the invocation of
the callback of entry `e`. -/
inductive Frame where
  | body (prog : List Action)
  | waiting (arg : Nat) (entries : List Nat)
  | loop (p arg : Nat) (entries : List Nat)
  | invoking (p arg e : Nat) (entries : List Nat)

/-- A thread: its call stack, innermost activation first, and the exception
that is propagating, if any. -/
structure Thread where
  stack : List Frame
  unwinding : Option Nat

/-- The pass of an activation that holds `m_notification_lock`. -/
def Frame.pass : Frame → Option Nat
  | Frame.loop p _ _ => some p
  | Frame.invoking p _ _ _ => some p
  | _ => none

/-- The passes a call stack is inside of, innermost first. -/
def held_passes (stack : List Frame) : List Nat :=
  stack.filterMap Frame.pass

/-- The next action `a` of user code of thread `tid`; `prog` is the rest of the
code and `rest` the activations below it. -/
def step_action (tid : Nat) (a : Action) (prog : List Action) (rest : List Frame)
    (s : State) : Option (Thread × State) :=
  match a with
  | Action.log l =>
    some ({ stack := Frame.body prog :: rest, unwinding := none }, emit (Event.log l) s)
  | Action.raise err => some ({ stack := rest, unwinding := some err }, s)
  | Action.subscribe cb eh =>
    match register_impl cb eh s with
    | (Status.ok, s1) => some ({ stack := Frame.body prog :: rest, unwinding := none }, s1)
    | _ => none
  | Action.copy i =>
    some ({ stack := Frame.body prog :: rest, unwinding := none }, token_copy i s)
  | Action.make_default =>
    some ({ stack := Frame.body prog :: rest, unwinding := none }, token_default s)
  | Action.unsubscribe i =>
    match unsubscribe tid i s with
    | (Status.ok, s1) => some ({ stack := Frame.body prog :: rest, unwinding := none }, s1)
    | _ => none
  | Action.notify_all arg =>
    if s.m_registrations_lock then none else
    some ({ stack := Frame.waiting arg s.m_registrations :: Frame.body prog :: rest,
            unwinding := none }, s)
  | Action.notify_all2 arg =>
    if s.m_registrations_lock then none else
    some ({ stack := Frame.waiting arg s.m_registrations :: Frame.body prog :: rest,
            unwinding := none }, s)

/-- One step of thread `tid`; `none` when the thread has finished or has to
wait for a lock.  A propagating exception leaves one activation per step; on
its way out of an invocation the loop's strong reference and then
`m_notification_lock` are released. -/
def step_thread (tid : Nat) (th : Thread) (s : State) : Option (Thread × State) :=
  match th.unwinding with
  | some err =>
    match th.stack with
    | Frame.body _ :: rest => some ({ stack := rest, unwinding := some err }, s)
    | Frame.invoking p _ e _ :: rest =>
      some ({ stack := rest, unwinding := some err },
        unlock_notification (shared_release e (emit (Event.exc p e err) s)))
    | _ => none
  | none =>
    match th.stack with
    | Frame.body [] :: Frame.invoking p arg e entries :: rest =>
      some ({ stack := Frame.loop p arg entries :: rest, unwinding := none },
        shared_release e (emit (Event.ret p e) s))
    | Frame.body [] :: rest => some ({ stack := rest, unwinding := none }, s)
    | Frame.body (a :: prog) :: rest => step_action tid a prog rest s
    | Frame.waiting arg entries :: rest =>
      match lock_notification tid (begin_pass s) with
      | none => none
      | some s1 => some ({ stack := Frame.loop s.passes arg entries :: rest,
                           unwinding := none }, s1)
    | Frame.loop _ _ [] :: rest =>
      some ({ stack := rest, unwinding := none }, unlock_notification s)
    | Frame.loop p arg (e :: entries) :: rest =>
      match weak_lock s e with
      | none => some ({ stack := Frame.loop p arg entries :: rest, unwinding := none }, s)
      | some (c, s1) =>
        some ({ stack := Frame.body (c.m_callback arg).1 ::
                  Frame.invoking p arg e entries :: rest, unwinding := none },
          emit (Event.call p e arg) s1)
    | _ => none

/-- The holder, the threads using it (thread `t` is `threads[t]`), and for
every pass begun so far the thread that made it (ghost state). -/
structure Config where
  state : State
  threads : List Thread
  thread_of : List Nat

/-- A fresh holder and one thread per program. -/
def Config.start (progs : List (List Action)) : Config :=
  { state := State.init
    threads := progs.map (fun prog => { stack := [Frame.body prog], unwinding := none })
    thread_of := [] }

/-- One step of thread `tid`; the passes begun by the step are passes of `tid`. -/
def step (tid : Nat) (cfg : Config) : Option Config :=
  match cfg.threads[tid]? with
  | none => none
  | some th =>
    match step_thread tid th cfg.state with
    | none => none
    | some (th1, s1) =>
      some { state := s1
             threads := cfg.threads.set tid th1
             thread_of := cfg.thread_of ++ List.replicate (s1.passes - cfg.state.passes) tid }

/-- Run the threads under a schedule: the list of the threads that are given
the next step, in order.  A thread that cannot move when it is scheduled (it
waits for a lock, or has finished) leaves the configuration as it is. -/
def run : List Nat → Config → Config
  | [], cfg => cfg
  | tid :: sched, cfg =>
    match step tid cfg with
    | some cfg1 => run sched cfg1
    | none => run sched cfg

/-- How many times thread `t` holds the recursive mutex. -/
def held_by (m : recursive_mutex) (t : Nat) : Nat :=
  if m.owner = t then m.count else 0

/-- The pass, when the event is a callback invocation. -/
def Event.invocation : Event → Option Nat
  | Event.call p _ _ => some p
  | _ => none

/-- The passes of the callback invocations of a trace, in order. -/
def calls_of (tr : List Event) : List Nat :=
  tr.filterMap Event.invocation

/-- The invariant of the configurations the threads can reach: a thread holds
`m_notification_lock` once per pass it is inside of; those passes are its own;
pass numbers are fresh; since a thread has entered a pass it is still inside
of, every invocation was made by that thread; and between two invocations of
one pass all invocations are made by the thread of that pass. -/
structure consistent (cfg : Config) : Prop where
  lock : ∀ t th, cfg.threads[t]? = some th →
    (held_passes th.stack).length = held_by cfg.state.m_notification_lock t
  owner : ∀ t th, cfg.threads[t]? = some th →
    ∀ p ∈ held_passes th.stack, cfg.thread_of[p]? = some t
  numbered : cfg.thread_of.length = cfg.state.passes
  fresh : ∀ q ∈ calls_of cfg.state.trace, q < cfg.state.passes
  since : ∀ t th, cfg.threads[t]? = some th → ∀ p ∈ held_passes th.stack,
    ∃ pre post, calls_of cfg.state.trace = pre ++ post ∧ p ∉ pre ∧
      ∀ q ∈ post, cfg.thread_of[q]? = some t
  apart : ∀ x y z p, calls_of cfg.state.trace = x ++ p :: (y ++ p :: z) →
    ∀ q ∈ y, ∃ t, cfg.thread_of[p]? = some t ∧ cfg.thread_of[q]? = some t

/-- What one step of thread `tid` does to the passes it is inside of, to
`m_notification_lock`, to the pass counter and to the invocations made. -/
inductive effect (tid : Nat) (hp : List Nat) (s : State) (hp1 : List Nat) (s1 : State) : Prop
  | silent (h1 : hp1 = hp)
      (h2 : ∀ t, held_by s1.m_notification_lock t = held_by s.m_notification_lock t)
      (h3 : s1.passes = s.passes) (h4 : calls_of s1.trace = calls_of s.trace)
  | enter (h1 : hp1 = s.passes :: hp)
      (h2 : s.m_notification_lock.lock tid = some s1.m_notification_lock)
      (h3 : s1.passes = s.passes + 1) (h4 : calls_of s1.trace = calls_of s.trace)
  | leave (p : Nat) (h1 : hp = p :: hp1)
      (h2 : s1.m_notification_lock = s.m_notification_lock.unlock)
      (h3 : s1.passes = s.passes) (h4 : calls_of s1.trace = calls_of s.trace)
  | invoke (p : Nat) (rest : List Nat) (h0 : hp = p :: rest) (h1 : hp1 = hp)
      (h2 : s1.m_notification_lock = s.m_notification_lock)
      (h3 : s1.passes = s.passes) (h4 : calls_of s1.trace = calls_of s.trace ++ [p])

/-! ## The state in which the loop reaches an entry -/

/-- The loop of `notify_all_impl` for pass `p`, recording for every entry of
the snapshot it reaches the state in which it reaches the entry (the state in
which `p.lock()` is evaluated for it): the state in which the loop starts for
the first entry, the state in which the iteration for the entry before has
ended for a later one.  An invocation that does not return normally ends the
loop, so no later entry is reached. -/
def turns (call : List Action → State → Status × State) (p arg : Nat) :
    List Nat → State → List (Nat × State)
  | [], _ => []
  | e :: rest, s =>
    (e, s) ::
      match weak_lock s e with
      | none => turns call p arg rest s
      | some (c, s1) =>
        match (call (c.m_callback arg).1 (emit (Event.call p e arg) s1)).1 with
        | Status.ok =>
          turns call p arg rest
            (shared_release e (emit (Event.ret p e)
              (call (c.m_callback arg).1 (emit (Event.call p e arg) s1)).2))
        | _ => []

/-- The entries that are alive in the state in which the loop reaches them, in
the order in which the loop reaches them. -/
def alive_at_turn (ts : List (Nat × State)) : List Nat :=
  (ts.filter (fun t => !expired t.2 t.1)).map Prod.fst

/-! ## Entries that no token holds -/

/-- From `s` to `s1` the heap has only grown and, if no token held entry `e`
of `s`, no token holds it in `s1`. -/
def unheld (e : Nat) (s s1 : State) : Prop :=
  s.heap.length ≤ s1.heap.length ∧ (e < s.heap.length → holders s e = 0 → holders s1 e = 0)

/-! ## The locks under which an end handler runs -/

/-- What the event of an end handler run by thread `tid` records when the
handler runs with `m_registrations_lock` free and `m_notification_lock` held by
`tid`; every other event satisfies it. -/
def Event.under_notification_lock (tid : Nat) : Event → Prop
  | Event.endhandler _ _ notif regs => regs = false ∧ notif.owner = tid ∧ 0 < notif.count
  | _ => True

/-- From `s` to `s1` the trace has only grown, and every end handler that ran
in between ran with `m_registrations_lock` free and `m_notification_lock` held
by thread `tid`. -/
def guarded (tid : Nat) (s s1 : State) : Prop :=
  ∃ ext, s1.trace = s.trace ++ ext ∧ ∀ ev ∈ ext, ev.under_notification_lock tid

/-! ## The sequence of registrations -/

/-- From `s` to `s1` either no entry was allocated and `m_registrations` is
unchanged, or `m_registrations` is not empty. -/
def kept (s s1 : State) : Prop :=
  (s1.heap.length = s.heap.length ∧ s1.m_registrations = s.m_registrations) ∨
    s1.m_registrations ≠ []

/-! ## Scenarios -/

/-- A callback that appends its label to the shared log and returns `v`. -/
def logging_callback (label v : Nat) : Nat → List Action × Nat :=
  fun _ => ([Action.log label], v)

/-- Three subscribers `A`, `B`, `C` logging the labels 1, 2, 3 (tokens 0, 1, 2). -/
def three_subscribers : List Action :=
  [Action.subscribe (logging_callback 1 1) none,
   Action.subscribe (logging_callback 2 2) none,
   Action.subscribe (logging_callback 3 3) none]

/-- Two subscribers; the callback of the first releases the token (token 1) of
the second. -/
def releasing_subscribers : List Action :=
  [Action.subscribe (fun _ => ([Action.unsubscribe 1], 10)) none,
   Action.subscribe (logging_callback 2 20) none]

/-- One subscriber with an end handler (label 9). -/
def one_subscriber : List Action :=
  [Action.subscribe (logging_callback 1 1) (some 9)]

/-- One subscriber whose token (token 0) is copied (the copy is token 1) before
`unsubscribe` is called on it. -/
def copied_then_released : List Action :=
  [Action.subscribe (logging_callback 1 1) (some 9), Action.copy 0, Action.unsubscribe 0]

/-- Three subscribers; the callback of the second logs and then throws error 7. -/
def raising_subscribers : List Action :=
  [Action.subscribe (logging_callback 1 1) none,
   Action.subscribe (fun _ => ([Action.log 2, Action.raise 7], 2)) none,
   Action.subscribe (logging_callback 3 3) none]

/-- A callback that logs 1, releases its own token (token 0) and logs 2. -/
def self_releasing_callback : Nat → List Action × Nat :=
  fun _ => ([Action.log 1, Action.unsubscribe 0, Action.log 2], 0)

/-- A subscriber that releases its own token in its callback (end handler 9),
followed by a subscriber that logs 3. -/
def self_releasing_subscribers : List Action :=
  [Action.subscribe self_releasing_callback (some 9),
   Action.subscribe (logging_callback 3 3) none]

/-- The state of `self_releasing_subscribers` inside pass 0 of thread 0. -/
def self_releasing_in_pass : State :=
  { (exec 1 0 self_releasing_subscribers State.init).2 with
    passes := 1
    m_notification_lock := { owner := 0, count := 1 } }

/-- The state of `self_releasing_in_pass` in which the callback of entry 0,
invoked by pass 0, has logged 1 and is about to release its own token. -/
def self_releasing_before_release : State :=
  (exec 1 0 [Action.log 1]
    (emit (Event.call 0 0 0) (shared_acquire 0 self_releasing_in_pass))).2

/-- A subscriber that releases its own token in its callback, and whose token
has been copied (the copy is token 1). -/
def self_releasing_with_copy : List Action :=
  [Action.subscribe self_releasing_callback (some 9), Action.copy 0]

/-- Two subscribers whose callbacks return 1 and 2. -/
def two_subscribers : List Action :=
  [Action.subscribe (logging_callback 1 1) none,
   Action.subscribe (logging_callback 2 2) none]

/-- One subscriber (end handler 9) whose token is copied; tokens 0 and 1. -/
def copied_subscriber : List Action :=
  [Action.subscribe (logging_callback 1 1) (some 9), Action.copy 0]

/-- The state of `releasing_subscribers` in which pass 0 of thread 0 has taken
the notification lock. -/
def releasing_in_pass : State :=
  { (exec 1 0 releasing_subscribers State.init).2 with
    passes := 1
    m_notification_lock := { owner := 0, count := 1 } }

/-- Three subscribers: the callback of the first releases the token (token 1)
of the second, the second logs 2, the third throws error 7. -/
def releasing_raising_subscribers : List Action :=
  [Action.subscribe (fun _ => ([Action.unsubscribe 1], 10)) none,
   Action.subscribe (logging_callback 2 20) none,
   Action.subscribe (fun _ => ([Action.raise 7], 30)) none]

/-- The state of `releasing_raising_subscribers` in which pass 0 of thread 0
has taken the notification lock. -/
def releasing_raising_in_pass : State :=
  { (exec 1 0 releasing_raising_subscribers State.init).2 with
    passes := 1
    m_notification_lock := { owner := 0, count := 1 } }

/-- A callback that calls `notify_all(1)` when it is notified with argument 0,
and logs 5 otherwise. -/
def renotifying_callback : Nat → List Action × Nat :=
  fun a => if a = 0 then ([Action.notify_all 1], 0) else ([Action.log 5], 0)

/-- Two subscribers, the first with `renotifying_callback`, the second logging
6, and a `notify_all(0)`. -/
def renotifying_subscribers : List Action :=
  [Action.subscribe renotifying_callback none,
   Action.subscribe (logging_callback 6 6) none,
   Action.notify_all 0]

/-- Two threads: thread 0 runs `renotifying_subscribers`, thread 1 calls
`notify_all(7)`. -/
def two_threads : List (List Action) :=
  [renotifying_subscribers, [Action.notify_all 7]]

/-- A schedule for `two_threads`: thread 0 subscribes, begins its pass and
invokes the first callback; thread 1 copies the registrations and is scheduled
while thread 0 holds the lock; thread 0 runs to its end; thread 1 runs to its
end. -/
def two_threads_schedule : List Nat :=
  List.replicate 5 0 ++ [1, 1, 1] ++ List.replicate 16 0 ++ List.replicate 10 1

end registration

/-! ## `scope_guard` (`scope_guard.h`)

Handlers are functions on the state `σ` of the program; as the source requires
(`f(); // must not throw`) a handler does not throw.  `std::uncaught_exception()`
and the failure of `emplace_front` are inputs. -/

/-- `scope_guard::execution`. -/
inductive scope_guard.execution where
  | always
  | when_return
  | when_exception
  deriving DecidableEq, Repr

/-- `scope_guard`; `m_handlers` is the deque, front first. -/
structure scope_guard (σ : Type) where
  m_handlers : List (σ → σ)
  m_policy : scope_guard.execution

namespace scope_guard

/-- `explicit scope_guard(execution policy = always)`. -/
def create {σ : Type} (policy : execution) : scope_guard σ :=
  { m_handlers := [], m_policy := policy }

/-- What a statement on a guard leaves: the guard, the program state, and
whether an exception is propagating. -/
structure outcome (σ : Type) where
  guard : scope_guard σ
  state : σ
  thrown : Bool

/-- `operator +=`: `m_handlers.emplace_front(func)`; when that throws, `func`
is called at once unless the policy is `when_return`, and the exception is
thrown again. -/
def add_assign {σ : Type} (g : scope_guard σ) (func : σ → σ) (emplace_throws : Bool)
    (st : σ) : outcome σ :=
  if emplace_throws then
    { guard := g
      state := if g.m_policy ≠ execution.when_return then func st else st
      thrown := true }
  else
    { guard := { g with m_handlers := func :: g.m_handlers }, state := st, thrown := false }

/-- `scope_guard(Callable&& func, execution policy = always)`. -/
def create_with {σ : Type} (func : σ → σ) (policy : execution) (emplace_throws : Bool)
    (st : σ) : outcome σ :=
  add_assign (create policy) func emplace_throws st

/-- The statements `guard += h1; ...; guard += hn;`, each handler given with
whether its `emplace_front` throws; the first exception ends the sequence. -/
def add_each {σ : Type} : scope_guard σ → List ((σ → σ) × Bool) → σ → outcome σ
  | g, [], st => { guard := g, state := st, thrown := false }
  | g, (h, t) :: rest, st =>
    if (add_assign g h t st).thrown then add_assign g h t st
    else add_each (add_assign g h t st).guard rest (add_assign g h t st).state

/-- `~scope_guard()`: the handlers are called from the front of the deque to
its back when the policy says so. -/
def destroy {σ : Type} (g : scope_guard σ) (uncaught_exception : Bool) (st : σ) : σ :=
  if g.m_policy = execution.always ∨
      (decide (g.m_policy = execution.when_exception) = uncaught_exception) then
    g.m_handlers.foldl (fun x f => f x) st
  else st

/-- `dismiss()`: `m_handlers.clear()`. -/
def dismiss {σ : Type} (g : scope_guard σ) : scope_guard σ :=
  { g with m_handlers := [] }

/-- A handler that records its own invocation: it appends `label` to the log. -/
def recording (label : Nat) : List Nat → List Nat :=
  fun log => log ++ [label]

end scope_guard

namespace registration

/-! ## Reference counts -/

theorem use_count_of_lookup {s : State} {e : Nat} {c : control_block}
    (h : s.heap[e]? = some c) : use_count s e = c.strong := by
  simp [use_count, h]

theorem use_count_of_none {s : State} {e : Nat} (h : s.heap[e]? = none) :
    use_count s e = 0 := by
  simp [use_count, h]

theorem lookup_of_use_count_pos {s : State} {e : Nat} (h : 0 < use_count s e) :
    ∃ c : control_block, s.heap[e]? = some c ∧ c.strong = use_count s e := by
  unfold use_count at h ⊢
  cases hc : s.heap[e]? with
  | none => simp [hc] at h
  | some c => exact ⟨c, rfl, rfl⟩

theorem lt_length_of_lookup {s : State} {e : Nat} {c : control_block}
    (h : s.heap[e]? = some c) : e < s.heap.length := by
  rcases List.getElem?_eq_some.mp h with ⟨hlt, _⟩
  exact hlt

theorem use_count_heap_set {s s1 : State} {e : Nat} {c c1 : control_block}
    (h : s.heap[e]? = some c) (hs : s1.heap = s.heap.set e c1) (e1 : Nat) :
    use_count s1 e1 = if e1 = e then c1.strong else use_count s e1 := by
  have hlt := lt_length_of_lookup h
  unfold use_count
  rw [hs, List.getElem?_set]
  by_cases he : e = e1
  · subst he
    simp [hlt]
  · have he1 : ¬ e1 = e := fun h1 => he h1.symm
    simp [he, he1]

theorem lookup_heap_set {s s1 : State} {e : Nat} {c c1 : control_block}
    (h : s.heap[e]? = some c) (hs : s1.heap = s.heap.set e c1) (e1 : Nat) :
    s1.heap[e1]? = if e1 = e then some c1 else s.heap[e1]? := by
  have hlt := lt_length_of_lookup h
  rw [hs, List.getElem?_set]
  by_cases he : e = e1
  · subst he
    simp [hlt]
  · have he1 : ¬ e1 = e := fun h1 => he h1.symm
    simp [he, he1]

/-! ## Counting events -/

theorem started_append (a b : List Event) (e : Nat) :
    started (a ++ b) e = started a e + started b e := by
  simp [started]

theorem finished_append (a b : List Event) (e : Nat) :
    finished (a ++ b) e = finished a e + finished b e := by
  simp [finished]

theorem handled_append (a b : List Event) (e : Nat) :
    handled (a ++ b) e = handled a e + handled b e := by
  simp [handled]

theorem destroyed_append (a b : List Event) (e : Nat) :
    destroyed (a ++ b) e = destroyed a e + destroyed b e := by
  simp [destroyed]

theorem invoked_by_append (p : Nat) (a b : List Event) :
    invoked_by p (a ++ b) = invoked_by p a ++ invoked_by p b := by
  simp [invoked_by]

end registration

namespace registration

/-! ## Dropping and taking strong references -/

theorem shared_release_trace (e : Nat) (s : State) :
    (shared_release e s).trace = s.trace ++ release_events s e := by
  unfold shared_release release_events
  cases h : s.heap[e]? with
  | none => simp
  | some c =>
    by_cases h1 : c.strong = 1
    · cases hh : c.entry.m_endhandler <;> simp [h1, deleter, emit, hh]
    · simp [h1]

theorem shared_release_frame (e : Nat) (s : State) :
    (shared_release e s).tokens = s.tokens ∧
    (shared_release e s).m_registrations = s.m_registrations ∧
    (shared_release e s).m_registrations_lock = s.m_registrations_lock ∧
    (shared_release e s).m_notification_lock = s.m_notification_lock ∧
    (shared_release e s).passes = s.passes ∧
    (shared_release e s).heap.length = s.heap.length := by
  unfold shared_release
  cases h : s.heap[e]? with
  | none => simp
  | some c =>
    by_cases h1 : c.strong = 1
    · cases hh : c.entry.m_endhandler <;> simp [h1, deleter, emit, hh]
    · simp [h1]

theorem shared_release_lookup {s : State} {e : Nat} {c : control_block}
    (h : s.heap[e]? = some c) (e1 : Nat) :
    (shared_release e s).heap[e1]? =
      if e1 = e then some { c with strong := c.strong - 1 } else s.heap[e1]? := by
  have key : (shared_release e s).heap = s.heap.set e { c with strong := c.strong - 1 } := by
    unfold shared_release
    by_cases h1 : c.strong = 1
    · cases hh : c.entry.m_endhandler <;> simp [h, h1, deleter, emit, hh]
    · simp [h, h1]
  exact lookup_heap_set h key e1

theorem shared_release_use_count {s : State} {e : Nat} {c : control_block}
    (h : s.heap[e]? = some c) (e1 : Nat) :
    use_count (shared_release e s) e1 =
      if e1 = e then c.strong - 1 else use_count s e1 := by
  unfold use_count
  rw [shared_release_lookup h]
  by_cases he : e1 = e <;> simp [he]

theorem shared_release_none {s : State} {e : Nat} (h : s.heap[e]? = none) :
    shared_release e s = s := by
  simp [shared_release, h]

theorem shared_acquire_frame (e : Nat) (s : State) :
    (shared_acquire e s).tokens = s.tokens ∧
    (shared_acquire e s).m_registrations = s.m_registrations ∧
    (shared_acquire e s).m_registrations_lock = s.m_registrations_lock ∧
    (shared_acquire e s).m_notification_lock = s.m_notification_lock ∧
    (shared_acquire e s).passes = s.passes ∧
    (shared_acquire e s).trace = s.trace ∧
    (shared_acquire e s).heap.length = s.heap.length := by
  unfold shared_acquire
  cases h : s.heap[e]? <;> simp

theorem shared_acquire_lookup {s : State} {e : Nat} {c : control_block}
    (h : s.heap[e]? = some c) (e1 : Nat) :
    (shared_acquire e s).heap[e1]? =
      if e1 = e then some { c with strong := c.strong + 1 } else s.heap[e1]? := by
  have key : (shared_acquire e s).heap = s.heap.set e { c with strong := c.strong + 1 } := by
    simp [shared_acquire, h]
  exact lookup_heap_set h key e1

theorem shared_acquire_use_count {s : State} {e : Nat} {c : control_block}
    (h : s.heap[e]? = some c) (e1 : Nat) :
    use_count (shared_acquire e s) e1 =
      if e1 = e then c.strong + 1 else use_count s e1 := by
  unfold use_count
  rw [shared_acquire_lookup h]
  by_cases he : e1 = e <;> simp [he]

theorem release_events_counts (s : State) (e e1 : Nat) :
    started (release_events s e) e1 = 0 ∧ finished (release_events s e) e1 = 0 ∧
    (∀ ev ∈ release_events s e, ev.pass_of = none) := by
  unfold release_events
  cases h : s.heap[e]? with
  | none => simp [started, finished]
  | some c =>
    by_cases h1 : c.strong = 1
    · cases hh : c.entry.m_endhandler <;>
        simp [h1, hh, started, finished, Event.starts, Event.finishes, Event.pass_of,
          List.countP_cons]
    · simp [h1, started, finished]

theorem release_events_last {s : State} {e : Nat} {c : control_block}
    (h : s.heap[e]? = some c) (h1 : c.strong = 1) :
    release_events s e =
      (match c.entry.m_endhandler with
        | some l => [Event.endhandler e l s.m_notification_lock s.m_registrations_lock]
        | none => []) ++ [Event.destroy e] := by
  simp [release_events, h, h1]

theorem release_events_not_last {s : State} {e : Nat} {c : control_block}
    (h : s.heap[e]? = some c) (h1 : c.strong ≠ 1) : release_events s e = [] := by
  simp [release_events, h, h1]

theorem release_events_destroyed {s : State} {e : Nat} {c : control_block}
    (h : s.heap[e]? = some c) (e1 : Nat) :
    destroyed (release_events s e) e1 = if e1 = e ∧ c.strong = 1 then 1 else 0 := by
  by_cases h1 : c.strong = 1
  · rw [release_events_last h h1]
    by_cases he : e1 = e
    · subst he
      cases hh : c.entry.m_endhandler <;>
        simp [h1, destroyed, Event.destroys, List.countP_cons]
    · have he2 : ¬ e = e1 := fun h2 => he h2.symm
      cases hh : c.entry.m_endhandler <;>
        simp [h1, destroyed, Event.destroys, List.countP_cons, he, he2]
  · rw [release_events_not_last h h1]
    simp [h1, destroyed]

theorem release_events_handled {s : State} {e : Nat} {c : control_block}
    (h : s.heap[e]? = some c) (e1 : Nat) :
    handled (release_events s e) e1 =
      if e1 = e ∧ c.strong = 1 ∧ c.entry.m_endhandler.isSome then 1 else 0 := by
  by_cases h1 : c.strong = 1
  · rw [release_events_last h h1]
    by_cases he : e1 = e
    · subst he
      cases hh : c.entry.m_endhandler <;>
        simp [h1, handled, Event.handles, List.countP_cons]
    · have he2 : ¬ e = e1 := fun h2 => he h2.symm
      cases hh : c.entry.m_endhandler <;>
        simp [h1, handled, Event.handles, List.countP_cons, he, he2]
  · rw [release_events_not_last h h1]
    simp [h1, handled]

end registration

namespace registration

/-! ## The relations between the state before and after a run -/

theorem extends_from_refl (n : Nat) (s : State) : extends_from n s s where
  trace_ext := ⟨[], by simp, by simp, by simp [started]⟩
  passes_le := Nat.le_refl _
  heap_le := Nat.le_refl _
  tokens_le := Nat.le_refl _
  code := fun _ c h => ⟨c, h, rfl⟩
  dead := fun _ _ h => h

theorem extends_from_trans {n m : Nat} {s s1 s2 : State} (h1 : extends_from n s s1)
    (h2 : extends_from m s1 s2) (hnm : n ≤ m) : extends_from n s s2 where
  trace_ext := by
    obtain ⟨x1, hx1, ht1, hd1⟩ := h1.trace_ext
    obtain ⟨x2, hx2, ht2, hd2⟩ := h2.trace_ext
    refine ⟨x1 ++ x2, by rw [hx2, hx1, List.append_assoc], ?_, ?_⟩
    · intro ev hev p hp
      rcases List.mem_append.mp hev with hm | hm
      · exact ht1 ev hm p hp
      · exact Nat.le_trans hnm (ht2 ev hm p hp)
    · intro e hlt hz
      rw [started_append, hd1 e hlt hz,
        hd2 e (Nat.lt_of_lt_of_le hlt h1.heap_le) (h1.dead e hlt hz)]
  passes_le := Nat.le_trans h1.passes_le h2.passes_le
  heap_le := Nat.le_trans h1.heap_le h2.heap_le
  tokens_le := Nat.le_trans h1.tokens_le h2.tokens_le
  code := by
    intro e c hc
    obtain ⟨c1, hc1, he1⟩ := h1.code e c hc
    obtain ⟨c2, hc2, he2⟩ := h2.code e c1 hc1
    exact ⟨c2, hc2, he2.trans he1⟩
  dead := fun e hlt hz =>
    h2.dead e (Nat.lt_of_lt_of_le hlt h1.heap_le) (h1.dead e hlt hz)

theorem extends_from_weaken {n m : Nat} {s s1 : State} (h : extends_from n s s1)
    (hmn : m ≤ n) : extends_from m s s1 where
  trace_ext := by
    obtain ⟨x1, hx1, ht1, hd1⟩ := h.trace_ext
    exact ⟨x1, hx1, fun ev hev p hp => Nat.le_trans hmn (ht1 ev hev p hp), hd1⟩
  passes_le := h.passes_le
  heap_le := h.heap_le
  tokens_le := h.tokens_le
  code := h.code
  dead := h.dead

theorem extends_to_refl (s : State) : extends_to s s := extends_from_refl _ s

theorem extends_to_trans {s s1 s2 : State} (h1 : extends_to s s1) (h2 : extends_to s1 s2) :
    extends_to s s2 :=
  extends_from_trans h1 h2 h1.passes_le

theorem balanced_refl (s : State) : balanced s s where
  in_progress := fun _ => rfl
  lock_count := rfl
  lock_owner := fun _ => rfl

theorem balanced_trans {s s1 s2 : State} (h1 : balanced s s1) (h2 : balanced s1 s2) :
    balanced s s2 where
  in_progress := by
    intro e
    have a := h1.in_progress e
    have b := h2.in_progress e
    omega
  lock_count := h2.lock_count.trans h1.lock_count
  lock_owner := by
    intro hpos
    have hpos1 : 0 < s1.m_notification_lock.count := by rw [h1.lock_count]; exact hpos
    exact (h2.lock_owner hpos1).trans (h1.lock_owner hpos)

theorem sound_refl {s : State} (h : wellformed s) (st : Status) : sound s (st, s) :=
  ⟨h, extends_to_refl s, fun _ => balanced_refl s⟩

end registration

namespace registration

/-! ## Frame facts for `emit` -/

@[simp] theorem emit_trace (ev : Event) (s : State) : (emit ev s).trace = s.trace ++ [ev] := rfl
@[simp] theorem emit_heap (ev : Event) (s : State) : (emit ev s).heap = s.heap := rfl
@[simp] theorem emit_tokens (ev : Event) (s : State) : (emit ev s).tokens = s.tokens := rfl
@[simp] theorem emit_regs (ev : Event) (s : State) :
    (emit ev s).m_registrations = s.m_registrations := rfl
@[simp] theorem emit_regs_lock (ev : Event) (s : State) :
    (emit ev s).m_registrations_lock = s.m_registrations_lock := rfl
@[simp] theorem emit_notif_lock (ev : Event) (s : State) :
    (emit ev s).m_notification_lock = s.m_notification_lock := rfl
@[simp] theorem emit_passes (ev : Event) (s : State) : (emit ev s).passes = s.passes := rfl
@[simp] theorem use_count_emit (ev : Event) (s : State) (e : Nat) :
    use_count (emit ev s) e = use_count s e := rfl
@[simp] theorem holders_emit (ev : Event) (s : State) (e : Nat) :
    holders (emit ev s) e = holders s e := rfl

theorem use_count_congr {s s1 : State} (h : s1.heap = s.heap) (e : Nat) :
    use_count s1 e = use_count s e := by
  unfold use_count; rw [h]

theorem holders_congr {s s1 : State} (h : s1.tokens = s.tokens) (e : Nat) :
    holders s1 e = holders s e := by
  unfold holders; rw [h]

/-- Events that start no invocation keep the trace free of invocations of
deleted entries. -/
theorem no_revival_append_quiet {tr ext : List Event}
    (h1 : ∀ pre post e, tr = pre ++ Event.destroy e :: post → started post e = 0)
    (hq : ∀ e, started ext e = 0) :
    ∀ pre post e, tr ++ ext = pre ++ Event.destroy e :: post → started post e = 0 := by
  intro pre post e heq
  rcases List.append_eq_append_iff.mp heq with ⟨a, _, ha⟩ | ⟨c, hc1, hc2⟩
  · have := hq e
    rw [ha, started_append] at this
    have h3 : started (Event.destroy e :: post) e = started post e := by
      simp [started, Event.starts, List.countP_cons]
    omega
  · cases c with
    | nil =>
      simp at hc2
      have := hq e
      rw [← hc2] at this
      have h3 : started (Event.destroy e :: post) e = started post e := by
        simp [started, Event.starts, List.countP_cons]
      omega
    | cons d c1 =>
      simp at hc2
      obtain ⟨hd, hpost⟩ := hc2
      subst hd
      rw [hpost, started_append, hq e, h1 pre c1 e hc1]

/-- A step that leaves the heap, the sequence of weak references, the trace and
the number of tokens holding each entry as they are keeps the invariant. -/
theorem wellformed_transfer {s s1 : State} (h : wellformed s)
    (hlock : s1.m_registrations_lock = false)
    (hregs : s1.m_registrations = s.m_registrations)
    (hheap : s1.heap = s.heap)
    (htokm : ∀ t ∈ s1.tokens, ∀ e, t.m_registration_holder = some e → t.m_notify_mutex = true)
    (hhold : ∀ e, holders s1 e = holders s e)
    (htrace : s1.trace = s.trace) (hp : s.passes ≤ s1.passes) : wellformed s1 where
  regs_free := hlock
  regs_sorted := by rw [hregs]; exact h.regs_sorted
  regs_bound := by rw [hregs, hheap]; exact h.regs_bound
  regs_alive := by
    intro e he
    rw [use_count_congr hheap] at he
    rw [hregs]; exact h.regs_alive e he
  tok_mutex := htokm
  fin_le := by rw [htrace]; exact h.fin_le
  counts := by
    intro e
    rw [use_count_congr hheap, hhold, htrace]; exact h.counts e
  tags := by
    intro ev hev p hp1
    rw [htrace] at hev
    exact Nat.lt_of_lt_of_le (h.tags ev hev p hp1) hp
  deleted := by
    intro e
    rw [use_count_congr hheap, htrace, hheap]; exact h.deleted e
  ended := by
    intro e
    rw [htrace, hheap]; exact h.ended e
  no_revival := by rw [htrace]; exact h.no_revival

theorem extends_to_transfer {s s1 : State}
    (hheap : s1.heap = s.heap) (htok : s.tokens.length ≤ s1.tokens.length)
    (htrace : s1.trace = s.trace) (hp : s.passes ≤ s1.passes) : extends_to s s1 where
  trace_ext := ⟨[], by simp [htrace], by simp, by simp [started]⟩
  passes_le := hp
  heap_le := by rw [hheap]
  tokens_le := htok
  code := fun e c hc => ⟨c, by rw [hheap]; exact hc, rfl⟩
  dead := fun e _ hz => by rw [use_count_congr hheap]; exact hz

/-! ## Logging -/

theorem wellformed_emit_log {s : State} (h : wellformed s) (l : Nat) :
    wellformed (emit (Event.log l) s) where
  regs_free := h.regs_free
  regs_sorted := h.regs_sorted
  regs_bound := h.regs_bound
  regs_alive := h.regs_alive
  tok_mutex := h.tok_mutex
  fin_le := by
    intro e
    simpa [started, finished, Event.starts, Event.finishes, List.countP_cons] using h.fin_le e
  counts := by
    intro e
    simpa [started, finished, Event.starts, Event.finishes, List.countP_cons] using h.counts e
  tags := by
    intro ev hev p hp
    rcases List.mem_append.mp hev with hm | hm
    · exact h.tags ev hm p hp
    · simp at hm; subst hm; simp [Event.pass_of] at hp
  deleted := by
    intro e
    simpa [destroyed, Event.destroys, List.countP_cons] using h.deleted e
  ended := by
    intro e
    simpa [handled, Event.handles, List.countP_cons] using h.ended e
  no_revival := no_revival_append_quiet h.no_revival
    (by intro e; simp [started, Event.starts, List.countP_cons])

theorem extends_to_emit_log (s : State) (l : Nat) : extends_to s (emit (Event.log l) s) where
  trace_ext := ⟨[Event.log l], rfl, by simp [Event.pass_of],
    by simp [started, Event.starts, List.countP_cons]⟩
  passes_le := Nat.le_refl _
  heap_le := Nat.le_refl _
  tokens_le := Nat.le_refl _
  code := fun _ c h => ⟨c, h, rfl⟩
  dead := fun _ _ h => h

theorem balanced_emit_log (s : State) (l : Nat) : balanced s (emit (Event.log l) s) where
  in_progress := by
    intro e
    simp [started, finished, Event.starts, Event.finishes, List.countP_cons]
  lock_count := rfl
  lock_owner := fun _ => rfl

end registration

namespace registration

/-! ## Entering and leaving a callback invocation -/

theorem weak_lock_some {s s1 : State} {e : Nat} {c : registration_entry}
    (h : weak_lock s e = some (c, s1)) :
    ∃ c0 : control_block, s.heap[e]? = some c0 ∧ c0.strong ≠ 0 ∧ c = c0.entry ∧
      s1 = shared_acquire e s := by
  unfold weak_lock at h
  cases hc : s.heap[e]? with
  | none => simp [hc] at h
  | some c0 =>
    by_cases h0 : c0.strong = 0
    · simp [hc, h0] at h
    · simp [hc, h0] at h
      exact ⟨c0, rfl, h0, h.1.symm, h.2.symm⟩

theorem weak_lock_none {s : State} {e : Nat} (h : weak_lock s e = none) :
    use_count s e = 0 := by
  unfold weak_lock at h
  cases hc : s.heap[e]? with
  | none => exact use_count_of_none hc
  | some c0 =>
    by_cases h0 : c0.strong = 0
    · rw [use_count_of_lookup hc]; exact h0
    · simp [hc, h0] at h

theorem weak_lock_of_lookup {s : State} {e : Nat} {c0 : control_block}
    (hc : s.heap[e]? = some c0) (hpos : c0.strong ≠ 0) :
    weak_lock s e = some (c0.entry, shared_acquire e s) := by
  simp [weak_lock, hc, hpos]

theorem counts_call (p e arg e1 : Nat) :
    started [Event.call p e arg] e1 = (if e1 = e then 1 else 0) ∧
    finished [Event.call p e arg] e1 = 0 ∧ destroyed [Event.call p e arg] e1 = 0 ∧
    handled [Event.call p e arg] e1 = 0 := by
  by_cases he : e1 = e
  · subst he
    simp [started, finished, destroyed, handled, Event.starts, Event.finishes,
      Event.destroys, Event.handles, List.countP_cons]
  · have he2 : ¬ e = e1 := fun h2 => he h2.symm
    simp [started, finished, destroyed, handled, Event.starts, Event.finishes,
      Event.destroys, Event.handles, List.countP_cons, he, he2]

theorem counts_ret (p e e1 : Nat) :
    started [Event.ret p e] e1 = 0 ∧
    finished [Event.ret p e] e1 = (if e1 = e then 1 else 0) ∧
    destroyed [Event.ret p e] e1 = 0 ∧ handled [Event.ret p e] e1 = 0 := by
  by_cases he : e1 = e
  · subst he
    simp [started, finished, destroyed, handled, Event.starts, Event.finishes,
      Event.destroys, Event.handles, List.countP_cons]
  · have he2 : ¬ e = e1 := fun h2 => he h2.symm
    simp [started, finished, destroyed, handled, Event.starts, Event.finishes,
      Event.destroys, Event.handles, List.countP_cons, he, he2]

theorem counts_exc (p e err e1 : Nat) :
    started [Event.exc p e err] e1 = 0 ∧
    finished [Event.exc p e err] e1 = (if e1 = e then 1 else 0) ∧
    destroyed [Event.exc p e err] e1 = 0 ∧ handled [Event.exc p e err] e1 = 0 := by
  by_cases he : e1 = e
  · subst he
    simp [started, finished, destroyed, handled, Event.starts, Event.finishes,
      Event.destroys, Event.handles, List.countP_cons]
  · have he2 : ¬ e = e1 := fun h2 => he h2.symm
    simp [started, finished, destroyed, handled, Event.starts, Event.finishes,
      Event.destroys, Event.handles, List.countP_cons, he, he2]

/-- The start of an invocation of an entry that has not been deleted keeps the
trace free of invocations of deleted entries. -/
theorem no_revival_append_call {tr : List Event} {p e arg : Nat}
    (h1 : ∀ pre post e, tr = pre ++ Event.destroy e :: post → started post e = 0)
    (hd : destroyed tr e = 0) :
    ∀ pre post e1, tr ++ [Event.call p e arg] = pre ++ Event.destroy e1 :: post →
      started post e1 = 0 := by
  intro pre post e1 heq
  rcases List.append_eq_append_iff.mp heq with ⟨a, _, ha⟩ | ⟨c, hc1, hc2⟩
  · cases a with
    | nil => simp at ha
    | cons d a1 =>
      cases a1 <;> simp at ha
  · cases c with
    | nil => simp at hc2
    | cons d c1 =>
      simp at hc2
      obtain ⟨hd1, hpost⟩ := hc2
      subst hd1
      rw [hpost, started_append, h1 pre c1 e1 hc1, (counts_call p e arg e1).1]
      by_cases he : e1 = e
      · subst he
        have : 0 < destroyed tr e1 := by
          rw [hc1, destroyed_append]
          have : 0 < destroyed (Event.destroy e1 :: c1) e1 := by
            simp [destroyed, Event.destroys, List.countP_cons]
          omega
        omega
      · simp [he]

theorem wellformed_enter {s : State} {e : Nat} {c0 : control_block} (h : wellformed s)
    (hc : s.heap[e]? = some c0) (hpos : c0.strong ≠ 0) {p : Nat} (hp : p < s.passes)
    (arg : Nat) : wellformed (emit (Event.call p e arg) (shared_acquire e s)) := by
  obtain ⟨hf1, hf2, hf3, hf4, hf5, hf6, hf7⟩ := shared_acquire_frame e s
  have huc := shared_acquire_use_count hc
  have hlk := shared_acquire_lookup hc
  have hce := use_count_of_lookup hc
  constructor
  · simpa [hf3] using h.regs_free
  · simpa [hf2] using h.regs_sorted
  · simpa [hf2, hf7] using h.regs_bound
  · intro e1 he1
    simp only [use_count_emit, emit_regs, hf2, huc] at he1 ⊢
    by_cases he : e1 = e
    · subst he
      exact h.regs_alive e1 (by omega)
    · simp only [he, if_false] at he1
      exact h.regs_alive e1 he1
  · simpa [hf1] using h.tok_mutex
  · intro e1
    have := h.fin_le e1
    obtain ⟨k1, k2, _, _⟩ := counts_call p e arg e1
    simp only [emit_trace, hf6, started_append, finished_append, k1, k2]
    omega
  · intro e1
    have := h.counts e1
    obtain ⟨k1, k2, _, _⟩ := counts_call p e arg e1
    simp only [emit_trace, hf6, started_append, finished_append, use_count_emit, holders_emit,
      holders_congr hf1, huc, k1, k2]
    by_cases he : e1 = e
    · subst he
      simp only [if_true]
      omega
    · simp only [he, if_false]
      omega
  · intro ev hev q hq
    simp only [emit_trace, hf6, emit_passes, hf5] at hev ⊢
    rcases List.mem_append.mp hev with hm | hm
    · exact h.tags ev hm q hq
    · simp at hm; subst hm; simp [Event.pass_of] at hq; omega
  · intro e1
    have := h.deleted e1
    obtain ⟨_, _, k3, _⟩ := counts_call p e arg e1
    simp only [emit_trace, hf6, destroyed_append, use_count_emit, emit_heap, hf7, huc, k3]
    by_cases he : e1 = e
    · subst he
      rw [this, hce]
      simp [hpos]
    · simp only [he, if_false]
      exact this
  · intro e1
    have := h.ended e1
    obtain ⟨_, _, _, k4⟩ := counts_call p e arg e1
    simp only [emit_trace, hf6, handled_append, emit_heap, hlk, k4]
    by_cases he : e1 = e
    · subst he
      rw [this, hc]
      simp [hpos]
    · simp only [he, if_false]
      exact this
  · simp only [emit_trace, hf6]
    refine no_revival_append_call h.no_revival ?_
    rw [h.deleted e, hce]
    simp [hpos]

end registration

namespace registration

/-- Dropping a strong reference to a live entry keeps the invariant when the
reference dropped is accounted for: it was a token's (so that one token less
holds the entry) or an invocation's (so that `pre` records its end). -/
theorem wellformed_release_gen {s s1 : State} {e : Nat} {c : control_block}
    (h : wellformed s) (hc : s.heap[e]? = some c) (hpos : c.strong ≠ 0) (pre : List Event)
    (hlock : s1.m_registrations_lock = false)
    (hregs : s1.m_registrations = s.m_registrations)
    (hlk : ∀ e1, s1.heap[e1]? =
      if e1 = e then some { c with strong := c.strong - 1 } else s.heap[e1]?)
    (hlen : s1.heap.length = s.heap.length)
    (htr : s1.trace = s.trace ++ pre ++ release_events s e)
    (hpre : ∀ e1, started pre e1 = 0 ∧ destroyed pre e1 = 0 ∧ handled pre e1 = 0)
    (hptag : ∀ ev ∈ pre, ∀ q, ev.pass_of = some q → q < s.passes)
    (hpass : s.passes ≤ s1.passes)
    (htok : ∀ t ∈ s1.tokens, ∀ e, t.m_registration_holder = some e → t.m_notify_mutex = true)
    (hcnt : ∀ e1, holders s1 e1 + (if e1 = e then 1 else 0) = holders s e1 + finished pre e1)
    (hfin : ∀ e1, finished s.trace e1 + finished pre e1 ≤ started s.trace e1) :
    wellformed s1 := by
  have huc : ∀ e1, use_count s1 e1 = if e1 = e then c.strong - 1 else use_count s e1 := by
    intro e1
    unfold use_count
    rw [hlk e1]
    by_cases he : e1 = e <;> simp [he]
  have hce := use_count_of_lookup hc
  have hlt := lt_length_of_lookup hc
  constructor
  · exact hlock
  · rw [hregs]; exact h.regs_sorted
  · rw [hregs, hlen]; exact h.regs_bound
  · intro e1 he1
    rw [hregs]
    rw [huc] at he1
    by_cases he : e1 = e
    · subst he
      exact h.regs_alive e1 (by omega)
    · simp only [he, if_false] at he1
      exact h.regs_alive e1 he1
  · exact htok
  · intro e1
    obtain ⟨r1, r2, _⟩ := release_events_counts s e e1
    obtain ⟨p1, _, _⟩ := hpre e1
    have := hfin e1
    rw [htr]
    simp only [started_append, finished_append, r1, r2, p1]
    omega
  · intro e1
    obtain ⟨r1, r2, _⟩ := release_events_counts s e e1
    obtain ⟨p1, _, _⟩ := hpre e1
    have h1 := h.counts e1
    have h2 := hcnt e1
    have h3 := hfin e1
    rw [htr, huc]
    simp only [started_append, finished_append, r1, r2, p1]
    by_cases he : e1 = e
    · subst he
      simp only [if_true] at h2 ⊢
      omega
    · simp only [he, if_false] at h2 ⊢
      omega
  · intro ev hev q hq
    rw [htr] at hev
    rcases List.mem_append.mp hev with hm | hm
    · rcases List.mem_append.mp hm with hm1 | hm1
      · exact Nat.lt_of_lt_of_le (h.tags ev hm1 q hq) hpass
      · exact Nat.lt_of_lt_of_le (hptag ev hm1 q hq) hpass
    · have := (release_events_counts s e 0).2.2 ev hm
      rw [this] at hq
      cases hq
  · intro e1
    obtain ⟨_, p2, _⟩ := hpre e1
    have h1 := h.deleted e1
    rw [htr, huc, hlen]
    simp only [destroyed_append, p2, release_events_destroyed hc, h1]
    by_cases he : e1 = e
    · subst he
      simp only [hce, hlt, true_and, if_true]
      by_cases hone : c.strong = 1
      · simp [hone]
      · have : ¬ c.strong - 1 = 0 := by omega
        simp [hone, hpos, this]
    · simp [he]
  · intro e1
    obtain ⟨_, _, p3⟩ := hpre e1
    have h1 := h.ended e1
    rw [htr, hlk]
    simp only [handled_append, p3, release_events_handled hc, h1]
    by_cases he : e1 = e
    · subst he
      simp only [hc, true_and, if_true]
      by_cases hone : c.strong = 1
      · simp [hone]
      · have : ¬ c.strong - 1 = 0 := by omega
        simp [hone, hpos, this]
    · simp [he]
  · rw [htr, List.append_assoc]
    refine no_revival_append_quiet h.no_revival ?_
    intro e1
    rw [started_append, (hpre e1).1, (release_events_counts s e e1).1]

end registration

namespace registration

theorem release_events_emit (ev : Event) (s : State) (e : Nat) :
    release_events (emit ev s) e = release_events s e := rfl

/-- An entry with an invocation in progress is alive. -/
theorem lookup_of_in_progress {s : State} {e : Nat} (h : wellformed s)
    (hin : finished s.trace e < started s.trace e) :
    ∃ c : control_block, s.heap[e]? = some c ∧ c.strong ≠ 0 := by
  have h1 := h.counts e
  have hpos : 0 < use_count s e := by omega
  obtain ⟨c, hc, hs⟩ := lookup_of_use_count_pos hpos
  exact ⟨c, hc, by omega⟩

theorem wellformed_leave {s : State} {e p : Nat} {v : Event} (h : wellformed s)
    (hin : finished s.trace e < started s.trace e) (hp : p < s.passes)
    (hev : v = Event.ret p e ∨ ∃ err, v = Event.exc p e err) :
    wellformed (shared_release e (emit v s)) := by
  obtain ⟨c, hc, hpos⟩ := lookup_of_in_progress h hin
  have hc1 : (emit v s).heap[e]? = some c := hc
  obtain ⟨hf1, hf2, hf3, hf4, hf5, hf6⟩ := shared_release_frame e (emit v s)
  have hcounts : ∀ e1, started [v] e1 = 0 ∧
      finished [v] e1 = (if e1 = e then 1 else 0) ∧
      destroyed [v] e1 = 0 ∧ handled [v] e1 = 0 := by
    intro e1
    rcases hev with hr | ⟨err, hr⟩
    · rw [hr]; exact counts_ret p e e1
    · rw [hr]; exact counts_exc p e err e1
  refine wellformed_release_gen h hc hpos [v] ?_ ?_ ?_ ?_ ?_ ?_ ?_ ?_ ?_ ?_ ?_
  · rw [hf3]; exact h.regs_free
  · rw [hf2]; rfl
  · intro e1; exact shared_release_lookup hc1 e1
  · rw [hf6]; rfl
  · rw [shared_release_trace, release_events_emit]; rfl
  · intro e1; exact ⟨(hcounts e1).1, (hcounts e1).2.2.1, (hcounts e1).2.2.2⟩
  · intro ev1 hm q hq
    simp at hm; subst hm
    rcases hev with hr | ⟨err, hr⟩ <;> (rw [hr] at hq; simp [Event.pass_of] at hq; omega)
  · rw [hf5]; exact Nat.le_refl _
  · rw [hf1]; exact h.tok_mutex
  · intro e1
    rw [holders_congr hf1, holders_emit, (hcounts e1).2.1]
  · intro e1
    rw [(hcounts e1).2.1]
    by_cases he : e1 = e
    · subst he; simp only [if_true]; omega
    · simp only [he, if_false]; exact h.fin_le e1

theorem extends_from_enter {s : State} {e : Nat} {c0 : control_block}
    (hc : s.heap[e]? = some c0) (hpos : c0.strong ≠ 0) {n p : Nat} (hp : n ≤ p)
    (arg : Nat) : extends_from n s (emit (Event.call p e arg) (shared_acquire e s)) := by
  obtain ⟨hf1, hf2, hf3, hf4, hf5, hf6, hf7⟩ := shared_acquire_frame e s
  have huc := shared_acquire_use_count hc
  have hlk := shared_acquire_lookup hc
  have hce := use_count_of_lookup hc
  constructor
  · refine ⟨[Event.call p e arg], by simp [hf6], ?_, ?_⟩
    · intro ev hm q hq
      simp at hm; subst hm; simp [Event.pass_of] at hq; omega
    · intro e1 _ hz
      rw [(counts_call p e arg e1).1]
      by_cases he : e1 = e
      · subst he; omega
      · simp [he]
  · simp [hf5]
  · simp [hf7]
  · simp [hf1]
  · intro e1 c hc1
    simp only [emit_heap, hlk]
    by_cases he : e1 = e
    · subst he
      rw [hc] at hc1
      cases hc1
      exact ⟨{ c0 with strong := c0.strong + 1 }, by simp, rfl⟩
    · exact ⟨c, by simp [he, hc1], rfl⟩
  · intro e1 _ hz
    simp only [use_count_emit, huc]
    by_cases he : e1 = e
    · subst he; omega
    · simp [he, hz]

theorem extends_from_leave {s : State} {e n p : Nat} {ev : Event}
    (hp : n ≤ p)
    (hev : ev = Event.ret p e ∨ ∃ err, ev = Event.exc p e err) :
    extends_from n s (shared_release e (emit ev s)) := by
  obtain ⟨hf1, hf2, hf3, hf4, hf5, hf6⟩ := shared_release_frame e (emit ev s)
  have hst : ∀ e1, started [ev] e1 = 0 := by
    intro e1
    rcases hev with hr | ⟨err, hr⟩
    · rw [hr]; exact (counts_ret p e e1).1
    · rw [hr]; exact (counts_exc p e err e1).1
  constructor
  · refine ⟨[ev] ++ release_events s e, ?_, ?_, ?_⟩
    · rw [shared_release_trace, release_events_emit]; simp
    · intro ev1 hm q hq
      rcases List.mem_append.mp hm with hm1 | hm1
      · simp at hm1; subst hm1
        rcases hev with hr | ⟨err, hr⟩ <;> (rw [hr] at hq; simp [Event.pass_of] at hq; omega)
      · have := (release_events_counts s e 0).2.2 ev1 hm1
        rw [this] at hq; cases hq
    · intro e1 _ _
      rw [started_append, hst, (release_events_counts s e e1).1]
  · simp [hf5]
  · simp [hf6]
  · simp [hf1]
  · intro e1 c hc1
    cases hce : s.heap[e]? with
    | none =>
      have : (emit ev s).heap[e]? = none := hce
      rw [shared_release_none this]
      exact ⟨c, hc1, rfl⟩
    | some c0 =>
      have hc0 : (emit ev s).heap[e]? = some c0 := hce
      rw [shared_release_lookup hc0]
      by_cases he : e1 = e
      · subst he
        rw [hce] at hc1
        cases hc1
        exact ⟨{ c with strong := c.strong - 1 }, by simp, rfl⟩
      · exact ⟨c, by simp [he]; exact hc1, rfl⟩
  · intro e1 _ hz
    cases hce : s.heap[e]? with
    | none =>
      have : (emit ev s).heap[e]? = none := hce
      rw [shared_release_none this]
      exact hz
    | some c0 =>
      have hc0 : (emit ev s).heap[e]? = some c0 := hce
      rw [shared_release_use_count hc0]
      by_cases he : e1 = e
      · subst he
        have := use_count_of_lookup hce
        simp only [if_true]; omega
      · simp only [he, if_false]; exact hz

end registration

namespace registration

/-! ## Tokens -/

theorem holders_append (s s1 : State) (t : token) (h : s1.tokens = s.tokens ++ [t]) (e : Nat) :
    holders s1 e = holders s e + if t.m_registration_holder = some e then 1 else 0 := by
  unfold holders
  rw [h, List.countP_append]
  by_cases ht : t.m_registration_holder = some e <;> simp [List.countP_cons, ht]

theorem holders_set {s u : State} {i : Nat} {t : token} (ht : s.tokens[i]? = some t)
    (h : u.tokens = s.tokens.set i token.null) (e : Nat) :
    holders u e + (if t.m_registration_holder = some e then 1 else 0) = holders s e := by
  obtain ⟨hlt, hget⟩ := List.getElem?_eq_some.mp ht
  have hle := List.boole_getElem_le_countP
    (fun t => t.m_registration_holder == some e) s.tokens i hlt
  have key := List.countP_set (fun t => t.m_registration_holder == some e) s.tokens i
    token.null hlt
  unfold holders
  rw [h, key]
  rw [hget] at hle ⊢
  by_cases hte : t.m_registration_holder = some e
  · simp only [hte, beq_self_eq_true, if_true, token.null] at hle ⊢
    simp
    omega
  · simp [hte, token.null]

theorem tok_mutex_set {s s1 : State} {i : Nat} (h : wellformed s)
    (hs : s1.tokens = s.tokens.set i token.null) :
    ∀ t ∈ s1.tokens, ∀ e, t.m_registration_holder = some e → t.m_notify_mutex = true := by
  intro t ht e he
  rw [hs] at ht
  rcases List.mem_or_eq_of_mem_set ht with hm | hm
  · exact h.tok_mutex t hm e he
  · subst hm; simp [token.null] at he

theorem token_reset_none {s : State} {i : Nat} (h : s.tokens[i]? = none) :
    token_reset i s = s := by
  simp [token_reset, h]

theorem wellformed_token_reset {s : State} (h : wellformed s) (i : Nat) :
    wellformed (token_reset i s) := by
  cases ht : s.tokens[i]? with
  | none => rw [token_reset_none ht]; exact h
  | some t =>
    cases hh : t.m_registration_holder with
    | none =>
      have hs : token_reset i s = { s with tokens := s.tokens.set i token.null } := by
        simp [token_reset, ht, hh]
      rw [hs]
      refine wellformed_transfer h h.regs_free rfl rfl (tok_mutex_set h rfl) ?_ rfl (Nat.le_refl _)
      intro e
      have := holders_set (u := { s with tokens := s.tokens.set i token.null }) ht rfl e
      simpa [hh] using this
    | some e =>
      have hs : token_reset i s = { shared_release e s with
          tokens := List.set (shared_release e s).tokens i token.null } := by
        simp [token_reset, ht, hh]
      obtain ⟨hf1, hf2, hf3, hf4, hf5, hf6⟩ := shared_release_frame e s
      have hhold := holders_set (u := token_reset i s) ht (by rw [hs, hf1])
      have hpos : 0 < use_count s e := by
        have h1 := h.counts e
        have h2 := h.fin_le e
        have h3 := hhold e
        simp only [hh, if_true] at h3
        omega
      obtain ⟨c, hc, hcs⟩ := lookup_of_use_count_pos hpos
      refine wellformed_release_gen h hc (by omega) [] ?_ ?_ ?_ ?_ ?_ ?_ ?_ ?_ ?_ ?_ ?_
      · rw [hs]; exact hf3.trans h.regs_free
      · rw [hs]; exact hf2
      · intro e1; rw [hs]; exact shared_release_lookup hc e1
      · rw [hs]; exact hf6
      · rw [hs]; simp [shared_release_trace]
      · intro e1; simp [started, destroyed, handled]
      · intro ev hm; simp at hm
      · rw [hs]; exact Nat.le_of_eq hf5.symm
      · exact tok_mutex_set h (by rw [hs, hf1])
      · intro e1
        have := hhold e1
        simp only [hh, Option.some.injEq] at this
        by_cases he : e1 = e
        · subst he; simp [finished] at this ⊢; omega
        · have he2 : ¬ e = e1 := fun h2 => he h2.symm
          simp [finished, he, he2] at this ⊢; omega
      · intro e1; simpa [finished] using h.fin_le e1

end registration

namespace registration

/-- A step that only lowers reference counts and only adds events that are not
invocations extends the state. -/
theorem extends_to_of_lower {s s1 : State} (ext : List Event)
    (htr : s1.trace = s.trace ++ ext)
    (hext : ∀ e, started ext e = 0) (htag : ∀ ev ∈ ext, ev.pass_of = none)
    (hp : s.passes ≤ s1.passes) (hlen : s.heap.length ≤ s1.heap.length)
    (htok : s.tokens.length ≤ s1.tokens.length)
    (hcode : ∀ (e : Nat) (c : control_block), s.heap[e]? = some c →
      ∃ c1 : control_block, s1.heap[e]? = some c1 ∧ c1.entry = c.entry ∧ c1.strong ≤ c.strong) :
    extends_to s s1 where
  trace_ext := by
    refine ⟨ext, htr, ?_, fun e _ _ => hext e⟩
    intro ev hm q hq
    rw [htag ev hm] at hq; cases hq
  passes_le := hp
  heap_le := hlen
  tokens_le := htok
  code := by
    intro e c hc
    obtain ⟨c1, h1, h2, _⟩ := hcode e c hc
    exact ⟨c1, h1, h2⟩
  dead := by
    intro e hlt hz
    obtain ⟨c, hc⟩ : ∃ c : control_block, s.heap[e]? = some c := by
      cases hc : s.heap[e]? with
      | none => rw [List.getElem?_eq_none_iff] at hc; omega
      | some c => exact ⟨c, rfl⟩
    obtain ⟨c1, h1, _, h3⟩ := hcode e c hc
    rw [use_count_of_lookup hc] at hz
    rw [use_count_of_lookup h1]
    omega

theorem shared_release_code (s : State) (e : Nat) (e1 : Nat) (c : control_block)
    (hc : s.heap[e1]? = some c) :
    ∃ c1 : control_block, (shared_release e s).heap[e1]? = some c1 ∧ c1.entry = c.entry ∧
      c1.strong ≤ c.strong := by
  cases hce : s.heap[e]? with
  | none => rw [shared_release_none hce]; exact ⟨c, hc, rfl, Nat.le_refl _⟩
  | some c0 =>
    rw [shared_release_lookup hce]
    by_cases he : e1 = e
    · subst he
      rw [hce] at hc; cases hc
      exact ⟨{ c with strong := c.strong - 1 }, by simp, rfl, Nat.sub_le _ _⟩
    · exact ⟨c, by simp [he]; exact hc, rfl, Nat.le_refl _⟩

theorem token_reset_of_none {s : State} {i : Nat} {t : token} (ht : s.tokens[i]? = some t)
    (hh : t.m_registration_holder = none) :
    token_reset i s = { s with tokens := s.tokens.set i token.null } := by
  simp [token_reset, ht, hh]

theorem token_reset_of_some {s : State} {i e : Nat} {t : token} (ht : s.tokens[i]? = some t)
    (hh : t.m_registration_holder = some e) :
    token_reset i s = { shared_release e s with
      tokens := List.set (shared_release e s).tokens i token.null } := by
  simp [token_reset, ht, hh]

theorem token_reset_frame (i : Nat) (s : State) :
    (token_reset i s).m_registrations = s.m_registrations ∧
    (token_reset i s).m_registrations_lock = s.m_registrations_lock ∧
    (token_reset i s).m_notification_lock = s.m_notification_lock ∧
    (token_reset i s).passes = s.passes ∧
    (token_reset i s).heap.length = s.heap.length ∧
    (token_reset i s).tokens.length = s.tokens.length := by
  cases ht : s.tokens[i]? with
  | none => rw [token_reset_none ht]; simp
  | some t =>
    cases hh : t.m_registration_holder with
    | none => rw [token_reset_of_none ht hh]; simp
    | some e =>
      obtain ⟨hf1, hf2, hf3, hf4, hf5, hf6⟩ := shared_release_frame e s
      rw [token_reset_of_some ht hh]
      simp [hf1, hf2, hf3, hf4, hf5, hf6]

/-- The events of `token::unsubscribe` on token `i`. -/
theorem token_reset_trace (i : Nat) (s : State) :
    ∃ ext, (token_reset i s).trace = s.trace ++ ext ∧
      (∀ e, started ext e = 0 ∧ finished ext e = 0) ∧ (∀ ev ∈ ext, ev.pass_of = none) := by
  cases ht : s.tokens[i]? with
  | none => rw [token_reset_none ht]; exact ⟨[], by simp, by simp [started, finished], by simp⟩
  | some t =>
    cases hh : t.m_registration_holder with
    | none =>
      rw [token_reset_of_none ht hh]
      exact ⟨[], by simp, by simp [started, finished], by simp⟩
    | some e =>
      rw [token_reset_of_some ht hh]
      refine ⟨release_events s e, by simp [shared_release_trace], ?_, ?_⟩
      · intro e1; exact ⟨(release_events_counts s e e1).1, (release_events_counts s e e1).2.1⟩
      · exact (release_events_counts s e 0).2.2

theorem token_reset_code (i : Nat) (s : State) (e1 : Nat) (c : control_block)
    (hc : s.heap[e1]? = some c) :
    ∃ c1 : control_block, (token_reset i s).heap[e1]? = some c1 ∧ c1.entry = c.entry ∧
      c1.strong ≤ c.strong := by
  cases ht : s.tokens[i]? with
  | none => rw [token_reset_none ht]; exact ⟨c, hc, rfl, Nat.le_refl _⟩
  | some t =>
    cases hh : t.m_registration_holder with
    | none => rw [token_reset_of_none ht hh]; exact ⟨c, hc, rfl, Nat.le_refl _⟩
    | some e => rw [token_reset_of_some ht hh]; exact shared_release_code s e e1 c hc

theorem extends_to_token_reset (i : Nat) (s : State) : extends_to s (token_reset i s) := by
  obtain ⟨ext, htr, hcnt, htag⟩ := token_reset_trace i s
  obtain ⟨_, _, _, hf4, hf5, hf6⟩ := token_reset_frame i s
  exact extends_to_of_lower ext htr (fun e => (hcnt e).1) htag (Nat.le_of_eq hf4.symm)
    (Nat.le_of_eq hf5.symm) (Nat.le_of_eq hf6.symm) (token_reset_code i s)

theorem lock_unlock {m m1 : recursive_mutex} {tid : Nat} (h : m.lock tid = some m1) :
    m1.unlock.count = m.count ∧ (0 < m.count → m1.unlock.owner = m.owner) ∧
      m1.owner = tid ∧ 0 < m1.count := by
  unfold recursive_mutex.lock at h
  unfold recursive_mutex.unlock
  by_cases hz : m.count = 0
  · simp [hz] at h; subst h; simp [hz]
  · by_cases ho : m.owner = tid
    · simp [hz, ho] at h; subst h; simp [ho]
    · simp [hz, ho] at h

theorem lock_notification_some {s s1 : State} {tid : Nat}
    (h : lock_notification tid s = some s1) :
    ∃ m, s.m_notification_lock.lock tid = some m ∧ s1 = { s with m_notification_lock := m } := by
  unfold lock_notification at h
  cases hm : s.m_notification_lock.lock tid with
  | none => simp [hm] at h
  | some m => simp [hm] at h; exact ⟨m, rfl, h.symm⟩

theorem wellformed_lock_notification {s s1 : State} {tid : Nat} (hw : wellformed s)
    (h : lock_notification tid s = some s1) : wellformed s1 := by
  obtain ⟨m, _, hs⟩ := lock_notification_some h
  subst hs
  exact wellformed_transfer hw hw.regs_free rfl rfl hw.tok_mutex (fun _ => rfl) rfl (Nat.le_refl _)

theorem extends_to_lock_notification {s s1 : State} {tid : Nat}
    (h : lock_notification tid s = some s1) : extends_to s s1 := by
  obtain ⟨m, _, hs⟩ := lock_notification_some h
  subst hs
  exact extends_to_transfer rfl (Nat.le_refl _) rfl (Nat.le_refl _)

theorem wellformed_unlock_notification {s : State} (hw : wellformed s) :
    wellformed (unlock_notification s) :=
  wellformed_transfer hw hw.regs_free rfl rfl hw.tok_mutex (fun _ => rfl) rfl (Nat.le_refl _)

theorem extends_to_unlock_notification (s : State) : extends_to s (unlock_notification s) :=
  extends_to_transfer rfl (Nat.le_refl _) rfl (Nat.le_refl _)

/-- Taking the notification lock, running something that gives the lock back
as it got it, and releasing the lock leaves the lock as it was. -/
theorem balanced_locked {s s1 s2 : State} {tid : Nat}
    (h : lock_notification tid s = some s1)
    (hin : ∀ e, started s2.trace e + finished s1.trace e =
      started s1.trace e + finished s2.trace e)
    (hcount : s2.m_notification_lock.count = s1.m_notification_lock.count)
    (howner : 0 < s1.m_notification_lock.count →
      s2.m_notification_lock.owner = s1.m_notification_lock.owner) :
    balanced s (unlock_notification s2) := by
  obtain ⟨m, hm, hs⟩ := lock_notification_some h
  subst hs
  obtain ⟨hu1, hu2, _, hu4⟩ := lock_unlock hm
  constructor
  · intro e; exact hin e
  · show (recursive_mutex.unlock _).count = _
    have h2 : s2.m_notification_lock.count = m.count := hcount
    unfold recursive_mutex.unlock at hu1 ⊢
    simp only [h2]; exact hu1
  · intro hpos
    show (recursive_mutex.unlock _).owner = _
    have h2 : s2.m_notification_lock.owner = m.owner := howner hu4
    unfold recursive_mutex.unlock at hu2 ⊢
    simp only [h2]; exact hu2 hpos

theorem unsubscribe_sound {s : State} (h : wellformed s) (tid i : Nat) :
    sound s (unsubscribe tid i s) := by
  unfold unsubscribe
  cases ht : s.tokens[i]? with
  | none => exact sound_refl h _
  | some t =>
    by_cases hm : t.m_notify_mutex = true
    · simp only [hm, if_true]
      cases hl : lock_notification tid s with
      | none => exact sound_refl h _
      | some s1 =>
        have hw0 := wellformed_lock_notification h hl
        have hw1 := wellformed_token_reset hw0 i
        have he1 := extends_to_token_reset i s1
        obtain ⟨ext, htr, hcnt, htag⟩ := token_reset_trace i s1
        obtain ⟨_, hf2, hf3, hf4, hf5, hf6⟩ := token_reset_frame i s1
        refine ⟨wellformed_unlock_notification hw1,
          extends_to_trans (extends_to_trans (extends_to_lock_notification hl) he1)
            (extends_to_unlock_notification _), fun _ => ?_⟩
        refine balanced_locked hl ?_ (by rw [hf3]) (fun _ => by rw [hf3])
        intro e
        rw [htr]
        simp only [started_append, finished_append, (hcnt e).1, (hcnt e).2]
        omega
    · simp only [hm]
      obtain ⟨ext, htr, hcnt, htag⟩ := token_reset_trace i s
      obtain ⟨_, hf2, hf3, hf4, hf5, hf6⟩ := token_reset_frame i s
      refine ⟨wellformed_token_reset h i, extends_to_token_reset i s, fun _ => ?_⟩
      constructor
      · intro e
        show started (token_reset i s).trace e + _ = _ + finished (token_reset i s).trace e
        rw [htr]
        simp only [started_append, finished_append, (hcnt e).1, (hcnt e).2]
        omega
      · show (token_reset i s).m_notification_lock.count = _
        rw [hf3]
      · intro _
        show (token_reset i s).m_notification_lock.owner = _
        rw [hf3]

end registration

namespace registration

theorem mem_of_lookup {α : Type} {l : List α} {i : Nat} {a : α} (h : l[i]? = some a) : a ∈ l := by
  obtain ⟨hlt, hget⟩ := List.getElem?_eq_some.mp h
  rw [← hget]; exact List.getElem_mem hlt

theorem holders_pos_of_lookup {s : State} {i e : Nat} {t : token} (ht : s.tokens[i]? = some t)
    (hh : t.m_registration_holder = some e) : 0 < holders s e := by
  unfold holders
  rw [List.countP_pos_iff]
  exact ⟨t, mem_of_lookup ht, by simp [hh]⟩

/-- An entry held by a token is alive. -/
theorem alive_of_holder {s : State} (h : wellformed s) {e : Nat} (hpos : 0 < holders s e) :
    ∃ c : control_block, s.heap[e]? = some c ∧ c.strong ≠ 0 := by
  have h1 := h.counts e
  have h2 := h.fin_le e
  have hp : 0 < use_count s e := by omega
  obtain ⟨c, hc, hs⟩ := lookup_of_use_count_pos hp
  exact ⟨c, hc, by omega⟩

theorem wellformed_token_default {s : State} (h : wellformed s) :
    wellformed (token_default s) := by
  refine wellformed_transfer h h.regs_free rfl rfl ?_ ?_ rfl (Nat.le_refl _)
  · intro t ht e he
    rcases List.mem_append.mp ht with hm | hm
    · exact h.tok_mutex t hm e he
    · simp at hm; subst hm; simp [token.null] at he
  · intro e
    rw [holders_append s (token_default s) token.null rfl]
    simp [token.null]

theorem token_copy_of_none {s : State} {i : Nat} {t : token} (ht : s.tokens[i]? = some t)
    (hh : t.m_registration_holder = none) :
    token_copy i s = { s with tokens := s.tokens ++ [t] } := by
  simp [token_copy, ht, hh]

theorem token_copy_of_some {s : State} {i e : Nat} {t : token} (ht : s.tokens[i]? = some t)
    (hh : t.m_registration_holder = some e) :
    token_copy i s = { shared_acquire e s with tokens := (shared_acquire e s).tokens ++ [t] } := by
  simp [token_copy, ht, hh]

theorem wellformed_token_copy {s : State} (h : wellformed s) (i : Nat) :
    wellformed (token_copy i s) := by
  cases ht : s.tokens[i]? with
  | none =>
    have : token_copy i s = s := by simp [token_copy, ht]
    rw [this]; exact h
  | some t =>
    have htm : ∀ t1 ∈ s.tokens ++ [t], ∀ e, t1.m_registration_holder = some e →
        t1.m_notify_mutex = true := by
      intro t1 hm e he
      rcases List.mem_append.mp hm with hm1 | hm1
      · exact h.tok_mutex t1 hm1 e he
      · simp at hm1; subst hm1; exact h.tok_mutex t1 (mem_of_lookup ht) e he
    cases hh : t.m_registration_holder with
    | none =>
      rw [token_copy_of_none ht hh]
      refine wellformed_transfer h h.regs_free rfl rfl htm ?_ rfl (Nat.le_refl _)
      intro e
      rw [holders_append s _ t rfl]
      simp [hh]
    | some e =>
      rw [token_copy_of_some ht hh]
      obtain ⟨c0, hc, hpos⟩ := alive_of_holder h (holders_pos_of_lookup ht hh)
      obtain ⟨hf1, hf2, hf3, hf4, hf5, hf6, hf7⟩ := shared_acquire_frame e s
      have huc := shared_acquire_use_count hc
      have hlk := shared_acquire_lookup hc
      have hce := use_count_of_lookup hc
      have hho : ∀ e1, holders { shared_acquire e s with
          tokens := (shared_acquire e s).tokens ++ [t] } e1 =
          holders s e1 + if e1 = e then 1 else 0 := by
        intro e1
        rw [holders_append (shared_acquire e s) _ t rfl, holders_congr hf1, hh]
        by_cases he : e1 = e
        · subst he; simp
        · have he2 : ¬ e = e1 := fun h2 => he h2.symm
          simp [he, he2]
      constructor
      · exact hf3.trans h.regs_free
      · show List.Pairwise _ (shared_acquire e s).m_registrations
        rw [hf2]; exact h.regs_sorted
      · show ∀ e1 ∈ (shared_acquire e s).m_registrations, e1 < (shared_acquire e s).heap.length
        rw [hf2, hf7]; exact h.regs_bound
      · intro e1 he1
        show e1 ∈ (shared_acquire e s).m_registrations
        rw [hf2]
        have he1a : 0 < use_count (shared_acquire e s) e1 := he1
        rw [huc] at he1a
        by_cases he : e1 = e
        · subst he; exact h.regs_alive e1 (by omega)
        · simp only [he, if_false] at he1a
          exact h.regs_alive e1 he1a
      · show ∀ t1 ∈ (shared_acquire e s).tokens ++ [t], _
        rw [hf1]; exact htm
      · intro e1
        show finished (shared_acquire e s).trace e1 ≤ started (shared_acquire e s).trace e1
        rw [hf6]; exact h.fin_le e1
      · intro e1
        have h1 := h.counts e1
        show use_count (shared_acquire e s) e1 + finished (shared_acquire e s).trace e1 =
          holders _ e1 + started (shared_acquire e s).trace e1
        rw [hho, hf6, huc]
        by_cases he : e1 = e
        · subst he; simp only [if_true]; omega
        · simp only [he, if_false]; omega
      · intro ev hev q hq
        have hev1 : ev ∈ (shared_acquire e s).trace := hev
        rw [hf6] at hev1
        show q < (shared_acquire e s).passes
        rw [hf5]; exact h.tags ev hev1 q hq
      · intro e1
        have h1 := h.deleted e1
        show destroyed (shared_acquire e s).trace e1 =
          if e1 < (shared_acquire e s).heap.length ∧ use_count (shared_acquire e s) e1 = 0
          then 1 else 0
        rw [hf6, hf7, huc, h1]
        by_cases he : e1 = e
        · subst he; rw [hce]; simp [hpos]
        · simp only [he, if_false]
      · intro e1
        have h1 := h.ended e1
        show handled (shared_acquire e s).trace e1 =
          match (shared_acquire e s).heap[e1]? with
          | some c => if c.strong = 0 ∧ c.entry.m_endhandler.isSome then 1 else 0
          | none => 0
        rw [hf6, hlk, h1]
        by_cases he : e1 = e
        · subst he; rw [hc]; simp [hpos]
        · simp only [he, if_false]
      · show ∀ pre post e1, (shared_acquire e s).trace = pre ++ Event.destroy e1 :: post →
          started post e1 = 0
        rw [hf6]; exact h.no_revival

end registration

namespace registration

theorem extends_to_of_same_trace {s s1 : State} (htr : s1.trace = s.trace)
    (hp : s.passes ≤ s1.passes) (hlen : s.heap.length ≤ s1.heap.length)
    (htok : s.tokens.length ≤ s1.tokens.length)
    (hcode : ∀ (e : Nat) (c : control_block), s.heap[e]? = some c →
      ∃ c1 : control_block, s1.heap[e]? = some c1 ∧ c1.entry = c.entry ∧
        (c.strong = 0 → c1.strong = 0)) :
    extends_to s s1 where
  trace_ext := ⟨[], by simp [htr], by simp, by simp [started]⟩
  passes_le := hp
  heap_le := hlen
  tokens_le := htok
  code := by
    intro e c hc
    obtain ⟨c1, h1, h2, _⟩ := hcode e c hc
    exact ⟨c1, h1, h2⟩
  dead := by
    intro e hlt hz
    obtain ⟨c, hc⟩ : ∃ c : control_block, s.heap[e]? = some c := by
      cases hc : s.heap[e]? with
      | none => rw [List.getElem?_eq_none_iff] at hc; omega
      | some c => exact ⟨c, rfl⟩
    obtain ⟨c1, h1, _, h3⟩ := hcode e c hc
    rw [use_count_of_lookup hc] at hz
    rw [use_count_of_lookup h1]
    exact h3 hz

theorem balanced_of_same {s s1 : State} (htr : s1.trace = s.trace)
    (hlock : s1.m_notification_lock = s.m_notification_lock) : balanced s s1 where
  in_progress := by intro e; rw [htr]
  lock_count := by rw [hlock]
  lock_owner := by intro _; rw [hlock]

theorem token_default_sound {s : State} (h : wellformed s) :
    sound s (Status.ok, token_default s) :=
  ⟨wellformed_token_default h,
    extends_to_transfer rfl (by simp [token_default]) rfl (Nat.le_refl _),
    fun _ => balanced_of_same rfl rfl⟩

theorem token_copy_sound {s : State} (h : wellformed s) (i : Nat) :
    sound s (Status.ok, token_copy i s) := by
  refine ⟨wellformed_token_copy h i, ?_, fun _ => ?_⟩
  · cases ht : s.tokens[i]? with
    | none =>
      have : token_copy i s = s := by simp [token_copy, ht]
      rw [this]; exact extends_to_refl s
    | some t =>
      cases hh : t.m_registration_holder with
      | none =>
        rw [token_copy_of_none ht hh]
        exact extends_to_transfer rfl (by simp) rfl (Nat.le_refl _)
      | some e =>
        rw [token_copy_of_some ht hh]
        obtain ⟨c0, hc, hpos⟩ := alive_of_holder h (holders_pos_of_lookup ht hh)
        obtain ⟨hf1, hf2, hf3, hf4, hf5, hf6, hf7⟩ := shared_acquire_frame e s
        have hlk := shared_acquire_lookup hc
        refine extends_to_of_same_trace hf6 (Nat.le_of_eq hf5.symm) (Nat.le_of_eq hf7.symm)
          (by simp [hf1]) ?_
        intro e1 c hc1
        show ∃ c1 : control_block, (shared_acquire e s).heap[e1]? = some c1 ∧ _
        rw [hlk]
        by_cases he : e1 = e
        · subst he
          rw [hc] at hc1; cases hc1
          exact ⟨{ c0 with strong := c0.strong + 1 }, by simp, rfl, fun hz => absurd hz hpos⟩
        · exact ⟨c, by simp [he]; exact hc1, rfl, fun hz => hz⟩
  · cases ht : s.tokens[i]? with
    | none =>
      have : token_copy i s = s := by simp [token_copy, ht]
      rw [this]; exact balanced_refl s
    | some t =>
      cases hh : t.m_registration_holder with
      | none =>
        rw [token_copy_of_none ht hh]
        exact balanced_of_same rfl rfl
      | some e =>
        rw [token_copy_of_some ht hh]
        obtain ⟨hf1, hf2, hf3, hf4, hf5, hf6, hf7⟩ := shared_acquire_frame e s
        exact balanced_of_same hf6 hf4

/-! ## Subscription -/

theorem register_impl_eq {s : State} (hfree : s.m_registrations_lock = false)
    (cb : Nat → List Action × Nat) (eh : Option Nat) :
    register_impl cb eh s = (Status.ok,
      { s with
        heap := s.heap ++ [{ entry := { m_callback := cb, m_endhandler := eh }, strong := 1 }]
        tokens := s.tokens ++ [{ m_registration_holder := some s.heap.length,
                                 m_notify_mutex := true }]
        m_registrations :=
          s.m_registrations.filter (fun e => !expired s e) ++ [s.heap.length]
        m_registrations_lock := false }) := by
  simp [register_impl, hfree, collect_unregistered, expired, use_count]

theorem use_count_heap_append (s s1 : State) (c : control_block)
    (hs : s1.heap = s.heap ++ [c]) (e : Nat) :
    use_count s1 e = if e = s.heap.length then c.strong else use_count s e := by
  unfold use_count
  rw [hs, List.getElem?_append]
  by_cases hlt : e < s.heap.length
  · have hne : ¬ e = s.heap.length := by omega
    simp [hlt, hne]
  · by_cases he : e = s.heap.length
    · subst he; simp
    · have h1 : s.heap[e]? = none := List.getElem?_eq_none (by omega)
      have h2 : [c][e - s.heap.length]? = none := List.getElem?_eq_none (by simp; omega)
      simp [hlt, he, h1, h2]

theorem lookup_heap_append (s s1 : State) (c : control_block)
    (hs : s1.heap = s.heap ++ [c]) (e : Nat) :
    s1.heap[e]? = if e = s.heap.length then some c else s.heap[e]? := by
  rw [hs, List.getElem?_append]
  by_cases hlt : e < s.heap.length
  · have hne : ¬ e = s.heap.length := by omega
    simp [hlt, hne]
  · by_cases he : e = s.heap.length
    · subst he; simp
    · have h1 : s.heap[e]? = none := List.getElem?_eq_none (by omega)
      have h2 : [c][e - s.heap.length]? = none := List.getElem?_eq_none (by simp; omega)
      simp [hlt, he, h1, h2]

end registration

namespace registration

theorem register_impl_sound {s : State} (h : wellformed s)
    (cb : Nat → List Action × Nat) (eh : Option Nat) :
    sound s (register_impl cb eh s) := by
  rw [register_impl_eq h.regs_free]
  generalize hc : ({ entry := { m_callback := cb, m_endhandler := eh }, strong := 1 } :
    control_block) = c
  generalize ht : ({ m_registration_holder := some s.heap.length, m_notify_mutex := true } :
    token) = t
  have hcs : c.strong = 1 := by rw [← hc]
  have hth : t.m_registration_holder = some s.heap.length := by rw [← ht]
  have htm : t.m_notify_mutex = true := by rw [← ht]
  generalize hs1 : ({ s with
      heap := s.heap ++ [c]
      tokens := s.tokens ++ [t]
      m_registrations := s.m_registrations.filter (fun e => !expired s e) ++ [s.heap.length]
      m_registrations_lock := false } : State) = s1
  have e1 : s1.heap = s.heap ++ [c] := by rw [← hs1]
  have e2 : s1.tokens = s.tokens ++ [t] := by rw [← hs1]
  have e3 : s1.m_registrations =
      s.m_registrations.filter (fun e => !expired s e) ++ [s.heap.length] := by rw [← hs1]
  have e4 : s1.m_registrations_lock = false := by rw [← hs1]
  have e5 : s1.trace = s.trace := by rw [← hs1]
  have e6 : s1.passes = s.passes := by rw [← hs1]
  have e7 : s1.m_notification_lock = s.m_notification_lock := by rw [← hs1]
  have huc := use_count_heap_append s s1 c e1
  have hlk := lookup_heap_append s s1 c e1
  have hho := holders_append s s1 t e2
  have hnew : use_count s s.heap.length = 0 :=
    use_count_of_none (List.getElem?_eq_none (Nat.le_refl _))
  refine ⟨?_, ?_, fun _ => balanced_of_same e5 e7⟩
  · constructor
    · exact e4
    · rw [e3, List.pairwise_append]
      refine ⟨h.regs_sorted.sublist (List.filter_sublist _), by simp, ?_⟩
      intro a ha b hb
      simp at hb; subst hb
      exact h.regs_bound a (List.mem_of_mem_filter ha)
    · intro e he
      rw [e3] at he
      rw [e1]
      simp only [List.length_append, List.length_singleton]
      rcases List.mem_append.mp he with hm | hm
      · exact Nat.lt_succ_of_lt (h.regs_bound e (List.mem_of_mem_filter hm))
      · simp at hm; omega
    · intro e he
      rw [huc] at he
      rw [e3]
      by_cases hn : e = s.heap.length
      · simp [hn]
      · simp only [hn, if_false] at he
        refine List.mem_append.mpr (Or.inl (List.mem_filter.mpr ⟨h.regs_alive e he, ?_⟩))
        simp [expired]; omega
    · intro t1 hm e he
      rw [e2] at hm
      rcases List.mem_append.mp hm with hm1 | hm1
      · exact h.tok_mutex t1 hm1 e he
      · simp at hm1; subst hm1; exact htm
    · rw [e5]; exact h.fin_le
    · intro e
      have h1 := h.counts e
      have h2 := h.fin_le e
      rw [e5, huc, hho, hth]
      by_cases hn : e = s.heap.length
      · subst hn
        rw [hnew] at h1
        simp only [if_true, hcs]
        omega
      · have hn2 : ¬ s.heap.length = e := fun h3 => hn h3.symm
        simp only [hn, if_false, Option.some.injEq, hn2]
        omega
    · intro ev hev q hq
      rw [e5] at hev; rw [e6]
      exact h.tags ev hev q hq
    · intro e
      have h1 := h.deleted e
      rw [e5, huc, e1, h1]
      simp only [List.length_append, List.length_singleton]
      by_cases hn : e = s.heap.length
      · subst hn; simp [hcs]
      · simp only [hn, if_false]
        by_cases hlt : e < s.heap.length
        · have : e < s.heap.length + 1 := by omega
          simp [hlt, this]
        · have : ¬ e < s.heap.length + 1 := by omega
          simp [hlt, this]
    · intro e
      have h1 := h.ended e
      rw [e5, hlk, h1]
      by_cases hn : e = s.heap.length
      · subst hn
        have : s.heap[s.heap.length]? = none := List.getElem?_eq_none (Nat.le_refl _)
        simp [this, hcs]
      · simp only [hn, if_false]
    · rw [e5]; exact h.no_revival
  · refine extends_to_of_same_trace e5 (Nat.le_of_eq e6.symm) (by rw [e1]; simp)
      (by rw [e2]; simp) ?_
    intro e c1 hc1
    rw [hlk]
    have hlt := lt_length_of_lookup hc1
    have hn : ¬ e = s.heap.length := by omega
    exact ⟨c1, by simp [hn]; exact hc1, rfl, fun hz => hz⟩

end registration

namespace registration

/-! ## The notification loop -/

theorem finishing_counts {p e : Nat} {ev : Event}
    (hev : ev = Event.ret p e ∨ ∃ err, ev = Event.exc p e err) (e1 : Nat) :
    started [ev] e1 = 0 ∧ finished [ev] e1 = (if e1 = e then 1 else 0) ∧
      destroyed [ev] e1 = 0 ∧ handled [ev] e1 = 0 := by
  rcases hev with hr | ⟨err, hr⟩
  · rw [hr]; exact counts_ret p e e1
  · rw [hr]; exact counts_exc p e err e1

theorem leave_trace (s : State) (e : Nat) (ev : Event) :
    (shared_release e (emit ev s)).trace = s.trace ++ [ev] ++ release_events s e := by
  rw [shared_release_trace, release_events_emit]; rfl

/-- A whole invocation (taking the strong reference, the callback body, and
dropping the reference again) leaves nothing in progress. -/
theorem balanced_invocation {s r2 : State} {e p arg : Nat} {v : Event}
    (hbal : balanced (emit (Event.call p e arg) (shared_acquire e s)) r2)
    (hev : v = Event.ret p e ∨ ∃ err, v = Event.exc p e err) :
    balanced s (shared_release e (emit v r2)) := by
  obtain ⟨hf1, hf2, hf3, hf4, hf5, hf6, hf7⟩ := shared_acquire_frame e s
  obtain ⟨g1, g2, g3, g4, g5, g6⟩ := shared_release_frame e (emit v r2)
  constructor
  · intro e1
    have h1 := hbal.in_progress e1
    simp only [emit_trace, hf6, started_append, finished_append,
      (counts_call p e arg e1).1, (counts_call p e arg e1).2.1] at h1
    rw [leave_trace]
    simp only [started_append, finished_append, (finishing_counts hev e1).1,
      (finishing_counts hev e1).2.1, (release_events_counts r2 e e1).1,
      (release_events_counts r2 e e1).2.1]
    omega
  · rw [g4]
    have := hbal.lock_count
    simp only [emit_notif_lock, hf4] at this ⊢
    exact this
  · intro hpos
    rw [g4]
    have := hbal.lock_owner
    simp only [emit_notif_lock, hf4] at this ⊢
    exact this hpos

theorem in_progress_after_body {s r2 : State} {e p arg : Nat} (h : wellformed s)
    (hbal : balanced (emit (Event.call p e arg) (shared_acquire e s)) r2) :
    finished r2.trace e < started r2.trace e := by
  obtain ⟨hf1, hf2, hf3, hf4, hf5, hf6, hf7⟩ := shared_acquire_frame e s
  have h1 := hbal.in_progress e
  have h2 := h.fin_le e
  simp only [emit_trace, hf6, started_append, finished_append,
    (counts_call p e arg e).1, (counts_call p e arg e).2.1, if_true] at h1
  omega

theorem notify_loop_sound (call : List Action → State → Status × State)
    (hcall : ∀ prog s, wellformed s → sound s (call prog s)) (p arg : Nat) :
    ∀ (snap : List Nat) (s : State), wellformed s → p < s.passes →
      wellformed (notify_loop call p arg snap s).2 ∧
      extends_from p s (notify_loop call p arg snap s).2 ∧
      ((notify_loop call p arg snap s).1.completed = true →
        balanced s (notify_loop call p arg snap s).2) := by
  intro snap
  induction snap with
  | nil =>
    intro s h _
    exact ⟨h, extends_from_refl p s, fun _ => balanced_refl s⟩
  | cons e rest ih =>
    intro s h hp
    cases hwl : weak_lock s e with
    | none =>
      have : notify_loop call p arg (e :: rest) s = notify_loop call p arg rest s := by
        simp [notify_loop, hwl]
      rw [this]; exact ih s h hp
    | some cs =>
      obtain ⟨c, s1⟩ := cs
      obtain ⟨c0, hc, hpos, hce, hs1⟩ := weak_lock_some hwl
      subst hs1
      have hwE := wellformed_enter h hc hpos hp arg
      have heE : extends_from p s (emit (Event.call p e arg) (shared_acquire e s)) :=
        extends_from_enter hc hpos (Nat.le_refl p) arg
      have hr := hcall (c.m_callback arg).1 _ hwE
      obtain ⟨hw2, he2, hb2⟩ := hr
      have hpE : p ≤ (emit (Event.call p e arg) (shared_acquire e s)).passes := by
        simp [(shared_acquire_frame e s).2.2.2.2.1]; omega
      have hes2 := extends_from_trans heE he2 hpE
      have hp2 : p < (call (c.m_callback arg).1
          (emit (Event.call p e arg) (shared_acquire e s))).2.passes :=
        Nat.lt_of_lt_of_le hp hes2.passes_le
      cases hst : (call (c.m_callback arg).1
          (emit (Event.call p e arg) (shared_acquire e s))).1 with
      | ok =>
        have hbal := hb2 (by rw [hst]; rfl)
        have hin := in_progress_after_body h hbal
        have hwL := wellformed_leave (v := Event.ret p e) hw2 hin hp2 (Or.inl rfl)
        have heL : extends_from p _ (shared_release e (emit (Event.ret p e) _)) :=
          extends_from_leave (s := (call (c.m_callback arg).1
            (emit (Event.call p e arg) (shared_acquire e s))).2) (Nat.le_refl p) (Or.inl rfl)
        have hbL := balanced_invocation (v := Event.ret p e) hbal (Or.inl rfl)
        have hpL : p < (shared_release e (emit (Event.ret p e) (call (c.m_callback arg).1
            (emit (Event.call p e arg) (shared_acquire e s))).2)).passes := by
          rw [(shared_release_frame e _).2.2.2.2.1]; exact hp2
        have hih := ih _ hwL hpL
        have : notify_loop call p arg (e :: rest) s = notify_loop call p arg rest
            (shared_release e (emit (Event.ret p e) (call (c.m_callback arg).1
              (emit (Event.call p e arg) (shared_acquire e s))).2)) := by
          simp [notify_loop, hwl, hst]
        rw [this]
        exact ⟨hih.1, extends_from_trans (extends_from_trans hes2 heL (Nat.le_refl p)) hih.2.1 (Nat.le_refl p),
          fun hcomp => balanced_trans hbL (hih.2.2 hcomp)⟩
      | raised err =>
        have hbal := hb2 (by rw [hst]; rfl)
        have hin := in_progress_after_body h hbal
        have hwL := wellformed_leave (v := Event.exc p e err) hw2 hin hp2 (Or.inr ⟨err, rfl⟩)
        have heL : extends_from p _ (shared_release e (emit (Event.exc p e err) _)) :=
          extends_from_leave (s := (call (c.m_callback arg).1
            (emit (Event.call p e arg) (shared_acquire e s))).2) (Nat.le_refl p)
            (Or.inr ⟨err, rfl⟩)
        have hbL := balanced_invocation (v := Event.exc p e err) hbal (Or.inr ⟨err, rfl⟩)
        have : notify_loop call p arg (e :: rest) s = (Status.raised err,
            shared_release e (emit (Event.exc p e err) (call (c.m_callback arg).1
              (emit (Event.call p e arg) (shared_acquire e s))).2)) := by
          simp [notify_loop, hwl, hst]
        rw [this]
        exact ⟨hwL, extends_from_trans hes2 heL (Nat.le_refl p), fun _ => hbL⟩
      | blocked =>
        have : notify_loop call p arg (e :: rest) s = (Status.blocked,
            (call (c.m_callback arg).1
              (emit (Event.call p e arg) (shared_acquire e s))).2) := by
          simp [notify_loop, hwl, hst]
        rw [this]
        exact ⟨hw2, hes2, fun hcomp => by simp [Status.completed] at hcomp⟩
      | out_of_fuel =>
        have : notify_loop call p arg (e :: rest) s = (Status.out_of_fuel,
            (call (c.m_callback arg).1
              (emit (Event.call p e arg) (shared_acquire e s))).2) := by
          simp [notify_loop, hwl, hst]
        rw [this]
        exact ⟨hw2, hes2, fun hcomp => by simp [Status.completed] at hcomp⟩

end registration

namespace registration

/-! ## `notify_all_impl`, `notify_all_impl2` and user code -/

/-- The loop of `notify_all_impl2` runs as the loop of `notify_all_impl` does;
it only collects the results in addition. -/
theorem notify_loop2_eq (call : List Action → State → Status × State) (p arg : Nat) :
    ∀ (snap : List Nat) (rs : List Nat) (s : State),
      (notify_loop2 call p arg snap rs s).1 = (notify_loop call p arg snap s).1 ∧
      (notify_loop2 call p arg snap rs s).2.2 = (notify_loop call p arg snap s).2 := by
  intro snap
  induction snap with
  | nil => intro rs s; simp [notify_loop2, notify_loop]
  | cons e rest ih =>
    intro rs s
    cases hwl : weak_lock s e with
    | none => simp [notify_loop2, notify_loop, hwl, ih]
    | some cs =>
      obtain ⟨c, s1⟩ := cs
      cases hst : (call (c.m_callback arg).1 (emit (Event.call p e arg) s1)).1 <;>
        simp [notify_loop2, notify_loop, hwl, hst, ih]

theorem notify_all_impl2_eq (call : List Action → State → Status × State) (tid arg : Nat)
    (s : State) :
    (notify_all_impl2 call tid arg s).1 = (notify_all_impl call tid arg s).1 ∧
    (notify_all_impl2 call tid arg s).2.2 = (notify_all_impl call tid arg s).2 := by
  unfold notify_all_impl2 notify_all_impl
  by_cases hl : s.m_registrations_lock = true
  · rw [if_pos hl, if_pos hl]; exact ⟨rfl, rfl⟩
  · rw [if_neg hl, if_neg hl]
    dsimp only
    cases hm : lock_notification tid (begin_pass s) with
    | none => exact ⟨rfl, rfl⟩
    | some s1 =>
      dsimp only
      have h2 := notify_loop2_eq call s.passes arg s.m_registrations [] s1
      cases hst : (notify_loop call s.passes arg s.m_registrations s1).1 <;>
        simp [h2.1, h2.2, hst]

theorem wellformed_begin_pass {s : State} (hw : wellformed s) : wellformed (begin_pass s) :=
  wellformed_transfer hw hw.regs_free rfl rfl hw.tok_mutex (fun _ => rfl) rfl (Nat.le_succ _)

theorem extends_to_begin_pass (s : State) : extends_to s (begin_pass s) :=
  extends_to_transfer rfl (Nat.le_refl _) rfl (Nat.le_succ _)

theorem notify_all_impl_sound (call : List Action → State → Status × State)
    (hcall : ∀ prog s, wellformed s → sound s (call prog s)) (tid arg : Nat)
    {s : State} (h : wellformed s) : sound s (notify_all_impl call tid arg s) := by
  unfold notify_all_impl
  have hfree : ¬ s.m_registrations_lock = true := by simp [h.regs_free]
  rw [if_neg hfree]
  dsimp only
  have hw0 := wellformed_begin_pass h
  have he0 := extends_to_begin_pass s
  cases hm : lock_notification tid (begin_pass s) with
  | none => exact ⟨hw0, he0, fun hc => by simp [Status.completed] at hc⟩
  | some s1 =>
    dsimp only
    have hw1 := wellformed_lock_notification hw0 hm
    have he1 : extends_to s s1 := extends_to_trans he0 (extends_to_lock_notification hm)
    have hp1 : s.passes < s1.passes := by
      obtain ⟨m, _, hs⟩ := lock_notification_some hm
      subst hs; exact Nat.lt_succ_self _
    have htr1 : s1.trace = s.trace := by
      obtain ⟨m, _, hs⟩ := lock_notification_some hm
      subst hs; rfl
    obtain ⟨hwl, hel, hbl⟩ := notify_loop_sound call hcall s.passes arg s.m_registrations
      s1 hw1 hp1
    have hext : extends_to s (notify_loop call s.passes arg s.m_registrations s1).2 :=
      extends_from_trans he1 hel (Nat.le_refl _)
    have hlk : lock_notification tid s = some { s1 with passes := s.passes } := by
      obtain ⟨m, hm1, hs⟩ := lock_notification_some hm
      have hm2 : s.m_notification_lock.lock tid = some m := hm1
      rw [hs]
      simp [lock_notification, hm2, begin_pass]
    have fin : ∀ st : Status, st.completed = true →
        (notify_loop call s.passes arg s.m_registrations s1).1 = st →
        sound s (st, unlock_notification
          (notify_loop call s.passes arg s.m_registrations s1).2) := by
      intro st hcomp hst
      have hb := hbl (by rw [hst]; exact hcomp)
      refine ⟨wellformed_unlock_notification hwl,
        extends_to_trans hext (extends_to_unlock_notification _), fun _ => ?_⟩
      exact balanced_locked hlk hb.in_progress hb.lock_count hb.lock_owner
    cases hst : (notify_loop call s.passes arg s.m_registrations s1).1 with
    | ok => exact fin Status.ok rfl hst
    | raised err => exact fin (Status.raised err) rfl hst
    | blocked => exact ⟨hwl, hext, fun hc => by simp [Status.completed] at hc⟩
    | out_of_fuel => exact ⟨hwl, hext, fun hc => by simp [Status.completed] at hc⟩

theorem run_action_sound (call : List Action → State → Status × State)
    (hcall : ∀ prog s, wellformed s → sound s (call prog s)) (tid : Nat) (a : Action)
    {s : State} (h : wellformed s) : sound s (run_action call tid a s) := by
  cases a with
  | log l =>
    exact ⟨wellformed_emit_log h l, extends_to_emit_log s l, fun _ => balanced_emit_log s l⟩
  | raise err => exact sound_refl h _
  | subscribe cb eh => exact register_impl_sound h cb eh
  | copy i => exact token_copy_sound h i
  | make_default => exact token_default_sound h
  | unsubscribe i => exact unsubscribe_sound h tid i
  | notify_all arg => exact notify_all_impl_sound call hcall tid arg h
  | notify_all2 arg =>
    have h1 := notify_all_impl_sound call hcall tid arg h
    have h2 := notify_all_impl2_eq call tid arg s
    unfold run_action
    simp only [sound, h2.1, h2.2]
    exact h1

theorem sound_trans {s s1 : State} {r : Status × State} (h1 : sound s (Status.ok, s1))
    (h2 : sound s1 r) : sound s r :=
  ⟨h2.1, extends_to_trans h1.2.1 h2.2.1, fun hc => balanced_trans (h1.2.2 rfl) (h2.2.2 hc)⟩

theorem run_actions_sound (call : List Action → State → Status × State)
    (hcall : ∀ prog s, wellformed s → sound s (call prog s)) (tid : Nat) :
    ∀ (prog : List Action) (s : State), wellformed s → sound s (run_actions call tid prog s) := by
  intro prog
  induction prog with
  | nil => intro s h; exact sound_refl h _
  | cons a rest ih =>
    intro s h
    have ha := run_action_sound call hcall tid a h
    cases hst : (run_action call tid a s).1 with
    | ok =>
      have : run_actions call tid (a :: rest) s =
          run_actions call tid rest (run_action call tid a s).2 := by
        simp [run_actions, hst]
      rw [this]
      have ha1 : sound s (Status.ok, (run_action call tid a s).2) := by
        rw [← hst]; exact ha
      exact sound_trans ha1 (ih _ ha.1)
    | raised err =>
      have : run_actions call tid (a :: rest) s = run_action call tid a s := by
        simp [run_actions, hst]
      rw [this]; exact ha
    | blocked =>
      have : run_actions call tid (a :: rest) s = run_action call tid a s := by
        simp [run_actions, hst]
      rw [this]; exact ha
    | out_of_fuel =>
      have : run_actions call tid (a :: rest) s = run_action call tid a s := by
        simp [run_actions, hst]
      rw [this]; exact ha

/-- Every run of user code keeps the invariant, only extends the state, and,
when it comes to its end, leaves no invocation in progress. -/
theorem exec_sound (tid : Nat) : ∀ (fuel : Nat) (prog : List Action) (s : State),
    wellformed s → sound s (exec fuel tid prog s) := by
  intro fuel
  induction fuel with
  | zero => intro prog s h; exact sound_refl h _
  | succ n ih =>
    intro prog s h
    exact run_actions_sound (exec n tid) ih tid prog s h

theorem wellformed_init : wellformed State.init := by
  constructor <;> simp [State.init, use_count, holders, started, finished, destroyed, handled]

end registration

namespace registration

/-! ## What one pass does -/

theorem returned_by_append (p : Nat) (a b : List Event) :
    returned_by p (a ++ b) = returned_by p a ++ returned_by p b := by
  simp [returned_by]

theorem raised_by_append (p : Nat) (a b : List Event) :
    raised_by p (a ++ b) = raised_by p a ++ raised_by p b := by
  simp [raised_by]

/-- Events of other passes are no events of pass `p`. -/
theorem own_events_nil (p : Nat) : ∀ (ext : List Event),
    (∀ ev ∈ ext, ∀ q, ev.pass_of = some q → q ≠ p) →
    invoked_by p ext = [] ∧ returned_by p ext = [] ∧ raised_by p ext = [] := by
  intro ext
  induction ext with
  | nil => intro _; simp [invoked_by, returned_by, raised_by]
  | cons ev rest ih =>
    intro h
    have hrest := ih (fun ev1 hm => h ev1 (List.mem_cons_of_mem _ hm))
    have hev := h ev (List.mem_cons_self _ _)
    unfold invoked_by returned_by raised_by at hrest ⊢
    cases ev with
    | log l => simpa [Event.invoked, Event.returned, Event.threw] using hrest
    | call q e a =>
      have : q ≠ p := hev q rfl
      simpa [Event.invoked, Event.returned, Event.threw, this] using hrest
    | ret q e =>
      have : q ≠ p := hev q rfl
      simpa [Event.invoked, Event.returned, Event.threw, this] using hrest
    | exc q e err =>
      have : q ≠ p := hev q rfl
      simpa [Event.invoked, Event.returned, Event.threw, this] using hrest
    | endhandler e l n r => simpa [Event.invoked, Event.returned, Event.threw] using hrest
    | destroy e => simpa [Event.invoked, Event.returned, Event.threw] using hrest

theorem own_events_release (p : Nat) (s : State) (e : Nat) :
    invoked_by p (release_events s e) = [] ∧ returned_by p (release_events s e) = [] ∧
      raised_by p (release_events s e) = [] := by
  apply own_events_nil
  intro ev hm q hq
  rw [(release_events_counts s e 0).2.2 ev hm] at hq
  cases hq

/-- The events of pass `p` in the trace of a state with pass counter at most `p`. -/
theorem own_events_fresh {s : State} (h : wellformed s) {p : Nat} (hp : s.passes ≤ p) :
    invoked_by p s.trace = [] ∧ returned_by p s.trace = [] ∧ raised_by p s.trace = [] := by
  apply own_events_nil
  intro ev hm q hq
  have := h.tags ev hm q hq
  omega

end registration

namespace registration

theorem own_events_call (p e arg : Nat) :
    invoked_by p [Event.call p e arg] = [e] ∧ returned_by p [Event.call p e arg] = [] ∧
      raised_by p [Event.call p e arg] = [] := by
  simp [invoked_by, returned_by, raised_by, Event.invoked, Event.returned, Event.threw]

theorem own_events_ret (p e : Nat) :
    invoked_by p [Event.ret p e] = [] ∧ returned_by p [Event.ret p e] = [e] ∧
      raised_by p [Event.ret p e] = [] := by
  simp [invoked_by, returned_by, raised_by, Event.invoked, Event.returned, Event.threw]

theorem own_events_exc (p e err : Nat) :
    invoked_by p [Event.exc p e err] = [] ∧ returned_by p [Event.exc p e err] = [] ∧
      raised_by p [Event.exc p e err] = [(e, err)] := by
  simp [invoked_by, returned_by, raised_by, Event.invoked, Event.returned, Event.threw]

/-- The events of pass `p` after it has entered the callback of `e` and the
callback body has run: the body adds none. -/
theorem own_events_body {s r2 : State} {e p arg : Nat} (hp : p < s.passes)
    (he2 : extends_to (emit (Event.call p e arg) (shared_acquire e s)) r2) :
    invoked_by p r2.trace = invoked_by p s.trace ++ [e] ∧
    returned_by p r2.trace = returned_by p s.trace ∧
    raised_by p r2.trace = raised_by p s.trace := by
  obtain ⟨ext, htr, htag, _⟩ := he2.trace_ext
  have hps : (emit (Event.call p e arg) (shared_acquire e s)).passes = s.passes := by
    simp [(shared_acquire_frame e s).2.2.2.2.1]
  have hown := own_events_nil p ext (by
    intro ev hm q hq
    have := htag ev hm q hq
    rw [hps] at this
    omega)
  have htr0 : (emit (Event.call p e arg) (shared_acquire e s)).trace =
      s.trace ++ [Event.call p e arg] := by
    simp [(shared_acquire_frame e s).2.2.2.2.2.1]
  rw [htr, htr0]
  simp only [invoked_by_append, returned_by_append, raised_by_append, hown.1, hown.2.1,
    hown.2.2, (own_events_call p e arg).1, (own_events_call p e arg).2.1,
    (own_events_call p e arg).2.2, List.append_nil]
  exact ⟨trivial, trivial, trivial⟩

theorem own_events_leave (p : Nat) (s : State) (e : Nat) (ev : Event) :
    invoked_by p (shared_release e (emit ev s)).trace =
      invoked_by p s.trace ++ invoked_by p [ev] ∧
    returned_by p (shared_release e (emit ev s)).trace =
      returned_by p s.trace ++ returned_by p [ev] ∧
    raised_by p (shared_release e (emit ev s)).trace =
      raised_by p s.trace ++ raised_by p [ev] := by
  rw [leave_trace]
  simp only [invoked_by_append, returned_by_append, raised_by_append,
    (own_events_release p s e).1, (own_events_release p s e).2.1,
    (own_events_release p s e).2.2, List.append_nil]
  exact ⟨trivial, trivial, trivial⟩

theorem notify_loop_spec (call : List Action → State → Status × State)
    (hcall : ∀ prog s, wellformed s → sound s (call prog s)) (p arg : Nat) :
    ∀ (snap : List Nat) (s : State), wellformed s → p < s.passes →
      (∀ e ∈ snap, e < s.heap.length) →
      ∃ L, pass_outcome p snap s (notify_loop call p arg snap s) L := by
  intro snap
  induction snap with
  | nil =>
    intro s h _ _
    refine ⟨[], ⟨by simp [notify_loop], List.Sublist.slnil, by simp, ?_, ?_, ?_⟩⟩
    · intro _; simp [notify_loop]
    · intro err herr; simp [notify_loop] at herr
    · intro _ _; simp [notify_loop]
  | cons e rest ih =>
    intro s h hp hb
    have hbrest : ∀ x ∈ rest, x < s.heap.length := fun x hx => hb x (List.mem_cons_of_mem _ hx)
    cases hwl : weak_lock s e with
    | none =>
      have heq : notify_loop call p arg (e :: rest) s = notify_loop call p arg rest s := by
        simp [notify_loop, hwl]
      obtain ⟨L, hL⟩ := ih s h hp hbrest
      have hsound := notify_loop_sound call hcall p arg rest s h hp
      rw [heq]
      refine ⟨L, ⟨hL.invoked, List.Sublist.cons e hL.sublist, hL.alive, ?_, ?_, hL.on_stop⟩⟩
      · intro hok
        obtain ⟨h1, h2, h3⟩ := hL.on_ok hok
        refine ⟨h1, h2, ?_⟩
        intro x hx hxL
        rcases List.mem_cons.mp hx with hxe | hxr
        · subst hxe
          exact hsound.2.1.dead x (hb x (List.mem_cons_self _ _)) (weak_lock_none hwl)
        · exact h3 x hxr hxL
      · intro err herr
        obtain ⟨pre, k, post, L1, h1, h2, h3, h4, h5⟩ := hL.on_raise err herr
        exact ⟨e :: pre, k, post, L1, by simp [h1], List.Sublist.cons e h2, h3, h4, h5⟩
    | some cs =>
      obtain ⟨c, s1⟩ := cs
      obtain ⟨c0, hc, hpos, hce, hs1⟩ := weak_lock_some hwl
      subst hs1
      have hwE := wellformed_enter h hc hpos hp arg
      have heE : extends_from p s (emit (Event.call p e arg) (shared_acquire e s)) :=
        extends_from_enter hc hpos (Nat.le_refl p) arg
      obtain ⟨hw2, he2, hb2⟩ := hcall (c.m_callback arg).1 _ hwE
      have hpE : p ≤ (emit (Event.call p e arg) (shared_acquire e s)).passes := by
        simp [(shared_acquire_frame e s).2.2.2.2.1]; omega
      have hes2 := extends_from_trans heE he2 hpE
      have hp2 : p < (call (c.m_callback arg).1
          (emit (Event.call p e arg) (shared_acquire e s))).2.passes :=
        Nat.lt_of_lt_of_le hp hes2.passes_le
      obtain ⟨o1, o2, o3⟩ := own_events_body hp he2
      have healive : 0 < use_count s e := by
        rw [use_count_of_lookup hc]; omega
      cases hst : (call (c.m_callback arg).1
          (emit (Event.call p e arg) (shared_acquire e s))).1 with
      | ok =>
        have hbal := hb2 (by rw [hst]; rfl)
        have hin := in_progress_after_body h hbal
        have hwL := wellformed_leave (v := Event.ret p e) hw2 hin hp2 (Or.inl rfl)
        have heL : extends_from p _ (shared_release e (emit (Event.ret p e) _)) :=
          extends_from_leave (s := (call (c.m_callback arg).1
            (emit (Event.call p e arg) (shared_acquire e s))).2) (Nat.le_refl p) (Or.inl rfl)
        have hesL := extends_from_trans hes2 heL (Nat.le_refl p)
        have hpL : p < (shared_release e (emit (Event.ret p e) (call (c.m_callback arg).1
            (emit (Event.call p e arg) (shared_acquire e s))).2)).passes := by
          rw [(shared_release_frame e _).2.2.2.2.1]; exact hp2
        have heq : notify_loop call p arg (e :: rest) s = notify_loop call p arg rest
            (shared_release e (emit (Event.ret p e) (call (c.m_callback arg).1
              (emit (Event.call p e arg) (shared_acquire e s))).2)) := by
          simp [notify_loop, hwl, hst]
        obtain ⟨L, hL⟩ := ih _ hwL hpL
          (fun x hx => Nat.lt_of_lt_of_le (hbrest x hx) hesL.heap_le)
        have q1 : invoked_by p (shared_release e (emit (Event.ret p e) (call (c.m_callback arg).1
            (emit (Event.call p e arg) (shared_acquire e s))).2)).trace =
            invoked_by p s.trace ++ [e] := by
          rw [(own_events_leave p _ e _).1, o1, (own_events_ret p e).1, List.append_nil]
        have q2 : returned_by p (shared_release e (emit (Event.ret p e)
            (call (c.m_callback arg).1
            (emit (Event.call p e arg) (shared_acquire e s))).2)).trace =
            returned_by p s.trace ++ [e] := by
          rw [(own_events_leave p _ e _).2.1, o2, (own_events_ret p e).2.1]
        have q3 : raised_by p (shared_release e (emit (Event.ret p e)
            (call (c.m_callback arg).1
            (emit (Event.call p e arg) (shared_acquire e s))).2)).trace =
            raised_by p s.trace := by
          rw [(own_events_leave p _ e _).2.2, o3, (own_events_ret p e).2.2, List.append_nil]
        rw [heq]
        refine ⟨e :: L, ⟨?_, List.Sublist.cons₂ e hL.sublist, ?_, ?_, ?_, ?_⟩⟩
        · rw [hL.invoked, q1]; simp
        · intro x hx
          rcases List.mem_cons.mp hx with hxe | hxL
          · subst hxe; exact healive
          · have hxb := hbrest x (hL.sublist.subset hxL)
            have hxa := hL.alive x hxL
            by_contra hz
            have := hesL.dead x hxb (by omega)
            omega
        · intro hok
          obtain ⟨h1, h2, h3⟩ := hL.on_ok hok
          refine ⟨by rw [h1, q2]; simp, by rw [h2, q3], ?_⟩
          intro x hx hxL
          rcases List.mem_cons.mp hx with hxe | hxr
          · subst hxe; exact absurd (List.mem_cons_self _ _) hxL
          · exact h3 x hxr (fun hm => hxL (List.mem_cons_of_mem _ hm))
        · intro err herr
          obtain ⟨pre, k, post, L1, h1, h2, h3, h4, h5⟩ := hL.on_raise err herr
          exact ⟨e :: pre, k, post, e :: L1, by simp [h1], List.Sublist.cons₂ e h2,
            by simp [h3], by rw [h4, q2]; simp, by rw [h5, q3]⟩
        · intro hn1 hn2
          rw [hL.on_stop hn1 hn2, q3]
      | raised err =>
        have heq : notify_loop call p arg (e :: rest) s = (Status.raised err,
            shared_release e (emit (Event.exc p e err) (call (c.m_callback arg).1
              (emit (Event.call p e arg) (shared_acquire e s))).2)) := by
          simp [notify_loop, hwl, hst]
        rw [heq]
        refine ⟨[e], ⟨?_, ?_, ?_, ?_, ?_, ?_⟩⟩
        · show invoked_by p (shared_release e _).trace = _
          rw [(own_events_leave p _ e _).1, o1, (own_events_exc p e err).1, List.append_nil]
        · exact List.Sublist.cons₂ e (List.nil_sublist rest)
        · intro x hx
          simp at hx; subst hx; exact healive
        · intro hok; cases hok
        · intro err1 herr1
          have : err = err1 := by simpa using herr1
          subst this
          refine ⟨[], e, rest, [], rfl, List.Sublist.slnil, rfl, ?_, ?_⟩
          · show returned_by p (shared_release e _).trace = _
            rw [(own_events_leave p _ e _).2.1, o2, (own_events_exc p e err).2.1]
          · show raised_by p (shared_release e _).trace = _
            rw [(own_events_leave p _ e _).2.2, o3, (own_events_exc p e err).2.2]
        · intro _ hn2; exact absurd rfl (hn2 err)
      | blocked =>
        have heq : notify_loop call p arg (e :: rest) s = (Status.blocked,
            (call (c.m_callback arg).1
              (emit (Event.call p e arg) (shared_acquire e s))).2) := by
          simp [notify_loop, hwl, hst]
        rw [heq]
        refine ⟨[e], ⟨o1, List.Sublist.cons₂ e (List.nil_sublist rest), ?_, ?_, ?_, ?_⟩⟩
        · intro x hx
          simp at hx; subst hx; exact healive
        · intro hok; cases hok
        · intro err1 herr1; cases herr1
        · intro _ _; exact o3
      | out_of_fuel =>
        have heq : notify_loop call p arg (e :: rest) s = (Status.out_of_fuel,
            (call (c.m_callback arg).1
              (emit (Event.call p e arg) (shared_acquire e s))).2) := by
          simp [notify_loop, hwl, hst]
        rw [heq]
        refine ⟨[e], ⟨o1, List.Sublist.cons₂ e (List.nil_sublist rest), ?_, ?_, ?_, ?_⟩⟩
        · intro x hx
          simp at hx; subst hx; exact healive
        · intro hok; cases hok
        · intro err1 herr1; cases herr1
        · intro _ _; exact o3

end registration

namespace registration

theorem pass_outcome_blocked (p : Nat) (snap : List Nat) (s s1 : State)
    (htr : s1.trace = s.trace) : pass_outcome p snap s (Status.blocked, s1) [] where
  invoked := by simp [htr]
  sublist := List.nil_sublist snap
  alive := by simp
  on_ok := by intro h; cases h
  on_raise := by intro err h; cases h
  on_stop := by intro _ _; simp [htr]

/-- What a call of `notify_all_impl` does, in terms of the state it started from. -/
theorem notify_all_impl_spec (call : List Action → State → Status × State)
    (hcall : ∀ prog s, wellformed s → sound s (call prog s)) (tid arg : Nat)
    {s : State} (h : wellformed s) :
    ∃ L, pass_outcome s.passes s.m_registrations s (notify_all_impl call tid arg s) L := by
  unfold notify_all_impl
  have hfree : ¬ s.m_registrations_lock = true := by simp [h.regs_free]
  rw [if_neg hfree]
  dsimp only
  cases hm : lock_notification tid (begin_pass s) with
  | none => exact ⟨[], pass_outcome_blocked _ _ _ _ rfl⟩
  | some s1 =>
    dsimp only
    have hw1 := wellformed_lock_notification (wellformed_begin_pass h) hm
    obtain ⟨m, _, hs⟩ := lock_notification_some hm
    have hp1 : s.passes < s1.passes := by rw [hs]; exact Nat.lt_succ_self _
    have htr1 : s1.trace = s.trace := by rw [hs]; rfl
    have hheap : s1.heap = s.heap := by rw [hs]; rfl
    obtain ⟨L, hL⟩ := notify_loop_spec call hcall s.passes arg s.m_registrations s1 hw1 hp1
      (by rw [hheap]; exact h.regs_bound)
    have conv : ∀ st rs, pass_outcome s.passes s.m_registrations s1 (st, rs) L →
        ∀ rs1 : State, rs1.trace = rs.trace → rs1.heap = rs.heap →
        pass_outcome s.passes s.m_registrations s (st, rs1) L := by
      intro st rs ho rs1 ht hh
      refine ⟨?_, ho.sublist, ?_, ?_, ?_, ?_⟩
      · have := ho.invoked
        simp only [htr1] at this
        simpa [ht] using this
      · intro e he
        rw [← use_count_congr hheap]; exact ho.alive e he
      · intro hok
        obtain ⟨h1, h2, h3⟩ := ho.on_ok hok
        simp only [htr1] at h1 h2
        refine ⟨by simpa [ht] using h1, by simpa [ht] using h2, ?_⟩
        intro e he hn
        rw [use_count_congr hh]; exact h3 e he hn
      · intro err herr
        obtain ⟨pre, k, post, L1, h1, h2, h3, h4, h5⟩ := ho.on_raise err herr
        simp only [htr1] at h4 h5
        exact ⟨pre, k, post, L1, h1, h2, h3, by simpa [ht] using h4, by simpa [ht] using h5⟩
      · intro hn1 hn2
        have := ho.on_stop hn1 hn2
        simp only [htr1] at this
        simpa [ht] using this
    cases hst : (notify_loop call s.passes arg s.m_registrations s1).1 with
    | ok =>
      refine ⟨L, conv Status.ok (notify_loop call s.passes arg s.m_registrations s1).2 ?_
        _ rfl rfl⟩
      rw [← hst]; exact hL
    | raised err =>
      refine ⟨L, conv (Status.raised err)
        (notify_loop call s.passes arg s.m_registrations s1).2 ?_ _ rfl rfl⟩
      rw [← hst]; exact hL
    | blocked =>
      refine ⟨L, conv Status.blocked
        (notify_loop call s.passes arg s.m_registrations s1).2 ?_ _ rfl rfl⟩
      rw [← hst]; exact hL
    | out_of_fuel =>
      refine ⟨L, conv Status.out_of_fuel
        (notify_loop call s.passes arg s.m_registrations s1).2 ?_ _ rfl rfl⟩
      rw [← hst]; exact hL

/-- In a state whose pass counter is `p`, the entries pass `p` invoked are just
those the outcome lists. -/
theorem pass_outcome_fresh {s : State} (h : wellformed s) {snap : List Nat}
    {r : Status × State} {L : List Nat} (ho : pass_outcome s.passes snap s r L) :
    invoked_by s.passes r.2.trace = L ∧
    (r.1 = Status.ok → returned_by s.passes r.2.trace = L ∧ raised_by s.passes r.2.trace = []) ∧
    (∀ err, r.1 = Status.raised err →
      ∃ pre k post L1, snap = pre ++ k :: post ∧ List.Sublist L1 pre ∧ L = L1 ++ [k] ∧
        returned_by s.passes r.2.trace = L1 ∧ raised_by s.passes r.2.trace = [(k, err)]) ∧
    (r.1 ≠ Status.ok → (∀ err, r.1 ≠ Status.raised err) → raised_by s.passes r.2.trace = []) := by
  obtain ⟨f1, f2, f3⟩ := own_events_fresh h (Nat.le_refl s.passes)
  refine ⟨by rw [ho.invoked, f1]; simp, ?_, ?_, ?_⟩
  · intro hok
    obtain ⟨h1, h2, _⟩ := ho.on_ok hok
    exact ⟨by rw [h1, f2]; simp, by rw [h2, f3]⟩
  · intro err herr
    obtain ⟨pre, k, post, L1, h1, h2, h3, h4, h5⟩ := ho.on_raise err herr
    exact ⟨pre, k, post, L1, h1, h2, h3, by rw [h4, f2]; simp, by rw [h5, f3]; simp⟩
  · intro hn1 hn2
    rw [ho.on_stop hn1 hn2, f3]

end registration

namespace registration

/-! ## Claims -/

/-- A sublist of a list without duplicates is the filter of the list by any
predicate that holds on its members and fails on the others. -/
theorem sublist_eq_filter (P : Nat → Bool) : ∀ {l L : List Nat}, l.Nodup → L.Sublist l →
    (∀ e ∈ L, P e = true) → (∀ e ∈ l, e ∉ L → P e = false) → L = l.filter P := by
  intro l L hnd hs
  induction hs with
  | slnil => intro _ _; rfl
  | @cons L1 l1 a hs1 ih =>
    intro h1 h2
    have hnd1 := (List.nodup_cons.mp hnd).2
    have ha : a ∉ L1 := fun hm => (List.nodup_cons.mp hnd).1 (hs1.subset hm)
    have hPa : P a = false := h2 a (List.mem_cons_self _ _) ha
    rw [List.filter_cons_of_neg (by simp [hPa])]
    exact ih hnd1 h1 (fun e he hn => h2 e (List.mem_cons_of_mem _ he) hn)
  | @cons₂ L1 l1 a hs1 ih =>
    intro h1 h2
    have hnd1 := (List.nodup_cons.mp hnd).2
    have hPa : P a = true := h1 a (List.mem_cons_self _ _)
    rw [List.filter_cons_of_pos hPa]
    congr 1
    refine ih hnd1 (fun e he => h1 e (List.mem_cons_of_mem _ he)) ?_
    intro e he hn
    refine h2 e (List.mem_cons_of_mem _ he) ?_
    intro hm
    rcases List.mem_cons.mp hm with hea | hel
    · subst hea; exact (List.nodup_cons.mp hnd).1 he
    · exact hn hel

theorem regs_nodup {s : State} (h : wellformed s) : s.m_registrations.Nodup :=
  h.regs_sorted.imp (fun hab => Nat.ne_of_lt hab)

end registration

namespace registration

/-- C1 as stated fails: with two subscribers alive when the snapshot is taken,
the first of which releases the token of the second in its callback, the pass
returns normally and has invoked the first callback only. -/
theorem notify_all_alive_at_snapshot_counterexample :
    wellformed (exec 1 0 releasing_subscribers State.init).2 ∧
    (exec 1 0 releasing_subscribers State.init).2.m_registrations.filter
      (fun e => !expired (exec 1 0 releasing_subscribers State.init).2 e) = [0, 1] ∧
    (notify_all 1 0 0 (exec 1 0 releasing_subscribers State.init).2).1 = Status.ok ∧
    invoked_by (exec 1 0 releasing_subscribers State.init).2.passes
      (notify_all 1 0 0 (exec 1 0 releasing_subscribers State.init).2).2.trace = [0] ∧
    ¬ (∀ (fuel tid arg : Nat) (s : State), wellformed s →
        invoked_by s.passes (notify_all fuel tid arg s).2.trace =
          s.m_registrations.filter (fun e => !expired s e)) := by
  have hw := (exec_sound 0 1 releasing_subscribers State.init wellformed_init).1
  refine ⟨hw, by decide, by decide, by decide, ?_⟩
  intro hall
  have := hall 1 0 0 _ hw
  revert this
  decide

end registration

namespace registration

/-- `unsubscribe` on a token that holds the last strong reference deletes the
entry before it returns. -/
theorem unsubscribe_last {tid i e : Nat} {t : token} {s : State}
    (h : wellformed s) (ht : s.tokens[i]? = some t) (hh : t.m_registration_holder = some e)
    (hlast : use_count s e = 1) (hret : (unsubscribe tid i s).1 = Status.ok) :
    use_count (unsubscribe tid i s).2 e = 0 ∧
    ∃ c : control_block, s.heap[e]? = some c ∧
      ∃ m, s.m_notification_lock.lock tid = some m ∧
      (unsubscribe tid i s).2.trace = s.trace ++
        ((match c.entry.m_endhandler with
          | some l => [Event.endhandler e l m s.m_registrations_lock]
          | none => []) ++ [Event.destroy e]) := by
  have hmx : t.m_notify_mutex = true := h.tok_mutex t (mem_of_lookup ht) e hh
  obtain ⟨c, hc, hcs⟩ := lookup_of_use_count_pos (s := s) (e := e) (by omega)
  have hc1 : c.strong = 1 := by omega
  unfold unsubscribe at hret ⊢
  simp only [ht, hmx, if_true] at hret ⊢
  cases hl : lock_notification tid s with
  | none => simp [hl] at hret
  | some s1 =>
    simp only [hl]
    obtain ⟨m, hm, hs1⟩ := lock_notification_some hl
    have ht1 : s1.tokens[i]? = some t := by rw [hs1]; exact ht
    have hcl : s1.heap[e]? = some c := by rw [hs1]; exact hc
    rw [token_reset_of_some ht1 hh]
    refine ⟨?_, c, hc, m, hm, ?_⟩
    · show use_count (shared_release e s1) e = 0
      rw [shared_release_use_count hcl]; simp [hc1]
    · show (shared_release e s1).trace = _
      rw [shared_release_trace, release_events_last hcl hc1, hs1]

/-- C2 (as amended). Once `unsubscribe()` has returned on a token that held the
last strong reference to its entry (no other copy of the token is alive and the
callback is not being invoked), the callback is never invoked again: the entry
is expired, no run of user code from the state reached (in particular no later
`notify_all` pass) and no remainder of a notification loop in progress starts
an invocation of it, and no state the holder can be in whose trace extends the
trace at the return holds a later invocation of it. -/
theorem unsubscribe_of_last_reference_ends_invocations (tid i e : Nat) (t : token)
    (s : State) (h : wellformed s) (ht : s.tokens[i]? = some t)
    (hh : t.m_registration_holder = some e) (hlast : use_count s e = 1)
    (hret : (unsubscribe tid i s).1 = Status.ok) :
    expired (unsubscribe tid i s).2 e = true ∧
    (∀ fuel tid1 prog,
      started (exec fuel tid1 prog (unsubscribe tid i s).2).2.trace e =
        started (unsubscribe tid i s).2.trace e) ∧
    (∀ fuel tid1 p arg snap, p < (unsubscribe tid i s).2.passes →
      started (notify_loop (exec fuel tid1) p arg snap (unsubscribe tid i s).2).2.trace e =
        started (unsubscribe tid i s).2.trace e) ∧
    (∀ s2 ext, wellformed s2 → s2.trace = (unsubscribe tid i s).2.trace ++ ext →
      started ext e = 0) := by
  obtain ⟨hdead, c, hc, m, _, htr⟩ := unsubscribe_last h ht hh hlast hret
  have hw1 := (unsubscribe_sound h tid i).1
  have hlt : e < (unsubscribe tid i s).2.heap.length :=
    Nat.lt_of_lt_of_le (lt_length_of_lookup hc) (unsubscribe_sound h tid i).2.1.heap_le
  refine ⟨by simp [expired, hdead], ?_, ?_, ?_⟩
  · intro fuel tid1 prog
    obtain ⟨ext, hext, _, hst⟩ := (exec_sound tid1 fuel prog _ hw1).2.1.trace_ext
    rw [hext, started_append, hst e hlt hdead]; rfl
  · intro fuel tid1 p arg snap hp
    obtain ⟨ext, hext, _, hst⟩ :=
      (notify_loop_sound (exec fuel tid1) (exec_sound tid1 fuel) p arg snap _ hw1 hp).2.1.trace_ext
    rw [hext, started_append, hst e hlt hdead]; rfl
  · intro s2 ext hw2 hext
    refine hw2.no_revival (s.trace ++ (match c.entry.m_endhandler with
          | some l => [Event.endhandler e l m s.m_registrations_lock]
          | none => [])) ext e ?_
    rw [hext, htr]
    simp [List.append_assoc]

/-- C2, an instance of the theorem: one subscriber, whose only token is released. -/
theorem unsubscribe_of_last_reference_ends_invocations_witness :
    wellformed (exec 1 0 one_subscriber State.init).2 ∧
    use_count (exec 1 0 one_subscriber State.init).2 0 = 1 ∧
    (unsubscribe 0 0 (exec 1 0 one_subscriber State.init).2).1 = Status.ok ∧
    expired (unsubscribe 0 0 (exec 1 0 one_subscriber State.init).2).2 0 = true ∧
    (∀ fuel tid1 prog,
      started (exec fuel tid1 prog
        (unsubscribe 0 0 (exec 1 0 one_subscriber State.init).2).2).2.trace 0 =
        started (unsubscribe 0 0 (exec 1 0 one_subscriber State.init).2).2.trace 0) :=
  ⟨(exec_sound 0 1 one_subscriber State.init wellformed_init).1, by decide, by decide,
   (unsubscribe_of_last_reference_ends_invocations 0 0 0
      { m_registration_holder := some 0, m_notify_mutex := true }
      (exec 1 0 one_subscriber State.init).2
      (exec_sound 0 1 one_subscriber State.init wellformed_init).1
      (by decide) rfl (by decide) (by decide)).1,
   (unsubscribe_of_last_reference_ends_invocations 0 0 0
      { m_registration_holder := some 0, m_notify_mutex := true }
      (exec 1 0 one_subscriber State.init).2
      (exec_sound 0 1 one_subscriber State.init wellformed_init).1
      (by decide) rfl (by decide) (by decide)).2.1⟩

/-- C2 as stated fails: when the token returned by `subscribe` has been copied,
the callback is still invoked by a `notify_all` pass made after `unsubscribe()`
on that token has returned. -/
theorem unsubscribe_copied_token_counterexample :
    (exec 1 0 copied_then_released State.init).1 = Status.ok ∧
    (exec 1 0 copied_then_released State.init).2.tokens[0]? = some token.null ∧
    invoked_by 0 (exec 2 0 (copied_then_released ++ [Action.notify_all 0])
      State.init).2.trace = [0] ∧
    ¬ (∀ (tid i e : Nat) (t : token) (s : State), wellformed s → s.tokens[i]? = some t →
        t.m_registration_holder = some e → (unsubscribe tid i s).1 = Status.ok →
        ∀ fuel prog, started (exec fuel tid prog (unsubscribe tid i s).2).2.trace e =
          started (unsubscribe tid i s).2.trace e) := by
  refine ⟨by decide, by decide, by decide, ?_⟩
  intro hall
  have hw := (exec_sound 0 1 [Action.subscribe (logging_callback 1 1) (some 9), Action.copy 0]
    State.init wellformed_init).1
  have := hall 0 0 0 { m_registration_holder := some 0, m_notify_mutex := true } _ hw
    (by decide) rfl (by decide) 2 [Action.notify_all 0]
  revert this
  decide

end registration

namespace registration

theorem mem_raised_by {p k err : Nat} {tr : List Event} (h : Event.exc p k err ∈ tr) :
    (k, err) ∈ raised_by p tr := by
  unfold raised_by
  rw [List.mem_filterMap]
  exact ⟨_, h, by simp [Event.threw]⟩

/-- What the outcome of a pass says when one of its callbacks has thrown. -/
theorem pass_outcome_of_exc {s : State} (h : wellformed s) {r : Status × State}
    {L : List Nat} (ho : pass_outcome s.passes s.m_registrations s r L) {k err : Nat}
    (hexc : Event.exc s.passes k err ∈ r.2.trace) :
    r.1 = Status.raised err ∧
    ∃ pre post L1, s.m_registrations = pre ++ k :: post ∧ List.Sublist L1 pre ∧
      invoked_by s.passes r.2.trace = L1 ++ [k] ∧
      returned_by s.passes r.2.trace = L1 ∧
      (L1 ++ [k]).Nodup ∧
      ∀ e ∈ post, e ∉ invoked_by s.passes r.2.trace := by
  obtain ⟨f1, f2, f3, f4⟩ := pass_outcome_fresh h ho
  have hmem := mem_raised_by hexc
  have hnd := regs_nodup h
  cases hst : r.1 with
  | ok => rw [(f2 hst).2] at hmem; simp at hmem
  | blocked =>
    rw [f4 (by rw [hst]; simp) (by rw [hst]; simp)] at hmem; simp at hmem
  | out_of_fuel =>
    rw [f4 (by rw [hst]; simp) (by rw [hst]; simp)] at hmem; simp at hmem
  | raised err1 =>
    obtain ⟨pre, k1, post, L1, h1, h2, h3, h4, h5⟩ := f3 err1 hst
    rw [h5] at hmem
    simp at hmem
    obtain ⟨hk, he⟩ := hmem
    subst hk; subst he
    refine ⟨rfl, pre, post, L1, h1, h2, by rw [f1, h3], h4, ?_, ?_⟩
    · rw [← h3]; exact hnd.sublist ho.sublist
    · intro e he hin
      rw [f1, h3] at hin
      rw [h1] at hnd
      have hdis := List.nodup_append.mp hnd
      have hk2 := List.nodup_cons.mp hdis.2.1
      rcases List.mem_append.mp hin with hm | hm
      · exact hdis.2.2 (h2.subset hm) (List.mem_cons_of_mem _ he)
      · simp at hm; subst hm; exact hk2.1 he

end registration

namespace registration

/-! ## Callbacks that only log, and a callback that releases its own token -/

theorem run_actions_logs (call : List Action → State → Status × State) (tid : Nat) :
    ∀ (ls : List Nat) (s : State),
      run_actions call tid (ls.map Action.log) s =
        (Status.ok, { s with trace := s.trace ++ ls.map Event.log }) := by
  intro ls
  induction ls with
  | nil => intro s; simp [run_actions]
  | cons l rest ih =>
    intro s
    simp only [List.map_cons, run_actions, run_action]
    rw [ih]
    simp [emit]

theorem run_actions_append_ok (call : List Action → State → Status × State) (tid : Nat) :
    ∀ (a b : List Action) (s s1 : State), run_actions call tid a s = (Status.ok, s1) →
      run_actions call tid (a ++ b) s = run_actions call tid b s1 := by
  intro a
  induction a with
  | nil =>
    intro b s s1 h
    simp [run_actions] at h
    subst h; rfl
  | cons x rest ih =>
    intro b s s1 h
    simp only [List.cons_append, run_actions] at h ⊢
    cases hst : (run_action call tid x s).1 with
    | ok =>
      simp only [hst] at h ⊢
      exact ih b _ s1 h
    | raised err =>
      simp only [hst] at h
      rw [Prod.ext_iff] at h
      simp [hst] at h
    | blocked =>
      simp only [hst] at h
      rw [Prod.ext_iff] at h
      simp [hst] at h
    | out_of_fuel =>
      simp only [hst] at h
      rw [Prod.ext_iff] at h
      simp [hst] at h

end registration

namespace registration

theorem lookup_set_self {s : State} {e : Nat} {c c1 : control_block}
    (hc : s.heap[e]? = some c) : (s.heap.set e c1)[e]? = some c1 := by
  have hlt := lt_length_of_lookup hc
  simp [List.getElem?_set, hlt]

/-- The thread that holds the notification lock is never made to wait by
`unsubscribe`: the lock is re-entrant. -/
theorem unsubscribe_by_owner (tid : Nat) (x : State)
    (hown : x.m_notification_lock.owner = tid) (j : Nat) :
    (unsubscribe tid j x).1 = Status.ok := by
  unfold unsubscribe
  cases ht : x.tokens[j]? with
  | none => rfl
  | some t =>
    by_cases hm : t.m_notify_mutex = true
    · by_cases hz : x.m_notification_lock.count = 0 <;>
        simp [hm, lock_notification, recursive_mutex.lock, hz, hown]
    · simp [hm]

end registration

namespace registration

end registration

namespace registration

theorem wellformed_self_releasing_in_pass : wellformed self_releasing_in_pass :=
  wellformed_transfer (exec_sound 0 1 self_releasing_subscribers State.init wellformed_init).1
    rfl rfl rfl
    (exec_sound 0 1 self_releasing_subscribers State.init wellformed_init).1.tok_mutex
    (fun _ => rfl) rfl (by decide)

/-- C4 as stated fails: when a copy of the token is alive, the callback that
has released its own token during its invocation in pass 0 is invoked again by
pass 1. -/
theorem self_release_with_copy_counterexample :
    (exec 2 0 (self_releasing_with_copy ++ [Action.notify_all 0]) State.init).1 = Status.ok ∧
    (exec 2 0 (self_releasing_with_copy ++ [Action.notify_all 0])
      State.init).2.tokens[0]? = some token.null ∧
    invoked_by 0 (exec 2 0 (self_releasing_with_copy ++
      [Action.notify_all 0, Action.notify_all 0]) State.init).2.trace = [0] ∧
    invoked_by 1 (exec 2 0 (self_releasing_with_copy ++
      [Action.notify_all 0, Action.notify_all 0]) State.init).2.trace = [0] := by
  decide

end registration

namespace registration

/-- A snapshot entry that is alive after a pass that has returned normally has
been invoked by the pass. -/
theorem invoked_of_alive_after {fuel tid arg : Nat} {s : State} (h : wellformed s)
    (hok : (notify_all fuel tid arg s).1 = Status.ok) {e : Nat} (hlt : e < s.heap.length)
    (halive : expired (notify_all fuel tid arg s).2 e = false) :
    e ∈ invoked_by s.passes (notify_all fuel tid arg s).2.trace := by
  obtain ⟨L, hL⟩ := notify_all_impl_spec (exec fuel tid) (exec_sound tid fuel) tid arg h
  have hinv : invoked_by s.passes (notify_all fuel tid arg s).2.trace = L :=
    (pass_outcome_fresh h hL).1
  have hsound := notify_all_impl_sound (exec fuel tid) (exec_sound tid fuel) tid arg h
  have hpos : 0 < use_count (notify_all fuel tid arg s).2 e := by
    simp [expired] at halive; omega
  have hpos0 : 0 < use_count s e := by
    by_contra hz
    have := hsound.2.1.dead e hlt (by omega)
    have hpos1 : 0 < use_count (notify_all_impl (exec fuel tid) tid arg s).2 e := hpos
    omega
  rw [hinv]
  by_contra hn
  have := (hL.on_ok hok).2.2 e (h.regs_alive e hpos0) hn
  have hpos1 : 0 < use_count (notify_all_impl (exec fuel tid) tid arg s).2 e := hpos
  omega

end registration

namespace registration

/-! ## The results of `notify_all_impl2` -/

theorem callback_result_stable {n : Nat} {s s1 : State} (hext : extends_from n s s1)
    (arg : Nat) {e : Nat} (hlt : e < s.heap.length) :
    callback_result s1 arg e = callback_result s arg e := by
  obtain ⟨c, hc⟩ : ∃ c : control_block, s.heap[e]? = some c := by
    cases hc : s.heap[e]? with
    | none => rw [List.getElem?_eq_none_iff] at hc; omega
    | some c => exact ⟨c, rfl⟩
  obtain ⟨c1, hc1, he1⟩ := hext.code e c hc
  simp [callback_result, hc, hc1, he1]

theorem notify_loop2_results (call : List Action → State → Status × State)
    (hcall : ∀ prog s, wellformed s → sound s (call prog s)) (p arg : Nat) :
    ∀ (snap rs : List Nat) (s : State), wellformed s → p < s.passes →
      (∀ e ∈ snap, e < s.heap.length) →
      (notify_loop2 call p arg snap rs s).1 = Status.ok →
      ∃ L, invoked_by p (notify_loop2 call p arg snap rs s).2.2.trace =
          invoked_by p s.trace ++ L ∧ (∀ x ∈ L, x ∈ snap) ∧
        (notify_loop2 call p arg snap rs s).2.1 = rs ++ L.map (callback_result s arg) := by
  intro snap
  induction snap with
  | nil =>
    intro rs s _ _ _ _
    exact ⟨[], by simp [notify_loop2], by simp, by simp [notify_loop2]⟩
  | cons e rest ih =>
    intro rs s h hp hb hok
    have hbrest : ∀ x ∈ rest, x < s.heap.length := fun x hx => hb x (List.mem_cons_of_mem _ hx)
    cases hwl : weak_lock s e with
    | none =>
      have heq : notify_loop2 call p arg (e :: rest) rs s =
          notify_loop2 call p arg rest rs s := by
        simp [notify_loop2, hwl]
      rw [heq] at hok ⊢
      obtain ⟨L, hL1, hLm, hL2⟩ := ih rs s h hp hbrest hok
      exact ⟨L, hL1, fun x hx => List.mem_cons_of_mem _ (hLm x hx), hL2⟩
    | some cs =>
      obtain ⟨c, s1⟩ := cs
      obtain ⟨c0, hc, hpos, hce, hs1⟩ := weak_lock_some hwl
      subst hs1
      have hwE := wellformed_enter h hc hpos hp arg
      have heE : extends_from p s (emit (Event.call p e arg) (shared_acquire e s)) :=
        extends_from_enter hc hpos (Nat.le_refl p) arg
      obtain ⟨hw2, he2, hb2⟩ := hcall (c.m_callback arg).1 _ hwE
      have hpE : p ≤ (emit (Event.call p e arg) (shared_acquire e s)).passes := by
        simp [(shared_acquire_frame e s).2.2.2.2.1]; omega
      have hes2 := extends_from_trans heE he2 hpE
      have hp2 : p < (call (c.m_callback arg).1
          (emit (Event.call p e arg) (shared_acquire e s))).2.passes :=
        Nat.lt_of_lt_of_le hp hes2.passes_le
      obtain ⟨o1, _, _⟩ := own_events_body hp he2
      cases hst : (call (c.m_callback arg).1
          (emit (Event.call p e arg) (shared_acquire e s))).1 with
      | ok =>
        have hbal := hb2 (by rw [hst]; rfl)
        have hin := in_progress_after_body h hbal
        have hwL := wellformed_leave (v := Event.ret p e) hw2 hin hp2 (Or.inl rfl)
        have heL : extends_from p _ (shared_release e (emit (Event.ret p e) _)) :=
          extends_from_leave (s := (call (c.m_callback arg).1
            (emit (Event.call p e arg) (shared_acquire e s))).2) (Nat.le_refl p) (Or.inl rfl)
        have hesL := extends_from_trans hes2 heL (Nat.le_refl p)
        have hpL : p < (shared_release e (emit (Event.ret p e) (call (c.m_callback arg).1
            (emit (Event.call p e arg) (shared_acquire e s))).2)).passes := by
          rw [(shared_release_frame e _).2.2.2.2.1]; exact hp2
        have heq : notify_loop2 call p arg (e :: rest) rs s =
            notify_loop2 call p arg rest (rs ++ [(c.m_callback arg).2])
              (shared_release e (emit (Event.ret p e) (call (c.m_callback arg).1
                (emit (Event.call p e arg) (shared_acquire e s))).2)) := by
          simp [notify_loop2, hwl, hst]
        rw [heq] at hok ⊢
        obtain ⟨L, hL1, hLm, hL2⟩ := ih _ _ hwL hpL
          (fun x hx => Nat.lt_of_lt_of_le (hbrest x hx) hesL.heap_le) hok
        have q1 : invoked_by p (shared_release e (emit (Event.ret p e) (call (c.m_callback arg).1
            (emit (Event.call p e arg) (shared_acquire e s))).2)).trace =
            invoked_by p s.trace ++ [e] := by
          rw [(own_events_leave p _ e _).1, o1, (own_events_ret p e).1, List.append_nil]
        have hres : (c.m_callback arg).2 = callback_result s arg e := by
          simp [callback_result, hc, hce]
        have hmap : L.map (callback_result (shared_release e (emit (Event.ret p e)
            (call (c.m_callback arg).1
              (emit (Event.call p e arg) (shared_acquire e s))).2)) arg) =
            L.map (callback_result s arg) := by
          apply List.map_congr_left
          intro x hx
          exact callback_result_stable hesL arg (hbrest x (hLm x hx))
        refine ⟨e :: L, ?_, ?_, ?_⟩
        · rw [hL1, q1]; simp
        · intro x hx
          rcases List.mem_cons.mp hx with hxe | hxL
          · subst hxe; exact List.mem_cons_self _ _
          · exact List.mem_cons_of_mem _ (hLm x hxL)
        · rw [hL2, hmap, hres]; simp
      | raised err =>
        have heq : notify_loop2 call p arg (e :: rest) rs s = (Status.raised err, rs,
            shared_release e (emit (Event.exc p e err) (call (c.m_callback arg).1
              (emit (Event.call p e arg) (shared_acquire e s))).2)) := by
          simp [notify_loop2, hwl, hst]
        rw [heq] at hok; cases hok
      | blocked =>
        have heq : notify_loop2 call p arg (e :: rest) rs s = (Status.blocked, rs,
            (call (c.m_callback arg).1
              (emit (Event.call p e arg) (shared_acquire e s))).2) := by
          simp [notify_loop2, hwl, hst]
        rw [heq] at hok; cases hok
      | out_of_fuel =>
        have heq : notify_loop2 call p arg (e :: rest) rs s = (Status.out_of_fuel, rs,
            (call (c.m_callback arg).1
              (emit (Event.call p e arg) (shared_acquire e s))).2) := by
          simp [notify_loop2, hwl, hst]
        rw [heq] at hok; cases hok

end registration

namespace registration

/-- The list returned by `notify_all_impl2` holds the results of the callbacks
the pass invoked, in the order of invocation. -/
theorem notify_all_impl2_results (call : List Action → State → Status × State)
    (hcall : ∀ prog s, wellformed s → sound s (call prog s)) (tid arg : Nat)
    {s : State} (h : wellformed s)
    (hok : (notify_all_impl2 call tid arg s).1 = Status.ok) :
    (notify_all_impl2 call tid arg s).2.1 =
      (invoked_by s.passes (notify_all_impl2 call tid arg s).2.2.trace).map
        (callback_result s arg) := by
  unfold notify_all_impl2 at hok ⊢
  have hfree : ¬ s.m_registrations_lock = true := by simp [h.regs_free]
  rw [if_neg hfree] at hok ⊢
  dsimp only at hok ⊢
  cases hm : lock_notification tid (begin_pass s) with
  | none => rw [hm] at hok; cases hok
  | some s1 =>
    rw [hm] at hok
    dsimp only at hok ⊢
    have hw1 := wellformed_lock_notification (wellformed_begin_pass h) hm
    obtain ⟨m, _, hs⟩ := lock_notification_some hm
    have hp1 : s.passes < s1.passes := by rw [hs]; exact Nat.lt_succ_self _
    have htr1 : s1.trace = s.trace := by rw [hs]; rfl
    have hheap : s1.heap = s.heap := by rw [hs]; rfl
    have hcr : callback_result s1 arg = callback_result s arg := by
      funext e; simp [callback_result, hheap]
    obtain ⟨f1, _, _⟩ := own_events_fresh h (Nat.le_refl s.passes)
    cases hst : (notify_loop2 call s.passes arg s.m_registrations [] s1).1 with
    | ok =>
      obtain ⟨L, hL1, _, hL2⟩ := notify_loop2_results call hcall s.passes arg
        s.m_registrations [] s1 hw1 hp1 (by rw [hheap]; exact h.regs_bound) hst
      simp only [hst]
      show (notify_loop2 call s.passes arg s.m_registrations [] s1).2.1 =
        (invoked_by s.passes
          (notify_loop2 call s.passes arg s.m_registrations [] s1).2.2.trace).map _
      rw [hL1, hL2, htr1, f1, hcr]; simp
    | raised err => simp [hst] at hok
    | blocked => simp [hst] at hok
    | out_of_fuel => simp [hst] at hok

/-- The entries a pass has invoked, in terms of its outcome. -/
theorem invoked_entries_of_outcome {s : State} (h : wellformed s) {r : Status × State}
    {L : List Nat} (hL : pass_outcome s.passes s.m_registrations s r L) :
    invoked_by s.passes r.2.trace = L ∧
    L.Pairwise (fun a b => a < b) ∧
    (∀ e ∈ L, expired s e = false) ∧
    (r.1 = Status.ok →
      (∀ e ∈ s.m_registrations, e ∉ L → expired r.2 e = true) ∧
      ((∀ e ∈ s.m_registrations, expired s e = false → expired r.2 e = false) →
        L = s.m_registrations.filter (fun e => !expired s e))) := by
  have halive : ∀ e ∈ L, expired s e = false := by
    intro e he
    have := hL.alive e he
    simp [expired]; omega
  refine ⟨(pass_outcome_fresh h hL).1, h.regs_sorted.sublist hL.sublist, halive, ?_⟩
  intro hok
  obtain ⟨_, _, h3⟩ := hL.on_ok hok
  have hdead : ∀ e ∈ s.m_registrations, e ∉ L → expired r.2 e = true := by
    intro e he hn
    have := h3 e he hn
    simp [expired]; exact this
  refine ⟨hdead, ?_⟩
  intro hkeep
  refine sublist_eq_filter (fun e => !expired s e) (regs_nodup h) hL.sublist ?_ ?_
  · intro e he; simp [halive e he]
  · intro e he hn
    have h1 := hdead e he hn
    cases hx : expired s e with
    | true => simp [hx]
    | false =>
      have h2 := hkeep e he hx
      rw [h1] at h2; cases h2

end registration

namespace registration

/-- C6 as stated fails: with two subscribers alive when the snapshot is taken,
the first of which releases the token of the second in its callback, the list
returned holds the result of the first callback only. -/
theorem notify_all_results_counterexample :
    wellformed (exec 1 0 releasing_subscribers State.init).2 ∧
    ((exec 1 0 releasing_subscribers State.init).2.m_registrations.filter
      (fun e => !expired (exec 1 0 releasing_subscribers State.init).2 e)).map
        (callback_result (exec 1 0 releasing_subscribers State.init).2 0) = [10, 20] ∧
    (notify_all2 1 0 0 (exec 1 0 releasing_subscribers State.init).2).1 = Status.ok ∧
    (notify_all2 1 0 0 (exec 1 0 releasing_subscribers State.init).2).2.1 = [10] :=
  ⟨(exec_sound 0 1 releasing_subscribers State.init wellformed_init).1, by decide, by decide,
   by decide⟩

end registration

namespace registration

/-! ## Releasing a token twice -/

theorem set_of_lookup {α : Type} : ∀ (l : List α) (i : Nat) (a : α), l[i]? = some a →
    l.set i a = l := by
  intro l
  induction l with
  | nil => intro i a _; rfl
  | cons x rest ih =>
    intro i a h
    cases i with
    | zero => simp at h; subst h; rfl
    | succ k =>
      simp at h
      simp [ih k a h]

theorem unsubscribe_null {s : State} {i : Nat} (h : s.tokens[i]? = some token.null)
    (tid : Nat) : unsubscribe tid i s = (Status.ok, s) := by
  unfold unsubscribe
  simp only [h, token.null, Bool.false_eq_true, if_false]
  have : token_reset i s = s := by
    rw [token_reset_of_none h rfl, set_of_lookup s.tokens i token.null h]
  rw [this]

theorem tokens_after_unsubscribe {s : State} {tid i : Nat} {t : token}
    (ht : s.tokens[i]? = some t) (hret : (unsubscribe tid i s).1 = Status.ok) :
    (unsubscribe tid i s).2.tokens[i]? = some token.null := by
  have hlt := (List.getElem?_eq_some.mp ht).1
  have key : ∀ x : State, x.tokens = s.tokens → (token_reset i x).tokens[i]? = some token.null := by
    intro x hx
    have htx : x.tokens[i]? = some t := by rw [hx]; exact ht
    cases hh : t.m_registration_holder with
    | none =>
      rw [token_reset_of_none htx hh]
      simp [hx, List.getElem?_set, hlt]
    | some e =>
      rw [token_reset_of_some htx hh]
      simp [(shared_release_frame e x).1, hx, List.getElem?_set, hlt]
  unfold unsubscribe at hret ⊢
  simp only [ht] at hret ⊢
  by_cases hm : t.m_notify_mutex = true
  · simp only [hm, if_true] at hret ⊢
    cases hl : lock_notification tid s with
    | none => simp [hl] at hret
    | some s1 =>
      obtain ⟨m, _, hs1⟩ := lock_notification_some hl
      simp only []
      exact key s1 (by rw [hs1])
  · simp only [hm]
    exact key s rfl

end registration

namespace registration

/-- C9. Token release is idempotent: once `unsubscribe()` has returned, a second
`unsubscribe()` on the same token (by any thread), and in particular the one
the destructor makes, returns at once and leaves the whole state (token, heap,
locks and trace) as it is, so that nothing is released and no end handler
runs; the token is null from then on.  `unsubscribe()` on a
default-constructed token leaves the state as it is in every state of the
holder, also when the notification lock is held by another thread: it takes no
lock. -/
theorem unsubscribe_is_idempotent (tid tid1 i : Nat) (s : State) :
    ((unsubscribe tid i s).1 = Status.ok →
      unsubscribe tid1 i (unsubscribe tid i s).2 = (Status.ok, (unsubscribe tid i s).2) ∧
      token_dtor tid1 i (unsubscribe tid i s).2 = (Status.ok, (unsubscribe tid i s).2) ∧
      (∀ t, s.tokens[i]? = some t →
        (unsubscribe tid i s).2.tokens[i]? = some token.null)) ∧
    (token_default s).tokens[s.tokens.length]? = some token.null ∧
    unsubscribe tid s.tokens.length (token_default s) = (Status.ok, token_default s) := by
  have hdef : (token_default s).tokens[s.tokens.length]? = some token.null := by
    simp [token_default]
  refine ⟨?_, hdef, unsubscribe_null hdef tid⟩
  intro hret
  have hsecond : unsubscribe tid1 i (unsubscribe tid i s).2 =
      (Status.ok, (unsubscribe tid i s).2) := by
    cases ht : s.tokens[i]? with
    | none =>
      have h1 : unsubscribe tid i s = (Status.ok, s) := by simp [unsubscribe, ht]
      rw [h1]
      simp [unsubscribe, ht]
    | some t => exact unsubscribe_null (tokens_after_unsubscribe ht hret) tid1
  exact ⟨hsecond, hsecond, fun t ht => tokens_after_unsubscribe ht hret⟩

/-- C9, an instance of the theorem: the only token of one subscriber is
released twice; the end handler (label 9) has run once. -/
theorem unsubscribe_is_idempotent_witness :
    (unsubscribe 0 0 (exec 1 0 one_subscriber State.init).2).1 = Status.ok ∧
    unsubscribe 0 0 (unsubscribe 0 0 (exec 1 0 one_subscriber State.init).2).2 =
      (Status.ok, (unsubscribe 0 0 (exec 1 0 one_subscriber State.init).2).2) ∧
    handled (exec 1 0 (one_subscriber ++ [Action.unsubscribe 0, Action.unsubscribe 0])
      State.init).2.trace 0 = 1 :=
  ⟨by decide,
   ((unsubscribe_is_idempotent 0 0 0 (exec 1 0 one_subscriber State.init).2).1
      (by decide)).1,
   by decide⟩

end registration

namespace registration

/-- C7. After every sequence of operations run from a fresh holder (subscribe,
token copy, token release and `notify_all`, at the top level or from inside
callbacks), for every entry: while a strong reference to the entry remains its
end handler has not run; once the last strong reference has disappeared the
end handler has run exactly once, and the entry has been deleted exactly once;
an entry subscribed without an end handler has run none.  The handler runs in
the very step that drops the last reference: dropping a strong reference adds
one run of the end handler exactly when the count goes from one to zero and
the entry has an end handler. -/
theorem end_handler_runs_exactly_once (fuel tid : Nat) (prog : List Action) (e : Nat)
    (c : control_block) (hc : (exec fuel tid prog State.init).2.heap[e]? = some c) :
    (0 < c.strong → handled (exec fuel tid prog State.init).2.trace e = 0) ∧
    (c.strong = 0 → c.entry.m_endhandler.isSome = true →
      handled (exec fuel tid prog State.init).2.trace e = 1) ∧
    (c.entry.m_endhandler = none → handled (exec fuel tid prog State.init).2.trace e = 0) ∧
    destroyed (exec fuel tid prog State.init).2.trace e = (if c.strong = 0 then 1 else 0) ∧
    (∀ (s1 : State) (c1 : control_block), s1.heap[e]? = some c1 →
      use_count (shared_release e s1) e = c1.strong - 1 ∧
      handled (shared_release e s1).trace e = handled s1.trace e +
        (if c1.strong = 1 ∧ c1.entry.m_endhandler.isSome then 1 else 0)) := by
  have hw := (exec_sound tid fuel prog State.init wellformed_init).1
  have hend := hw.ended e
  have hdel := hw.deleted e
  rw [hc] at hend
  simp only [] at hend
  rw [use_count_of_lookup hc] at hdel
  have hlt := lt_length_of_lookup hc
  refine ⟨?_, ?_, ?_, ?_, ?_⟩
  · intro hpos
    rw [hend]
    have : ¬ c.strong = 0 := by omega
    simp [this]
  · intro hz hsome
    rw [hend]; simp [hz, hsome]
  · intro hnone
    rw [hend]; simp [hnone]
  · rw [hdel]; simp [hlt]
  · intro s1 c1 hc1
    refine ⟨?_, ?_⟩
    · rw [shared_release_use_count hc1]; simp
    · rw [shared_release_trace, handled_append, release_events_handled hc1]
      simp

/-- C7, an instance of the theorem: after the only token of a subscriber with
an end handler has been released, the end handler has run once. -/
theorem end_handler_runs_exactly_once_witness :
    (exec 1 0 (one_subscriber ++ [Action.unsubscribe 0]) State.init).2.heap[0]? =
      some { entry := { m_callback := logging_callback 1 1, m_endhandler := some 9 },
             strong := 0 } ∧
    handled (exec 1 0 (one_subscriber ++ [Action.unsubscribe 0]) State.init).2.trace 0 = 1 ∧
    handled (exec 1 0 one_subscriber State.init).2.trace 0 = 0 :=
  ⟨rfl,
   (end_handler_runs_exactly_once 1 0 (one_subscriber ++ [Action.unsubscribe 0]) 0
      { entry := { m_callback := logging_callback 1 1, m_endhandler := some 9 }, strong := 0 }
      rfl).2.1 rfl rfl,
   (end_handler_runs_exactly_once 1 0 one_subscriber 0
      { entry := { m_callback := logging_callback 1 1, m_endhandler := some 9 }, strong := 1 }
      rfl).1 (by decide)⟩

end registration

namespace registration

/-! ## Reference counting of registrations -/

theorem two_le_countP {α : Type} (P : α → Bool) : ∀ (l : List α) (i j : Nat) (a b : α),
    i ≠ j → l[i]? = some a → l[j]? = some b → P a = true → P b = true →
    2 ≤ l.countP P := by
  intro l
  induction l with
  | nil => intro i j a b _ hi; simp at hi
  | cons x rest ih =>
    intro i j a b hij hi hj ha hb
    cases i with
    | zero =>
      cases j with
      | zero => exact absurd rfl hij
      | succ k =>
        simp at hi hj
        subst hi
        have : 0 < rest.countP P := List.countP_pos_iff.mpr ⟨b, mem_of_lookup hj, hb⟩
        rw [List.countP_cons, if_pos ha]
        omega
    | succ k =>
      cases j with
      | zero =>
        simp at hi hj
        subst hj
        have : 0 < rest.countP P := List.countP_pos_iff.mpr ⟨a, mem_of_lookup hi, ha⟩
        rw [List.countP_cons, if_pos hb]
        omega
      | succ m =>
        simp at hi hj
        have := ih k m a b (by omega) hi hj ha hb
        rw [List.countP_cons]
        omega

/-- The loop that reaches a live entry starts by invoking its callback. -/
theorem notify_loop_head (call : List Action → State → Status × State)
    (hcall : ∀ prog s, wellformed s → sound s (call prog s)) (p arg e : Nat) (rest : List Nat)
    {s : State} (h : wellformed s) (hp : p < s.passes) {c0 : control_block}
    (hc : s.heap[e]? = some c0) (hpos : c0.strong ≠ 0) :
    ∃ ext, (notify_loop call p arg (e :: rest) s).2.trace =
      s.trace ++ Event.call p e arg :: ext := by
  have hwl := weak_lock_of_lookup hc hpos
  have hwE := wellformed_enter h hc hpos hp arg
  obtain ⟨hw2, he2, hb2⟩ := hcall (c0.entry.m_callback arg).1 _ hwE
  obtain ⟨x2, hx2, _, _⟩ := he2.trace_ext
  have htrE : (emit (Event.call p e arg) (shared_acquire e s)).trace =
      s.trace ++ [Event.call p e arg] := by
    simp [(shared_acquire_frame e s).2.2.2.2.2.1]
  have hp2 : p < (call (c0.entry.m_callback arg).1
      (emit (Event.call p e arg) (shared_acquire e s))).2.passes := by
    have := he2.passes_le
    simp only [emit_passes, (shared_acquire_frame e s).2.2.2.2.1] at this
    omega
  cases hst : (call (c0.entry.m_callback arg).1
      (emit (Event.call p e arg) (shared_acquire e s))).1 with
  | ok =>
    have hbal := hb2 (by rw [hst]; rfl)
    have hin := in_progress_after_body h hbal
    have hwL := wellformed_leave (v := Event.ret p e) hw2 hin hp2 (Or.inl rfl)
    have hpL : p < (shared_release e (emit (Event.ret p e) (call (c0.entry.m_callback arg).1
        (emit (Event.call p e arg) (shared_acquire e s))).2)).passes := by
      rw [(shared_release_frame e _).2.2.2.2.1]; exact hp2
    obtain ⟨x3, hx3, _, _⟩ := (notify_loop_sound call hcall p arg rest _ hwL hpL).2.1.trace_ext
    have heq : notify_loop call p arg (e :: rest) s = notify_loop call p arg rest
        (shared_release e (emit (Event.ret p e) (call (c0.entry.m_callback arg).1
          (emit (Event.call p e arg) (shared_acquire e s))).2)) := by
      simp [notify_loop, hwl, hst]
    rw [heq, hx3, leave_trace, hx2, htrE]
    simp only [List.append_assoc, List.singleton_append, List.cons_append, List.nil_append]
    exact ⟨_, rfl⟩
  | raised err =>
    have heq : notify_loop call p arg (e :: rest) s = (Status.raised err,
        shared_release e (emit (Event.exc p e err) (call (c0.entry.m_callback arg).1
          (emit (Event.call p e arg) (shared_acquire e s))).2)) := by
      simp [notify_loop, hwl, hst]
    rw [heq]
    show ∃ ext, (shared_release e _).trace = _
    rw [leave_trace, hx2, htrE]
    simp only [List.append_assoc, List.singleton_append, List.cons_append, List.nil_append]
    exact ⟨_, rfl⟩
  | blocked =>
    have heq : notify_loop call p arg (e :: rest) s = (Status.blocked,
        (call (c0.entry.m_callback arg).1
          (emit (Event.call p e arg) (shared_acquire e s))).2) := by
      simp [notify_loop, hwl, hst]
    rw [heq]
    show ∃ ext, (call _ _).2.trace = _
    rw [hx2, htrE]
    simp only [List.append_assoc, List.singleton_append, List.cons_append, List.nil_append]
    exact ⟨_, rfl⟩
  | out_of_fuel =>
    have heq : notify_loop call p arg (e :: rest) s = (Status.out_of_fuel,
        (call (c0.entry.m_callback arg).1
          (emit (Event.call p e arg) (shared_acquire e s))).2) := by
      simp [notify_loop, hwl, hst]
    rw [heq]
    show ∃ ext, (call _ _).2.trace = _
    rw [hx2, htrE]
    simp only [List.append_assoc, List.singleton_append, List.cons_append, List.nil_append]
    exact ⟨_, rfl⟩

/-- `unsubscribe` on a token while another token holds the same entry only
lowers the reference count. -/
theorem unsubscribe_not_last {tid i j e : Nat} {t tj : token} {s : State}
    (h : wellformed s) (hij : j ≠ i) (ht : s.tokens[i]? = some t)
    (hh : t.m_registration_holder = some e) (htj : s.tokens[j]? = some tj)
    (hhj : tj.m_registration_holder = some e) (hret : (unsubscribe tid j s).1 = Status.ok) :
    expired (unsubscribe tid j s).2 e = false ∧ (unsubscribe tid j s).2.trace = s.trace ∧
      (unsubscribe tid j s).2.tokens[i]? = some t := by
  have hmx : tj.m_notify_mutex = true := h.tok_mutex tj (mem_of_lookup htj) e hhj
  have h2 : 2 ≤ holders s e :=
    two_le_countP _ s.tokens i j t tj (fun hx => hij hx.symm) ht htj (by simp [hh]) (by simp [hhj])
  have hcnt := h.counts e
  have hfin := h.fin_le e
  obtain ⟨c, hc, hcs⟩ := lookup_of_use_count_pos (s := s) (e := e) (by omega)
  have hc2 : 2 ≤ c.strong := by omega
  unfold unsubscribe at hret ⊢
  simp only [htj, hmx, if_true] at hret ⊢
  cases hl : lock_notification tid s with
  | none => simp [hl] at hret
  | some s1 =>
    simp only [hl]
    obtain ⟨m, hm, hs1⟩ := lock_notification_some hl
    have ht1 : s1.tokens[j]? = some tj := by rw [hs1]; exact htj
    have hcl : s1.heap[e]? = some c := by rw [hs1]; exact hc
    rw [token_reset_of_some ht1 hhj]
    refine ⟨?_, ?_, ?_⟩
    · show expired (shared_release e s1) e = false
      simp [expired, shared_release_use_count hcl]; omega
    · show (shared_release e s1).trace = _
      rw [shared_release_trace, release_events_not_last hcl (by omega), hs1]; simp
    · show (List.set (shared_release e s1).tokens j token.null)[i]? = some t
      rw [(shared_release_frame e s1).1, List.getElem?_set_ne hij, hs1]; exact ht

end registration

namespace registration

/-- C8. Registrations are reference-counted.  While a token holds an entry, the
registration is valid: the entry is not expired, its end handler has not run,
it has not been deleted, it is in the sequence of weak references, a
notification loop that reaches it invokes its callback, and every `notify_all`
that returns normally and after which the entry is still alive has invoked it.
`unsubscribe()` on another copy of the token leaves the entry alive and adds no
event; `unsubscribe()` on the token that holds the last strong reference ends
the registration (the entry is expired and deleted).  After every run from a
fresh holder that has come to its end, the strong count of each entry is the
number of tokens that hold it. -/
theorem registration_is_reference_counted (s : State) (h : wellformed s) (i e : Nat)
    (t : token) (ht : s.tokens[i]? = some t) (hh : t.m_registration_holder = some e) :
    expired s e = false ∧ handled s.trace e = 0 ∧ destroyed s.trace e = 0 ∧
    e ∈ s.m_registrations ∧
    (∀ fuel tid p arg rest, p < s.passes →
      ∃ ext, (notify_loop (exec fuel tid) p arg (e :: rest) s).2.trace =
        s.trace ++ Event.call p e arg :: ext) ∧
    (∀ fuel tid arg, (notify_all fuel tid arg s).1 = Status.ok →
      expired (notify_all fuel tid arg s).2 e = false →
      e ∈ invoked_by s.passes (notify_all fuel tid arg s).2.trace) ∧
    (∀ tid j tj, j ≠ i → s.tokens[j]? = some tj → tj.m_registration_holder = some e →
      (unsubscribe tid j s).1 = Status.ok →
      expired (unsubscribe tid j s).2 e = false ∧ (unsubscribe tid j s).2.trace = s.trace ∧
        (unsubscribe tid j s).2.tokens[i]? = some t) ∧
    (∀ tid, use_count s e = 1 → (unsubscribe tid i s).1 = Status.ok →
      expired (unsubscribe tid i s).2 e = true ∧
        destroyed (unsubscribe tid i s).2.trace e = 1) ∧
    (∀ fuel tid prog, (exec fuel tid prog State.init).1.completed = true →
      ∀ e1, use_count (exec fuel tid prog State.init).2 e1 =
        holders (exec fuel tid prog State.init).2 e1) := by
  obtain ⟨c, hc, hpos⟩ := alive_of_holder h (holders_pos_of_lookup ht hh)
  have hlt := lt_length_of_lookup hc
  have huc := use_count_of_lookup hc
  have hend := h.ended e
  have hdel := h.deleted e
  rw [hc] at hend
  simp only [] at hend
  rw [huc] at hdel
  have hdel0 : destroyed s.trace e = 0 := by rw [hdel]; simp [hpos]
  refine ⟨by simp [expired, huc, hpos], by rw [hend]; simp [hpos], hdel0,
    h.regs_alive e (by omega), ?_, ?_, ?_, ?_, ?_⟩
  · intro fuel tid p arg rest hp
    exact notify_loop_head (exec fuel tid) (exec_sound tid fuel) p arg e rest h hp hc hpos
  · intro fuel tid arg hok halive
    exact invoked_of_alive_after h hok hlt halive
  · intro tid j tj hij htj hhj hret
    exact unsubscribe_not_last h hij ht hh htj hhj hret
  · intro tid hlast hret
    obtain ⟨hdead, c1, hc1, m, _, htr⟩ := unsubscribe_last h ht hh hlast hret
    refine ⟨by simp [expired, hdead], ?_⟩
    rw [htr, destroyed_append, hdel0]
    cases hh2 : c1.entry.m_endhandler <;>
      simp [destroyed, Event.destroys, List.countP_cons]
  · intro fuel tid prog hcomp e1
    obtain ⟨hw, _, hb⟩ := exec_sound tid fuel prog State.init wellformed_init
    have hbal := (hb hcomp).in_progress e1
    have hcnt := hw.counts e1
    have h0 : started State.init.trace e1 = 0 ∧ finished State.init.trace e1 = 0 := by
      simp [State.init, started, finished]
    omega

/-- C8, an instance of the theorem: the token of a subscriber is copied and the
original released; the callback is still invoked and the end handler (label 9)
has not run; after the release of the copy it has run and the callback is no
longer invoked. -/
theorem registration_is_reference_counted_witness :
    wellformed (exec 1 0 copied_subscriber State.init).2 ∧
    expired (exec 1 0 copied_subscriber State.init).2 0 = false ∧
    (expired (unsubscribe 0 0 (exec 1 0 copied_subscriber State.init).2).2 0 = false ∧
      (unsubscribe 0 0 (exec 1 0 copied_subscriber State.init).2).2.trace =
        (exec 1 0 copied_subscriber State.init).2.trace ∧
      (unsubscribe 0 0 (exec 1 0 copied_subscriber State.init).2).2.tokens[1]? =
        some { m_registration_holder := some 0, m_notify_mutex := true }) ∧
    (exec 2 0 (copied_subscriber ++ [Action.unsubscribe 0, Action.notify_all 0,
      Action.unsubscribe 1, Action.notify_all 0]) State.init).2.trace =
      [Event.call 0 0 0, Event.log 1, Event.ret 0 0,
       Event.endhandler 0 9 { owner := 0, count := 1 } false, Event.destroy 0] :=
  ⟨(exec_sound 0 1 copied_subscriber State.init wellformed_init).1,
   (registration_is_reference_counted (exec 1 0 copied_subscriber State.init).2
      (exec_sound 0 1 copied_subscriber State.init wellformed_init).1 1 0
      { m_registration_holder := some 0, m_notify_mutex := true } rfl rfl).1,
   (registration_is_reference_counted (exec 1 0 copied_subscriber State.init).2
      (exec_sound 0 1 copied_subscriber State.init wellformed_init).1 1 0
      { m_registration_holder := some 0, m_notify_mutex := true } rfl rfl).2.2.2.2.2.2.1
      0 0 { m_registration_holder := some 0, m_notify_mutex := true } (by decide) rfl rfl
      (by decide),
   by decide⟩

end registration

namespace registration

/-! ## Threads: what one step does -/

theorem held_by_lock {m m1 : recursive_mutex} {tid : Nat} (h : m.lock tid = some m1) :
    held_by m1 tid = held_by m tid + 1 ∧
      ∀ t, t ≠ tid → held_by m1 t = 0 ∧ held_by m t = 0 := by
  unfold recursive_mutex.lock at h
  by_cases hz : m.count = 0
  · simp [hz] at h; subst h
    refine ⟨by simp [held_by, hz], fun t ht => ⟨?_, by simp [held_by, hz]⟩⟩
    simp [held_by, Ne.symm ht]
  · by_cases ho : m.owner = tid
    · simp [hz, ho] at h; subst h
      refine ⟨by simp [held_by, ho], fun t ht => ⟨?_, ?_⟩⟩
      · simp [held_by, Ne.symm ht]
      · simp only [held_by, ho]; rw [if_neg (Ne.symm ht)]
    · simp [hz, ho] at h

theorem held_by_unlock {m : recursive_mutex} {tid : Nat} (h : 0 < held_by m tid) :
    held_by m.unlock tid = held_by m tid - 1 ∧
      ∀ t, t ≠ tid → held_by m.unlock t = 0 ∧ held_by m t = 0 := by
  have ho : m.owner = tid := by
    by_contra hne
    simp [held_by, hne] at h
  refine ⟨by simp [held_by, recursive_mutex.unlock, ho], fun t ht => ⟨?_, ?_⟩⟩
  · simp only [held_by, recursive_mutex.unlock, ho]; rw [if_neg (Ne.symm ht)]
  · simp only [held_by, ho]; rw [if_neg (Ne.symm ht)]

theorem held_by_lock_unlock {m m1 : recursive_mutex} {tid : Nat}
    (h : m.lock tid = some m1) (t : Nat) : held_by m1.unlock t = held_by m t := by
  obtain ⟨h1, h2⟩ := held_by_lock h
  by_cases ht : t = tid
  · subst ht
    have h3 := (@held_by_unlock m1 t (by omega)).1
    omega
  · have h3 := (@held_by_unlock m1 tid (by omega)).2 t ht
    rw [h3.1, (h2 t ht).2]

theorem calls_of_append (a b : List Event) : calls_of (a ++ b) = calls_of a ++ calls_of b := by
  simp [calls_of]

theorem calls_of_quiet : ∀ (ext : List Event), (∀ ev ∈ ext, ev.pass_of = none) →
    calls_of ext = []
  | [], _ => rfl
  | ev :: ext, h => by
    have h1 := h ev (by simp)
    have h2 := calls_of_quiet ext (fun v hv => h v (by simp [hv]))
    cases ev <;> simp_all [calls_of, Event.invocation, Event.pass_of]

theorem calls_of_release (e : Nat) (s : State) :
    calls_of (shared_release e s).trace = calls_of s.trace := by
  rw [shared_release_trace, calls_of_append,
    calls_of_quiet _ (release_events_counts s e 0).2.2, List.append_nil]

theorem calls_of_token_reset (i : Nat) (s : State) :
    calls_of (token_reset i s).trace = calls_of s.trace := by
  obtain ⟨ext, h1, _, h3⟩ := token_reset_trace i s
  rw [h1, calls_of_append, calls_of_quiet _ h3, List.append_nil]

/-- A completed `token::unsubscribe` leaves the lock as it found it. -/
theorem unsubscribe_quiet {s s1 : State} {tid i : Nat}
    (h : unsubscribe tid i s = (Status.ok, s1)) :
    (∀ t, held_by s1.m_notification_lock t = held_by s.m_notification_lock t) ∧
      s1.passes = s.passes ∧ calls_of s1.trace = calls_of s.trace := by
  unfold unsubscribe at h
  cases ht : s.tokens[i]? with
  | none =>
    simp only [ht] at h
    cases h; exact ⟨fun _ => rfl, rfl, rfl⟩
  | some tk =>
    simp only [ht] at h
    by_cases hm : tk.m_notify_mutex = true
    · rw [if_pos hm] at h
      cases hl : lock_notification tid s with
      | none => simp [hl] at h
      | some s2 =>
        simp only [hl] at h
        obtain ⟨m, hm1, hs2⟩ := lock_notification_some hl
        have hf := token_reset_frame i s2
        cases h
        subst hs2
        refine ⟨fun t => ?_, ?_, ?_⟩
        · simp only [unlock_notification]
          rw [hf.2.2.1]
          exact held_by_lock_unlock hm1 t
        · simp only [unlock_notification]; rw [hf.2.2.2.1]
        · simp only [unlock_notification]; rw [calls_of_token_reset]
    · rw [if_neg hm] at h
      cases h
      have hf := token_reset_frame i s
      exact ⟨fun t => by rw [hf.2.2.1], hf.2.2.2.1, calls_of_token_reset i s⟩

theorem token_copy_quiet (i : Nat) (s : State) :
    (token_copy i s).m_notification_lock = s.m_notification_lock ∧
      (token_copy i s).passes = s.passes ∧ (token_copy i s).trace = s.trace := by
  cases ht : s.tokens[i]? with
  | none => simp [token_copy, ht]
  | some tk =>
    cases hh : tk.m_registration_holder with
    | none => rw [token_copy_of_none ht hh]; exact ⟨rfl, rfl, rfl⟩
    | some e =>
      have hf := shared_acquire_frame e s
      rw [token_copy_of_some ht hh]
      exact ⟨hf.2.2.2.1, hf.2.2.2.2.1, hf.2.2.2.2.2.1⟩

end registration

namespace registration

theorem held_passes_body (prog : List Action) (rest : List Frame) :
    held_passes (Frame.body prog :: rest) = held_passes rest := rfl

theorem held_passes_waiting (arg : Nat) (entries : List Nat) (rest : List Frame) :
    held_passes (Frame.waiting arg entries :: rest) = held_passes rest := rfl

theorem held_passes_loop (p arg : Nat) (entries : List Nat) (rest : List Frame) :
    held_passes (Frame.loop p arg entries :: rest) = p :: held_passes rest := rfl

theorem held_passes_invoking (p arg e : Nat) (entries : List Nat) (rest : List Frame) :
    held_passes (Frame.invoking p arg e entries :: rest) = p :: held_passes rest := rfl

theorem effect_of_same {tid : Nat} {hp : List Nat} {s s1 : State}
    (hl : s1.m_notification_lock = s.m_notification_lock) (hn : s1.passes = s.passes)
    (ht : calls_of s1.trace = calls_of s.trace) : effect tid hp s hp s1 :=
  effect.silent rfl (fun t => by rw [hl]) hn ht

theorem calls_of_emit_log (l : Nat) (s : State) :
    calls_of (emit (Event.log l) s).trace = calls_of s.trace := by
  simp [calls_of, Event.invocation]

/-- One action of user code other than `notify_all` changes neither the lock
nor the invocations; `notify_all` copies the registrations. -/
theorem step_action_effect {tid : Nat} {a : Action} {prog : List Action} {rest : List Frame}
    {s s1 : State} {th1 : Thread} (h : step_action tid a prog rest s = some (th1, s1)) :
    effect tid (held_passes rest) s (held_passes th1.stack) s1 := by
  cases a with
  | log l =>
    simp only [step_action, Option.some.injEq, Prod.mk.injEq] at h
    obtain ⟨rfl, rfl⟩ := h
    exact effect_of_same rfl rfl (calls_of_emit_log l s)
  | raise err =>
    simp only [step_action, Option.some.injEq, Prod.mk.injEq] at h
    obtain ⟨rfl, rfl⟩ := h
    exact effect_of_same rfl rfl rfl
  | subscribe cb eh =>
    simp only [step_action] at h
    by_cases hfree : s.m_registrations_lock = false
    · rw [register_impl_eq hfree] at h
      simp only [Option.some.injEq, Prod.mk.injEq] at h
      obtain ⟨rfl, rfl⟩ := h
      exact effect_of_same rfl rfl rfl
    · have hb : register_impl cb eh s = (Status.blocked, s) := by
        simp only [Bool.not_eq_false] at hfree
        simp [register_impl, hfree]
      rw [hb] at h
      simp at h
  | copy i =>
    simp only [step_action, Option.some.injEq, Prod.mk.injEq] at h
    obtain ⟨rfl, rfl⟩ := h
    obtain ⟨h1, h2, h3⟩ := token_copy_quiet i s
    exact effect_of_same h1 h2 (by rw [h3])
  | make_default =>
    simp only [step_action, Option.some.injEq, Prod.mk.injEq] at h
    obtain ⟨rfl, rfl⟩ := h
    exact effect_of_same rfl rfl rfl
  | unsubscribe i =>
    simp only [step_action] at h
    cases hu : unsubscribe tid i s with
    | mk st s2 =>
      rw [hu] at h
      cases st with
      | ok =>
        simp only [Option.some.injEq, Prod.mk.injEq] at h
        obtain ⟨rfl, rfl⟩ := h
        obtain ⟨h1, h2, h3⟩ := unsubscribe_quiet hu
        exact effect.silent rfl h1 h2 h3
      | raised err => simp at h
      | blocked => simp at h
      | out_of_fuel => simp at h
  | notify_all arg =>
    simp only [step_action] at h
    by_cases hfree : s.m_registrations_lock = true
    · simp [hfree] at h
    · rw [if_neg hfree] at h
      simp only [Option.some.injEq, Prod.mk.injEq] at h
      obtain ⟨rfl, rfl⟩ := h
      exact effect_of_same rfl rfl rfl
  | notify_all2 arg =>
    simp only [step_action] at h
    by_cases hfree : s.m_registrations_lock = true
    · simp [hfree] at h
    · rw [if_neg hfree] at h
      simp only [Option.some.injEq, Prod.mk.injEq] at h
      obtain ⟨rfl, rfl⟩ := h
      exact effect_of_same rfl rfl rfl

/-- One step of a thread is silent, enters a pass, leaves a pass, or invokes a
callback of its innermost pass. -/
theorem step_thread_effect {tid : Nat} {th th1 : Thread} {s s1 : State}
    (h : step_thread tid th s = some (th1, s1)) :
    effect tid (held_passes th.stack) s (held_passes th1.stack) s1 := by
  unfold step_thread at h
  split at h
  · -- an exception is propagating
    rename_i err hw
    split at h
    · rename_i prog rest hst
      simp only [Option.some.injEq, Prod.mk.injEq] at h
      obtain ⟨rfl, rfl⟩ := h
      rw [hst]
      exact effect_of_same rfl rfl rfl
    · rename_i p arg e entries rest hst
      simp only [Option.some.injEq, Prod.mk.injEq] at h
      obtain ⟨rfl, rfl⟩ := h
      rw [hst]
      refine effect.leave p rfl ?_ ?_ ?_
      · simp only [unlock_notification]
        rw [(shared_release_frame e _).2.2.2.1]; rfl
      · simp only [unlock_notification]
        rw [(shared_release_frame e _).2.2.2.2.1]; rfl
      · simp only [unlock_notification]
        rw [calls_of_release]
        simp [calls_of, Event.invocation]
    · simp at h
  · split at h
    · rename_i p arg e entries rest hst
      simp only [Option.some.injEq, Prod.mk.injEq] at h
      obtain ⟨rfl, rfl⟩ := h
      rw [hst]
      refine effect.silent rfl (fun t => ?_) ?_ ?_
      · rw [(shared_release_frame e _).2.2.2.1]; rfl
      · rw [(shared_release_frame e _).2.2.2.2.1]; rfl
      · rw [calls_of_release]
        simp [calls_of, Event.invocation]
    · rename_i rest _ hst
      simp only [Option.some.injEq, Prod.mk.injEq] at h
      obtain ⟨rfl, rfl⟩ := h
      rw [hst]
      exact effect_of_same rfl rfl rfl
    · rename_i a prog rest hst
      rw [hst, held_passes_body]
      exact step_action_effect h
    · rename_i arg entries rest hst
      rw [hst]
      cases hl : lock_notification tid (begin_pass s) with
      | none => simp [hl] at h
      | some s2 =>
        simp only [hl, Option.some.injEq, Prod.mk.injEq] at h
        obtain ⟨rfl, rfl⟩ := h
        obtain ⟨m, hm, rfl⟩ := lock_notification_some hl
        exact effect.enter rfl hm rfl rfl
    · rename_i p arg rest hst
      simp only [Option.some.injEq, Prod.mk.injEq] at h
      obtain ⟨rfl, rfl⟩ := h
      rw [hst]
      exact effect.leave p rfl rfl rfl rfl
    · rename_i p arg e entries rest hst
      rw [hst]
      cases hwl : weak_lock s e with
      | none =>
        simp only [hwl, Option.some.injEq, Prod.mk.injEq] at h
        obtain ⟨rfl, rfl⟩ := h
        exact effect_of_same rfl rfl rfl
      | some cs =>
        obtain ⟨c, s2⟩ := cs
        simp only [hwl, Option.some.injEq, Prod.mk.injEq] at h
        obtain ⟨rfl, rfl⟩ := h
        obtain ⟨c0, _, _, _, rfl⟩ := weak_lock_some hwl
        have hf := shared_acquire_frame e s
        refine effect.invoke p (held_passes rest) rfl rfl ?_ ?_ ?_
        · exact hf.2.2.2.1
        · exact hf.2.2.2.2.1
        · simp only [emit_trace, calls_of_append]
          rw [hf.2.2.2.2.2.1]; rfl
    · simp at h

end registration

namespace registration

/-! ## Threads: the invariant of the reachable configurations -/

theorem held_by_pos {m : recursive_mutex} {t : Nat} (h : 0 < held_by m t) : m.owner = t := by
  by_contra hne
  simp [held_by, hne] at h

theorem lookup_append {α : Type} {l : List α} {p : Nat} {t : α} (ext : List α)
    (h : l[p]? = some t) : (l ++ ext)[p]? = some t := by
  have hlt : p < l.length := by
    by_contra hge
    rw [List.getElem?_eq_none (by omega)] at h
    cases h
  rw [List.getElem?_append_left hlt]; exact h

theorem lookup_set_thread {l : List Thread} {tid t : Nat} {th1 x : Thread}
    (hx : (l.set tid th1)[t]? = some x) :
    (t = tid ∧ x = th1) ∨ (t ≠ tid ∧ l[t]? = some x) := by
  by_cases ht : tid = t
  · subst ht
    left
    rw [List.getElem?_set] at hx
    simp only [if_true] at hx
    split at hx
    · cases hx; exact ⟨rfl, rfl⟩
    · cases hx
  · right
    rw [List.getElem?_set_ne ht] at hx
    exact ⟨fun h => ht h.symm, hx⟩

theorem mem_suffix_of_not_mem {p : Nat} {y post : List Nat} :
    ∀ (pre x : List Nat), x ++ p :: y = pre ++ post → p ∉ pre → ∀ q ∈ y, q ∈ post
  | [], x, h, _, q, hq => by
    rw [List.nil_append] at h
    rw [← h]; simp [hq]
  | a :: pre, [], h, hp, _, _ => by
    simp only [List.nil_append, List.cons_append, List.cons.injEq] at h
    exact absurd (by simp [h.1]) hp
  | a :: pre, b :: x, h, hp, q, hq => by
    simp only [List.cons_append, List.cons.injEq] at h
    exact mem_suffix_of_not_mem pre x h.2 (fun hm => hp (by simp [hm])) q hq

theorem split_last {cs x y z : List Nat} {p p0 : Nat}
    (h : cs ++ [p0] = x ++ p :: (y ++ p :: z)) :
    (∃ z1, cs = x ++ p :: (y ++ p :: z1)) ∨ (p0 = p ∧ cs = x ++ p :: y) := by
  rcases List.eq_nil_or_concat z with hz | ⟨z1, w, hz⟩
  · subst hz
    right
    have h1 : cs ++ [p0] = (x ++ p :: y) ++ [p] := by simp [h]
    obtain ⟨h2, h3⟩ := List.append_inj' h1 rfl
    simp only [List.cons.injEq, and_true] at h3
    exact ⟨h3, h2⟩
  · subst hz
    left
    have h1 : cs ++ [p0] = (x ++ p :: (y ++ p :: z1)) ++ [w] := by simp [h]
    exact ⟨z1, (List.append_inj' h1 rfl).1⟩

/-- At most one thread is inside a pass. -/
theorem holder_unique {cfg : Config} (h : consistent cfg) {t1 t2 : Nat} {th1 th2 : Thread}
    (h1 : cfg.threads[t1]? = some th1) (h2 : cfg.threads[t2]? = some th2)
    (n1 : held_passes th1.stack ≠ []) (n2 : held_passes th2.stack ≠ []) : t1 = t2 := by
  have e1 := h.lock t1 th1 h1
  have e2 := h.lock t2 th2 h2
  have p1 : 0 < (held_passes th1.stack).length := List.length_pos.2 n1
  have p2 : 0 < (held_passes th2.stack).length := List.length_pos.2 n2
  rw [e1] at p1
  rw [e2] at p2
  exact (held_by_pos p1).symm.trans (held_by_pos p2)

theorem consistent_start (progs : List (List Action)) : consistent (Config.start progs) := by
  have hst : ∀ (t : Nat) (th : Thread), (Config.start progs).threads[t]? = some th →
      held_passes th.stack = [] := by
    intro t th hth
    simp only [Config.start, List.getElem?_map] at hth
    cases hp : progs[t]? with
    | none => simp [hp] at hth
    | some prog =>
      simp only [hp, Option.map_some', Option.some.injEq] at hth
      subst hth; rfl
  refine ⟨?_, ?_, rfl, ?_, ?_, ?_⟩
  · intro t th hth
    rw [hst t th hth]
    simp [Config.start, State.init, held_by]
  · intro t th hth p hp
    rw [hst t th hth] at hp; cases hp
  · intro q hq
    simp [Config.start, State.init, calls_of] at hq
  · intro t th hth p hp
    rw [hst t th hth] at hp; cases hp
  · intro x y z p hxy
    simp [Config.start, State.init, calls_of] at hxy

end registration

namespace registration

/-- Every kind of step preserves the invariant. -/
theorem consistent_of_effect {cfg : Config} {tid : Nat} {th th1 : Thread} {s1 : State}
    (h : consistent cfg) (hth : cfg.threads[tid]? = some th)
    (eff : effect tid (held_passes th.stack) cfg.state (held_passes th1.stack) s1) :
    consistent { state := s1, threads := cfg.threads.set tid th1,
                 thread_of := cfg.thread_of ++
                   List.replicate (s1.passes - cfg.state.passes) tid } := by
  have old : ∀ (t : Nat) (x : Thread), (cfg.threads.set tid th1)[t]? = some x →
      (t = tid ∧ x = th1) ∨ (t ≠ tid ∧ cfg.threads[t]? = some x) :=
    fun t x hx => lookup_set_thread hx
  cases eff with
  | silent h1 h2 h3 h4 =>
    have hown : cfg.thread_of ++ List.replicate (s1.passes - cfg.state.passes) tid
        = cfg.thread_of := by simp [h3]
    rw [hown]
    refine ⟨?_, ?_, ?_, ?_, ?_, ?_⟩
    · intro t x hx
      dsimp only at hx ⊢
      rcases old t x hx with ⟨ht, hxe⟩ | ⟨_, hx0⟩
      · subst ht; subst hxe
        rw [h1, h2]; exact h.lock _ th hth
      · rw [h2]; exact h.lock t x hx0
    · intro t x hx p hp
      dsimp only at hx ⊢
      rcases old t x hx with ⟨ht, hxe⟩ | ⟨_, hx0⟩
      · subst ht; subst hxe
        rw [h1] at hp; exact h.owner _ th hth p hp
      · exact h.owner t x hx0 p hp
    · dsimp only; rw [h3]; exact h.numbered
    · intro q hq
      dsimp only at hq ⊢
      rw [h4] at hq; rw [h3]; exact h.fresh q hq
    · intro t x hx p hp
      dsimp only at hx ⊢
      rw [h4]
      rcases old t x hx with ⟨ht, hxe⟩ | ⟨_, hx0⟩
      · subst ht; subst hxe
        rw [h1] at hp; exact h.since _ th hth p hp
      · exact h.since t x hx0 p hp
    · intro x y z p hxy
      dsimp only at hxy ⊢
      rw [h4] at hxy
      exact h.apart x y z p hxy
  | enter h1 h2 h3 h4 =>
    have hown : cfg.thread_of ++ List.replicate (s1.passes - cfg.state.passes) tid
        = cfg.thread_of ++ [tid] := by simp [h3]
    rw [hown]
    obtain ⟨hl1, hl2⟩ := held_by_lock h2
    refine ⟨?_, ?_, ?_, ?_, ?_, ?_⟩
    · intro t x hx
      dsimp only at hx ⊢
      rcases old t x hx with ⟨ht, hxe⟩ | ⟨hne, hx0⟩
      · subst ht; subst hxe
        rw [h1, hl1, ← h.lock _ th hth]; rfl
      · rw [(hl2 t hne).1, h.lock t x hx0, (hl2 t hne).2]
    · intro t x hx p hp
      dsimp only at hx ⊢
      rcases old t x hx with ⟨ht, hxe⟩ | ⟨_, hx0⟩
      · subst ht; subst hxe
        rw [h1] at hp
        rcases List.mem_cons.1 hp with hp0 | hp0
        · subst hp0
          rw [← h.numbered]; simp
        · exact lookup_append _ (h.owner _ th hth p hp0)
      · exact lookup_append _ (h.owner t x hx0 p hp)
    · dsimp only; rw [h3, ← h.numbered]; simp
    · intro q hq
      dsimp only at hq ⊢
      rw [h4] at hq
      have := h.fresh q hq
      omega
    · intro t x hx p hp
      dsimp only at hx ⊢
      rw [h4]
      have keep : ∀ (t0 : Nat) (x0 : Thread), cfg.threads[t0]? = some x0 →
          p ∈ held_passes x0.stack →
          ∃ pre post, calls_of cfg.state.trace = pre ++ post ∧ p ∉ pre ∧
            ∀ q ∈ post, (cfg.thread_of ++ [tid])[q]? = some t0 := by
        intro t0 x0 hx0 hp0
        obtain ⟨pre, post, e1, e2, e3⟩ := h.since t0 x0 hx0 p hp0
        exact ⟨pre, post, e1, e2, fun q hq => lookup_append _ (e3 q hq)⟩
      rcases old t x hx with ⟨ht, hxe⟩ | ⟨_, hx0⟩
      · subst ht; subst hxe
        rw [h1] at hp
        rcases List.mem_cons.1 hp with hp0 | hp0
        · subst hp0
          refine ⟨calls_of cfg.state.trace, [], by simp, ?_, by simp⟩
          intro hm
          exact absurd (h.fresh _ hm) (by omega)
        · exact keep _ th hth hp0
      · exact keep t x hx0 hp
    · intro x y z p hxy q hq
      dsimp only at hxy ⊢
      rw [h4] at hxy
      obtain ⟨t, e1, e2⟩ := h.apart x y z p hxy q hq
      exact ⟨t, lookup_append _ e1, lookup_append _ e2⟩
  | leave p0 h1 h2 h3 h4 =>
    have hown : cfg.thread_of ++ List.replicate (s1.passes - cfg.state.passes) tid
        = cfg.thread_of := by simp [h3]
    rw [hown]
    have hlk := h.lock _ th hth
    rw [h1, List.length_cons] at hlk
    obtain ⟨hl1, hl2⟩ := @held_by_unlock cfg.state.m_notification_lock tid
      (by omega)
    refine ⟨?_, ?_, ?_, ?_, ?_, ?_⟩
    · intro t x hx
      dsimp only at hx ⊢
      rcases old t x hx with ⟨ht, hxe⟩ | ⟨hne, hx0⟩
      · subst ht; subst hxe
        rw [h2, hl1]; omega
      · rw [h2, (hl2 t hne).1, h.lock t x hx0, (hl2 t hne).2]
    · intro t x hx p hp
      dsimp only at hx ⊢
      rcases old t x hx with ⟨ht, hxe⟩ | ⟨_, hx0⟩
      · subst ht; subst hxe
        exact h.owner _ th hth p (by rw [h1]; exact List.mem_cons_of_mem _ hp)
      · exact h.owner t x hx0 p hp
    · dsimp only; rw [h3]; exact h.numbered
    · intro q hq
      dsimp only at hq ⊢
      rw [h4] at hq; rw [h3]; exact h.fresh q hq
    · intro t x hx p hp
      dsimp only at hx ⊢
      rw [h4]
      rcases old t x hx with ⟨ht, hxe⟩ | ⟨_, hx0⟩
      · subst ht; subst hxe
        exact h.since _ th hth p (by rw [h1]; exact List.mem_cons_of_mem _ hp)
      · exact h.since t x hx0 p hp
    · intro x y z p hxy
      dsimp only at hxy ⊢
      rw [h4] at hxy
      exact h.apart x y z p hxy
  | invoke p0 rest h0 h1 h2 h3 h4 =>
    have hown : cfg.thread_of ++ List.replicate (s1.passes - cfg.state.passes) tid
        = cfg.thread_of := by simp [h3]
    rw [hown]
    have hp0 : p0 ∈ held_passes th.stack := by rw [h0]; exact List.mem_cons_self _ _
    have hne0 : held_passes th.stack ≠ [] := by rw [h0]; exact List.cons_ne_nil _ _
    have hmine := h.owner _ th hth p0 hp0
    refine ⟨?_, ?_, ?_, ?_, ?_, ?_⟩
    · intro t x hx
      dsimp only at hx ⊢
      rcases old t x hx with ⟨ht, hxe⟩ | ⟨_, hx0⟩
      · subst ht; subst hxe
        rw [h1, h2]; exact h.lock _ th hth
      · rw [h2]; exact h.lock t x hx0
    · intro t x hx p hp
      dsimp only at hx ⊢
      rcases old t x hx with ⟨ht, hxe⟩ | ⟨_, hx0⟩
      · subst ht; subst hxe
        rw [h1] at hp; exact h.owner _ th hth p hp
      · exact h.owner t x hx0 p hp
    · dsimp only; rw [h3]; exact h.numbered
    · intro q hq
      dsimp only at hq ⊢
      rw [h4] at hq; rw [h3]
      rcases List.mem_append.1 hq with hq0 | hq0
      · exact h.fresh q hq0
      · simp only [List.mem_singleton] at hq0
        subst hq0
        by_contra hge
        rw [List.getElem?_eq_none (by rw [h.numbered]; omega)] at hmine
        cases hmine
    · intro t x hx p hp
      dsimp only at hx ⊢
      rw [h4]
      have keep : ∀ (x0 : Thread), cfg.threads[t]? = some x0 →
          p ∈ held_passes x0.stack →
          ∃ pre post, calls_of cfg.state.trace ++ [p0] = pre ++ post ∧ p ∉ pre ∧
            ∀ q ∈ post, cfg.thread_of[q]? = some t := by
        intro x0 hx0 hpx
        obtain ⟨pre, post, e1, e2, e3⟩ := h.since t x0 hx0 p hpx
        have htid : t = tid :=
          holder_unique h hx0 hth (List.ne_nil_of_mem hpx) hne0
        refine ⟨pre, post ++ [p0], by rw [e1, List.append_assoc], e2, ?_⟩
        intro q hq
        rcases List.mem_append.1 hq with hq0 | hq0
        · exact e3 q hq0
        · simp only [List.mem_singleton] at hq0
          rw [hq0, htid]; exact hmine
      rcases old t x hx with ⟨ht, hxe⟩ | ⟨_, hx0⟩
      · subst ht; subst hxe
        rw [h1] at hp; exact keep th hth hp
      · exact keep x hx0 hp
    · intro x y z p hxy q hq
      dsimp only at hxy ⊢
      rw [h4] at hxy
      rcases split_last hxy with ⟨z1, hz⟩ | ⟨hpe, hz⟩
      · exact h.apart x y z1 p hz q hq
      · subst hpe
        obtain ⟨pre, post, e1, e2, e3⟩ := h.since _ th hth p0 hp0
        rw [hz] at e1
        exact ⟨tid, hmine, e3 q (mem_suffix_of_not_mem pre x e1 e2 q hq)⟩

theorem consistent_step {cfg cfg1 : Config} {tid : Nat} (h : consistent cfg)
    (hs : step tid cfg = some cfg1) : consistent cfg1 := by
  unfold step at hs
  cases hth : cfg.threads[tid]? with
  | none => simp [hth] at hs
  | some th =>
    simp only [hth] at hs
    cases hst : step_thread tid th cfg.state with
    | none => simp [hst] at hs
    | some r =>
      obtain ⟨th1, s1⟩ := r
      simp only [hst, Option.some.injEq] at hs
      subst hs
      exact consistent_of_effect h hth (step_thread_effect hst)

/-- Every configuration the threads can reach satisfies the invariant. -/
theorem consistent_run : ∀ (sched : List Nat) (cfg : Config), consistent cfg →
    consistent (run sched cfg)
  | [], _, h => h
  | tid :: sched, cfg, h => by
    unfold run
    cases hs : step tid cfg with
    | none => exact consistent_run sched cfg h
    | some cfg1 => exact consistent_run sched cfg1 (consistent_step h hs)

end registration

namespace registration

/-! ## C10: passes of different threads do not interleave -/

theorem mem_calls_of {q e a : Nat} {y : List Event} (h : Event.call q e a ∈ y) :
    q ∈ calls_of y :=
  List.mem_filterMap.2 ⟨Event.call q e a, h, rfl⟩

/-- C10 (counterexample): a callback may call `notify_all` itself, the
notification lock being recursive.  With two subscribers of which the first
calls `notify_all(1)` when it is notified with 0, the call `notify_all(0)`
returns normally and both invocations of the nested pass 1 take place between
the first and the last invocation of pass 0; the threads semantics gives the
same trace. -/
theorem reentrant_notify_all_counterexample :
    (exec 3 0 renotifying_subscribers State.init).1 = Status.ok ∧
    (exec 3 0 renotifying_subscribers State.init).2.trace =
      Event.call 0 0 0 ::
        ([Event.call 1 0 1, Event.log 5, Event.ret 1 0,
          Event.call 1 1 1, Event.log 6, Event.ret 1 1, Event.ret 0 0] ++
         Event.call 0 1 0 :: [Event.log 6, Event.ret 0 1]) ∧
    (run (List.replicate 20 0) (Config.start [renotifying_subscribers])).state.trace =
      (exec 3 0 renotifying_subscribers State.init).2.trace := by
  refine ⟨by decide, by decide, by decide⟩

/-- C10 (amended): passes made by different threads never interleave.  For
threads running arbitrary programs on one fresh holder, in every configuration
they reach under any schedule: every callback invocation that takes place
between two callback invocations of one pass belongs to a pass of the same
thread (a pass that thread started from inside a callback); at most one thread
is inside a pass or a callback at a time; and that thread is the owner of
`m_notification_lock`, which it holds once per pass it is inside of. -/
theorem passes_of_different_threads_do_not_interleave (progs : List (List Action))
    (sched : List Nat) :
    (∀ (x y z : List Event) (p q e1 a1 e2 a2 e3 a3 : Nat),
      (run sched (Config.start progs)).state.trace =
        x ++ Event.call p e1 a1 :: (y ++ Event.call p e2 a2 :: z) →
      Event.call q e3 a3 ∈ y →
      ∃ t, (run sched (Config.start progs)).thread_of[p]? = some t ∧
        (run sched (Config.start progs)).thread_of[q]? = some t) ∧
    (∀ (t1 t2 : Nat) (th1 th2 : Thread),
      (run sched (Config.start progs)).threads[t1]? = some th1 →
      (run sched (Config.start progs)).threads[t2]? = some th2 →
      held_passes th1.stack ≠ [] → held_passes th2.stack ≠ [] → t1 = t2) ∧
    (∀ (t : Nat) (th : Thread),
      (run sched (Config.start progs)).threads[t]? = some th →
      held_passes th.stack ≠ [] →
      (run sched (Config.start progs)).state.m_notification_lock.owner = t ∧
      (run sched (Config.start progs)).state.m_notification_lock.count =
        (held_passes th.stack).length) := by
  have h := consistent_run sched (Config.start progs) (consistent_start progs)
  generalize run sched (Config.start progs) = cfg at h
  refine ⟨?_, ?_, ?_⟩
  · intro x y z p q e1 a1 e2 a2 e3 a3 htr hq
    have hc : calls_of cfg.state.trace =
        calls_of x ++ p :: (calls_of y ++ p :: calls_of z) := by
      rw [htr]
      simp only [calls_of, List.filterMap_append, List.filterMap_cons, Event.invocation]
    exact h.apart _ _ _ p hc q (mem_calls_of hq)
  · intro t1 t2 th1 th2 h1 h2 n1 n2
    exact holder_unique h h1 h2 n1 n2
  · intro t th hth hne
    have hl := h.lock t th hth
    have hpos : 0 < held_by cfg.state.m_notification_lock t := by
      rw [← hl]; exact List.length_pos.2 hne
    have ho := held_by_pos hpos
    refine ⟨ho, ?_⟩
    rw [hl]; simp [held_by, ho]

/-- C10 (witness): thread 0 runs `renotifying_subscribers`, thread 1 calls
`notify_all(7)` and is scheduled while thread 0 is inside its pass: thread 1
stays outside until thread 0 has left, the nested pass 1 of thread 0 lies
inside pass 0, and pass 2 of thread 1 comes after both. -/
theorem passes_of_different_threads_do_not_interleave_witness :
    (run (List.replicate 5 0 ++ [1, 1, 1]) (Config.start two_threads)).threads.map
        (fun th => held_passes th.stack) = [[0], []] ∧
    (run two_threads_schedule (Config.start two_threads)).state.trace =
      [] ++ Event.call 0 0 0 ::
        ([Event.call 1 0 1, Event.log 5, Event.ret 1 0,
          Event.call 1 1 1, Event.log 6, Event.ret 1 1, Event.ret 0 0] ++
         Event.call 0 1 0 ::
          [Event.log 6, Event.ret 0 1,
           Event.call 2 0 7, Event.log 5, Event.ret 2 0,
           Event.call 2 1 7, Event.log 6, Event.ret 2 1]) ∧
    (run two_threads_schedule (Config.start two_threads)).thread_of = [0, 0, 1] ∧
    ∃ t, (run two_threads_schedule (Config.start two_threads)).thread_of[0]? = some t ∧
      (run two_threads_schedule (Config.start two_threads)).thread_of[1]? = some t :=
  ⟨by decide, by decide, by decide,
   (passes_of_different_threads_do_not_interleave two_threads two_threads_schedule).1
     [] [Event.call 1 0 1, Event.log 5, Event.ret 1 0,
         Event.call 1 1 1, Event.log 6, Event.ret 1 1, Event.ret 0 0]
     [Event.log 6, Event.ret 0 1,
      Event.call 2 0 7, Event.log 5, Event.ret 2 0,
      Event.call 2 1 7, Event.log 6, Event.ret 2 1]
     0 1 0 0 1 0 0 1 (by decide) (by decide)⟩

end registration

namespace registration

/-! ## C11: the locks under which an end handler runs -/

theorem guarded_refl (tid : Nat) (s : State) : guarded tid s s :=
  ⟨[], by simp, by simp⟩

theorem guarded_trans {tid : Nat} {s s1 s2 : State} (h1 : guarded tid s s1)
    (h2 : guarded tid s1 s2) : guarded tid s s2 := by
  obtain ⟨x1, e1, g1⟩ := h1
  obtain ⟨x2, e2, g2⟩ := h2
  refine ⟨x1 ++ x2, by rw [e2, e1, List.append_assoc], ?_⟩
  intro ev hev
  rcases List.mem_append.1 hev with h | h
  · exact g1 ev h
  · exact g2 ev h

theorem guarded_congr {tid : Nat} {s s1 u u1 : State} (h : guarded tid s s1)
    (h0 : u.trace = s.trace) (h1 : u1.trace = s1.trace) : guarded tid u u1 := by
  obtain ⟨x, e, g⟩ := h
  exact ⟨x, by rw [h0, h1, e], g⟩

theorem guarded_of_same_trace {tid : Nat} {s s1 : State} (h : s1.trace = s.trace) :
    guarded tid s s1 :=
  guarded_congr (guarded_refl tid s) rfl h

theorem guarded_emit {tid : Nat} (s : State) (ev : Event)
    (hev : ev.under_notification_lock tid) : guarded tid s (emit ev s) :=
  ⟨[ev], rfl, fun v hv => by
    simp only [List.mem_singleton] at hv
    rw [hv]; exact hev⟩

/-- Dropping a strong reference while `tid` holds the notification lock and
nobody holds the registrations lock. -/
theorem guarded_release {tid : Nat} {s : State} (e : Nat)
    (hr : s.m_registrations_lock = false) (ho : s.m_notification_lock.owner = tid)
    (hc : 0 < s.m_notification_lock.count) : guarded tid s (shared_release e s) := by
  refine ⟨release_events s e, shared_release_trace e s, ?_⟩
  intro ev hev
  unfold release_events at hev
  cases hl : s.heap[e]? with
  | none => simp [hl] at hev
  | some c =>
    simp only [hl] at hev
    by_cases h1 : c.strong = 1
    · rw [if_pos h1] at hev
      cases hh : c.entry.m_endhandler with
      | none =>
        simp only [hh, List.nil_append, List.mem_singleton] at hev
        rw [hev]; exact True.intro
      | some l =>
        simp only [hh, List.singleton_append, List.mem_cons, List.mem_singleton,
          List.not_mem_nil, or_false] at hev
        rcases hev with hev | hev
        · rw [hev]; exact ⟨hr, ho, hc⟩
        · rw [hev]; exact True.intro
    · rw [if_neg h1] at hev
      cases hev

theorem guarded_token_reset (tid : Nat) {s : State} (i : Nat)
    (hr : s.m_registrations_lock = false) (ho : s.m_notification_lock.owner = tid)
    (hc : 0 < s.m_notification_lock.count) : guarded tid s (token_reset i s) := by
  cases ht : s.tokens[i]? with
  | none => rw [token_reset_none ht]; exact guarded_refl tid s
  | some t =>
    cases hh : t.m_registration_holder with
    | none => rw [token_reset_of_none ht hh]; exact guarded_of_same_trace rfl
    | some e =>
      rw [token_reset_of_some ht hh]
      exact guarded_congr (guarded_release e hr ho hc) rfl rfl

/-- `token::unsubscribe` runs the end handler, if it runs it, inside its
lock of `m_notification_lock`. -/
theorem guarded_unsubscribe {s : State} (h : wellformed s) (tid i : Nat) :
    guarded tid s (unsubscribe tid i s).2 := by
  unfold unsubscribe
  cases ht : s.tokens[i]? with
  | none => exact guarded_refl tid s
  | some t =>
    dsimp only
    by_cases hm : t.m_notify_mutex = true
    · rw [if_pos hm]
      cases hl : lock_notification tid s with
      | none => exact guarded_refl tid s
      | some s1 =>
        obtain ⟨m, hm1, hs1⟩ := lock_notification_some hl
        obtain ⟨_, _, ho, hc⟩ := lock_unlock hm1
        subst hs1
        dsimp only
        exact guarded_congr
          (guarded_token_reset tid (s := { s with m_notification_lock := m }) i
            h.regs_free ho hc) rfl rfl
    · rw [if_neg hm]
      dsimp only
      cases hh : t.m_registration_holder with
      | none => rw [token_reset_of_none ht hh]; exact guarded_of_same_trace rfl
      | some e => exact absurd (h.tok_mutex t (mem_of_lookup ht) e hh) hm

end registration

namespace registration

/-- The loop of a pass made by thread `tid`, which holds the notification
lock: every end handler run during the loop, by a callback that releases a
token or by the loop's own reference after a callback has released its last
token, runs under that lock. -/
theorem notify_loop_guarded (call : List Action → State → Status × State) (tid : Nat)
    (hcall : ∀ prog s, wellformed s → sound s (call prog s))
    (hg : ∀ prog s, wellformed s → guarded tid s (call prog s).2) (p arg : Nat) :
    ∀ (snap : List Nat) (s : State), wellformed s → p < s.passes →
      s.m_notification_lock.owner = tid → 0 < s.m_notification_lock.count →
      guarded tid s (notify_loop call p arg snap s).2 := by
  intro snap
  induction snap with
  | nil => intro s _ _ _ _; exact guarded_refl tid s
  | cons e rest ih =>
    intro s h hp ho hc
    cases hwl : weak_lock s e with
    | none =>
      have : notify_loop call p arg (e :: rest) s = notify_loop call p arg rest s := by
        simp [notify_loop, hwl]
      rw [this]; exact ih s h hp ho hc
    | some cs =>
      obtain ⟨c, s1⟩ := cs
      obtain ⟨c0, hc0, hpos, hce, hs1⟩ := weak_lock_some hwl
      subst hs1
      have hwE := wellformed_enter h hc0 hpos hp arg
      have hfa := shared_acquire_frame e s
      have gE : guarded tid s (emit (Event.call p e arg) (shared_acquire e s)) :=
        guarded_congr (guarded_emit (shared_acquire e s) (Event.call p e arg)
          True.intro) hfa.2.2.2.2.2.1.symm rfl
      obtain ⟨hw2, he2, hb2⟩ := hcall (c.m_callback arg).1 _ hwE
      have g2 := hg (c.m_callback arg).1 _ hwE
      have hp2 : p < (call (c.m_callback arg).1
          (emit (Event.call p e arg) (shared_acquire e s))).2.passes := by
        have := he2.passes_le
        simp only [emit_passes, hfa.2.2.2.2.1] at this
        omega
      cases hst : (call (c.m_callback arg).1
          (emit (Event.call p e arg) (shared_acquire e s))).1 with
      | ok =>
        have hbal := hb2 (by rw [hst]; rfl)
        have hin := in_progress_after_body h hbal
        have hwL := wellformed_leave (v := Event.ret p e) hw2 hin hp2 (Or.inl rfl)
        have hbL := balanced_invocation (v := Event.ret p e) hbal (Or.inl rfl)
        have hc2 : 0 < (call (c.m_callback arg).1
            (emit (Event.call p e arg) (shared_acquire e s))).2.m_notification_lock.count := by
          have := hbal.lock_count
          simp only [emit_notif_lock, hfa.2.2.2.1] at this
          omega
        have ho2 : (call (c.m_callback arg).1
            (emit (Event.call p e arg) (shared_acquire e s))).2.m_notification_lock.owner
            = tid := by
          have := hbal.lock_owner
          simp only [emit_notif_lock, hfa.2.2.2.1] at this
          rw [this hc]; exact ho
        have gL : guarded tid (call (c.m_callback arg).1
            (emit (Event.call p e arg) (shared_acquire e s))).2
            (shared_release e (emit (Event.ret p e) (call (c.m_callback arg).1
              (emit (Event.call p e arg) (shared_acquire e s))).2)) :=
          guarded_trans (guarded_emit _ (Event.ret p e) True.intro)
            (guarded_release e hw2.regs_free ho2 hc2)
        have hpL : p < (shared_release e (emit (Event.ret p e) (call (c.m_callback arg).1
            (emit (Event.call p e arg) (shared_acquire e s))).2)).passes := by
          rw [(shared_release_frame e _).2.2.2.2.1]; exact hp2
        have hoL := hbL.lock_owner hc
        have hcL := hbL.lock_count
        have hih := ih _ hwL hpL (by rw [hoL]; exact ho) (by rw [hcL]; exact hc)
        have : notify_loop call p arg (e :: rest) s = notify_loop call p arg rest
            (shared_release e (emit (Event.ret p e) (call (c.m_callback arg).1
              (emit (Event.call p e arg) (shared_acquire e s))).2)) := by
          simp [notify_loop, hwl, hst]
        rw [this]
        exact guarded_trans (guarded_trans (guarded_trans gE g2) gL) hih
      | raised err =>
        have hbal := hb2 (by rw [hst]; rfl)
        have hc2 : 0 < (call (c.m_callback arg).1
            (emit (Event.call p e arg) (shared_acquire e s))).2.m_notification_lock.count := by
          have := hbal.lock_count
          simp only [emit_notif_lock, hfa.2.2.2.1] at this
          omega
        have ho2 : (call (c.m_callback arg).1
            (emit (Event.call p e arg) (shared_acquire e s))).2.m_notification_lock.owner
            = tid := by
          have := hbal.lock_owner
          simp only [emit_notif_lock, hfa.2.2.2.1] at this
          rw [this hc]; exact ho
        have gL : guarded tid (call (c.m_callback arg).1
            (emit (Event.call p e arg) (shared_acquire e s))).2
            (shared_release e (emit (Event.exc p e err) (call (c.m_callback arg).1
              (emit (Event.call p e arg) (shared_acquire e s))).2)) :=
          guarded_trans (guarded_emit _ (Event.exc p e err) True.intro)
            (guarded_release e hw2.regs_free ho2 hc2)
        have : notify_loop call p arg (e :: rest) s = (Status.raised err,
            shared_release e (emit (Event.exc p e err) (call (c.m_callback arg).1
              (emit (Event.call p e arg) (shared_acquire e s))).2)) := by
          simp [notify_loop, hwl, hst]
        rw [this]
        exact guarded_trans (guarded_trans gE g2) gL
      | blocked =>
        have : notify_loop call p arg (e :: rest) s = (Status.blocked,
            (call (c.m_callback arg).1
              (emit (Event.call p e arg) (shared_acquire e s))).2) := by
          simp [notify_loop, hwl, hst]
        rw [this]
        exact guarded_trans gE g2
      | out_of_fuel =>
        have : notify_loop call p arg (e :: rest) s = (Status.out_of_fuel,
            (call (c.m_callback arg).1
              (emit (Event.call p e arg) (shared_acquire e s))).2) := by
          simp [notify_loop, hwl, hst]
        rw [this]
        exact guarded_trans gE g2

end registration

namespace registration

theorem notify_all_impl_guarded (call : List Action → State → Status × State) (tid : Nat)
    (hcall : ∀ prog s, wellformed s → sound s (call prog s))
    (hg : ∀ prog s, wellformed s → guarded tid s (call prog s).2) (arg : Nat)
    {s : State} (h : wellformed s) : guarded tid s (notify_all_impl call tid arg s).2 := by
  unfold notify_all_impl
  have hfree : ¬ s.m_registrations_lock = true := by simp [h.regs_free]
  rw [if_neg hfree]
  dsimp only
  have hw0 := wellformed_begin_pass h
  cases hm : lock_notification tid (begin_pass s) with
  | none => exact guarded_of_same_trace rfl
  | some s1 =>
    dsimp only
    have hw1 := wellformed_lock_notification hw0 hm
    obtain ⟨m, hm1, hs⟩ := lock_notification_some hm
    obtain ⟨_, _, ho, hc⟩ := lock_unlock hm1
    have hp1 : s.passes < s1.passes := by rw [hs]; exact Nat.lt_succ_self _
    have htr1 : s1.trace = s.trace := by rw [hs]; rfl
    have ho1 : s1.m_notification_lock.owner = tid := by rw [hs]; exact ho
    have hc1 : 0 < s1.m_notification_lock.count := by rw [hs]; exact hc
    have gl := notify_loop_guarded call tid hcall hg s.passes arg s.m_registrations s1
      hw1 hp1 ho1 hc1
    have gl0 : guarded tid s (notify_loop call s.passes arg s.m_registrations s1).2 :=
      guarded_congr gl htr1.symm rfl
    cases hst : (notify_loop call s.passes arg s.m_registrations s1).1 with
    | ok => exact guarded_congr gl0 rfl rfl
    | raised err => exact guarded_congr gl0 rfl rfl
    | blocked => exact gl0
    | out_of_fuel => exact gl0

theorem run_action_guarded (call : List Action → State → Status × State) (tid : Nat)
    (hcall : ∀ prog s, wellformed s → sound s (call prog s))
    (hg : ∀ prog s, wellformed s → guarded tid s (call prog s).2) (a : Action)
    {s : State} (h : wellformed s) : guarded tid s (run_action call tid a s).2 := by
  cases a with
  | log l => exact guarded_emit s (Event.log l) True.intro
  | raise err => exact guarded_refl tid s
  | subscribe cb eh =>
    have hr : run_action call tid (Action.subscribe cb eh) s = register_impl cb eh s := rfl
    rw [hr, register_impl_eq h.regs_free]
    exact guarded_of_same_trace rfl
  | copy i => exact guarded_of_same_trace (token_copy_quiet i s).2.2
  | make_default => exact guarded_of_same_trace rfl
  | unsubscribe i => exact guarded_unsubscribe h tid i
  | notify_all arg => exact notify_all_impl_guarded call tid hcall hg arg h
  | notify_all2 arg =>
    have h1 := notify_all_impl_guarded call tid hcall hg arg h
    have h2 := notify_all_impl2_eq call tid arg s
    have hr : (run_action call tid (Action.notify_all2 arg) s).2 =
        (notify_all_impl2 call tid arg s).2.2 := rfl
    rw [hr, h2.2]; exact h1

theorem run_actions_guarded (call : List Action → State → Status × State) (tid : Nat)
    (hcall : ∀ prog s, wellformed s → sound s (call prog s))
    (hg : ∀ prog s, wellformed s → guarded tid s (call prog s).2) :
    ∀ (prog : List Action) (s : State), wellformed s →
      guarded tid s (run_actions call tid prog s).2 := by
  intro prog
  induction prog with
  | nil => intro s _; exact guarded_refl tid s
  | cons a rest ih =>
    intro s h
    have ha := run_action_sound call hcall tid a h
    have ga := run_action_guarded call tid hcall hg a h
    cases hst : (run_action call tid a s).1 with
    | ok =>
      have : run_actions call tid (a :: rest) s =
          run_actions call tid rest (run_action call tid a s).2 := by
        simp [run_actions, hst]
      rw [this]
      exact guarded_trans ga (ih _ ha.1)
    | raised err =>
      have : run_actions call tid (a :: rest) s = run_action call tid a s := by
        simp [run_actions, hst]
      rw [this]; exact ga
    | blocked =>
      have : run_actions call tid (a :: rest) s = run_action call tid a s := by
        simp [run_actions, hst]
      rw [this]; exact ga
    | out_of_fuel =>
      have : run_actions call tid (a :: rest) s = run_action call tid a s := by
        simp [run_actions, hst]
      rw [this]; exact ga

/-- In every run of user code by thread `tid`, every end handler runs with
the registrations lock free and the notification lock held by `tid`. -/
theorem exec_guarded (tid : Nat) : ∀ (fuel : Nat) (prog : List Action) (s : State),
    wellformed s → guarded tid s (exec fuel tid prog s).2 := by
  intro fuel
  induction fuel with
  | zero => intro prog s _; exact guarded_refl tid s
  | succ n ih =>
    intro prog s h
    exact run_actions_guarded (exec n tid) tid (exec_sound tid n) ih prog s h

end registration

namespace registration

/-- C11 (counterexample): the end handler runs while the notification lock is
held.  When the only token of a subscriber with end handler 9 is released from
the top level, and when a callback releases its own only token during a pass
(the loop's reference is then the last one), the event of the end handler
records `m_notification_lock` held once by the running thread 0. -/
theorem end_handler_inside_notification_lock_counterexample :
    (exec 1 0 (one_subscriber ++ [Action.unsubscribe 0]) State.init).2.trace =
      [Event.endhandler 0 9 { owner := 0, count := 1 } false, Event.destroy 0] ∧
    (exec 2 0 (self_releasing_subscribers ++ [Action.notify_all 0]) State.init).2.trace =
      [Event.call 0 0 0, Event.log 1, Event.log 2, Event.ret 0 0,
       Event.endhandler 0 9 { owner := 0, count := 1 } false, Event.destroy 0,
       Event.call 0 1 0, Event.log 3, Event.ret 0 1] := by
  refine ⟨by decide, by decide⟩

/-- C11 (amended): an end handler always runs outside `m_registrations_lock`
and inside `m_notification_lock`.  In every run of user code by a thread `tid`
from a well-formed state (token releases and `notify_all` calls, at the top
level or from inside callbacks, with arbitrary callbacks), every end handler
invoked during the run, whether the last strong reference was dropped by a
token release or by the loop's temporary reference after a self-unsubscription,
is invoked while `m_registrations_lock` is free and `m_notification_lock` is
held by `tid`. -/
theorem end_handler_runs_under_notification_lock (fuel tid : Nat) (prog : List Action)
    (s : State) (hw : wellformed s) (e l : Nat) (notif : recursive_mutex) (regs : Bool)
    (hev : Event.endhandler e l notif regs ∈ (exec fuel tid prog s).2.trace) :
    Event.endhandler e l notif regs ∈ s.trace ∨
      (regs = false ∧ notif.owner = tid ∧ 0 < notif.count) := by
  obtain ⟨ext, h1, h2⟩ := exec_guarded tid fuel prog s hw
  rw [h1] at hev
  rcases List.mem_append.1 hev with h | h
  · exact Or.inl h
  · exact Or.inr (h2 _ h)

/-- C11 (witness): the end handler of a callback that releases its own token
during a pass runs after the callback has returned, with the notification
lock held by the thread that makes the pass. -/
theorem end_handler_runs_under_notification_lock_witness :
    Event.endhandler 0 9 { owner := 0, count := 1 } false ∈
      (exec 2 0 (self_releasing_subscribers ++ [Action.notify_all 0]) State.init).2.trace ∧
    (false = false ∧ ({ owner := 0, count := 1 } : recursive_mutex).owner = 0 ∧
      0 < ({ owner := 0, count := 1 } : recursive_mutex).count) :=
  ⟨by decide,
   (end_handler_runs_under_notification_lock 2 0
      (self_releasing_subscribers ++ [Action.notify_all 0]) State.init wellformed_init
      0 9 { owner := 0, count := 1 } false (by decide)).resolve_left (by decide)⟩

end registration

namespace registration

/-! ## C12: `is_empty` -/

theorem kept_refl (s : State) : kept s s := Or.inl ⟨rfl, rfl⟩

theorem kept_trans {s s1 s2 : State} (h1 : kept s s1) (h2 : kept s1 s2) : kept s s2 := by
  rcases h2 with ⟨a, b⟩ | h
  · rcases h1 with ⟨c, d⟩ | h
    · exact Or.inl ⟨a.trans c, b.trans d⟩
    · exact Or.inr (by rw [b]; exact h)
  · exact Or.inr h

theorem kept_of_frame {s s1 : State} (h1 : s1.heap.length = s.heap.length)
    (h2 : s1.m_registrations = s.m_registrations) : kept s s1 := Or.inl ⟨h1, h2⟩

theorem kept_release (e : Nat) (s : State) : kept s (shared_release e s) :=
  kept_of_frame (shared_release_frame e s).2.2.2.2.2 (shared_release_frame e s).2.1

theorem kept_leave (e : Nat) (v : Event) (s : State) :
    kept s (shared_release e (emit v s)) :=
  kept_trans (kept_of_frame rfl rfl : kept s (emit v s)) (kept_release e (emit v s))

theorem kept_acquire (e : Nat) (s : State) : kept s (shared_acquire e s) :=
  kept_of_frame (shared_acquire_frame e s).2.2.2.2.2.2 (shared_acquire_frame e s).2.1

theorem kept_token_reset (i : Nat) (s : State) : kept s (token_reset i s) :=
  kept_of_frame (token_reset_frame i s).2.2.2.2.1 (token_reset_frame i s).1

theorem kept_token_copy (i : Nat) (s : State) : kept s (token_copy i s) := by
  cases ht : s.tokens[i]? with
  | none => simp [token_copy, ht]; exact kept_refl s
  | some tk =>
    cases hh : tk.m_registration_holder with
    | none => rw [token_copy_of_none ht hh]; exact kept_of_frame rfl rfl
    | some e =>
      rw [token_copy_of_some ht hh]
      exact kept_of_frame (shared_acquire_frame e s).2.2.2.2.2.2 (shared_acquire_frame e s).2.1

theorem kept_unsubscribe (tid i : Nat) (s : State) : kept s (unsubscribe tid i s).2 := by
  unfold unsubscribe
  cases ht : s.tokens[i]? with
  | none => exact kept_refl s
  | some t =>
    dsimp only
    by_cases hm : t.m_notify_mutex = true
    · rw [if_pos hm]
      cases hl : lock_notification tid s with
      | none => exact kept_refl s
      | some s1 =>
        obtain ⟨m, _, hs1⟩ := lock_notification_some hl
        subst hs1
        have hf := token_reset_frame i { s with m_notification_lock := m }
        exact kept_of_frame hf.2.2.2.2.1 hf.1
    · rw [if_neg hm]
      exact kept_token_reset i s

/-- After `register_impl` the sequence of registrations is not empty. -/
theorem kept_register_impl (cb : Nat → List Action × Nat) (eh : Option Nat) (s : State) :
    kept s (register_impl cb eh s).2 := by
  by_cases hfree : s.m_registrations_lock = false
  · rw [register_impl_eq hfree]
    exact Or.inr (by simp)
  · simp only [Bool.not_eq_false] at hfree
    simp [register_impl, hfree]
    exact kept_refl s

theorem notify_loop_kept (call : List Action → State → Status × State)
    (hk : ∀ prog s, kept s (call prog s).2) (p arg : Nat) :
    ∀ (snap : List Nat) (s : State), kept s (notify_loop call p arg snap s).2 := by
  intro snap
  induction snap with
  | nil => intro s; exact kept_refl s
  | cons e rest ih =>
    intro s
    cases hwl : weak_lock s e with
    | none =>
      have : notify_loop call p arg (e :: rest) s = notify_loop call p arg rest s := by
        simp [notify_loop, hwl]
      rw [this]; exact ih s
    | some cs =>
      obtain ⟨c, s1⟩ := cs
      obtain ⟨c0, _, _, _, hs1⟩ := weak_lock_some hwl
      subst hs1
      have k1 : kept s (emit (Event.call p e arg) (shared_acquire e s)) :=
        kept_trans (kept_acquire e s) (kept_of_frame rfl rfl)
      have k2 := kept_trans k1 (hk (c.m_callback arg).1 _)
      cases hst : (call (c.m_callback arg).1
          (emit (Event.call p e arg) (shared_acquire e s))).1 with
      | ok =>
        have : notify_loop call p arg (e :: rest) s = notify_loop call p arg rest
            (shared_release e (emit (Event.ret p e) (call (c.m_callback arg).1
              (emit (Event.call p e arg) (shared_acquire e s))).2)) := by
          simp [notify_loop, hwl, hst]
        rw [this]
        exact kept_trans (kept_trans k2 (kept_leave e (Event.ret p e) _)) (ih _)
      | raised err =>
        have : notify_loop call p arg (e :: rest) s = (Status.raised err,
            shared_release e (emit (Event.exc p e err) (call (c.m_callback arg).1
              (emit (Event.call p e arg) (shared_acquire e s))).2)) := by
          simp [notify_loop, hwl, hst]
        rw [this]
        exact kept_trans k2 (kept_leave e (Event.exc p e err) _)
      | blocked =>
        have : notify_loop call p arg (e :: rest) s = (Status.blocked,
            (call (c.m_callback arg).1
              (emit (Event.call p e arg) (shared_acquire e s))).2) := by
          simp [notify_loop, hwl, hst]
        rw [this]; exact k2
      | out_of_fuel =>
        have : notify_loop call p arg (e :: rest) s = (Status.out_of_fuel,
            (call (c.m_callback arg).1
              (emit (Event.call p e arg) (shared_acquire e s))).2) := by
          simp [notify_loop, hwl, hst]
        rw [this]; exact k2

theorem notify_all_impl_kept (call : List Action → State → Status × State)
    (hk : ∀ prog s, kept s (call prog s).2) (tid arg : Nat) (s : State) :
    kept s (notify_all_impl call tid arg s).2 := by
  unfold notify_all_impl
  by_cases hl : s.m_registrations_lock = true
  · rw [if_pos hl]; exact kept_refl s
  · rw [if_neg hl]
    dsimp only
    cases hm : lock_notification tid (begin_pass s) with
    | none => exact kept_of_frame rfl rfl
    | some s1 =>
      dsimp only
      obtain ⟨m, _, hs⟩ := lock_notification_some hm
      have k1 : kept s s1 := by rw [hs]; exact kept_of_frame rfl rfl
      have k2 := kept_trans k1 (notify_loop_kept call hk s.passes arg s.m_registrations s1)
      cases hst : (notify_loop call s.passes arg s.m_registrations s1).1 with
      | ok => exact kept_trans k2 (kept_of_frame rfl rfl)
      | raised err => exact kept_trans k2 (kept_of_frame rfl rfl)
      | blocked => exact k2
      | out_of_fuel => exact k2

theorem run_action_kept (call : List Action → State → Status × State)
    (hk : ∀ prog s, kept s (call prog s).2) (tid : Nat) (a : Action) (s : State) :
    kept s (run_action call tid a s).2 := by
  cases a with
  | log l => exact kept_of_frame rfl rfl
  | raise err => exact kept_refl s
  | subscribe cb eh => exact kept_register_impl cb eh s
  | copy i => exact kept_token_copy i s
  | make_default => exact kept_of_frame rfl rfl
  | unsubscribe i => exact kept_unsubscribe tid i s
  | notify_all arg => exact notify_all_impl_kept call hk tid arg s
  | notify_all2 arg =>
    have h1 := notify_all_impl_kept call hk tid arg s
    have h2 := notify_all_impl2_eq call tid arg s
    have hr : (run_action call tid (Action.notify_all2 arg) s).2 =
        (notify_all_impl2 call tid arg s).2.2 := rfl
    rw [hr, h2.2]; exact h1

theorem run_actions_kept (call : List Action → State → Status × State)
    (hk : ∀ prog s, kept s (call prog s).2) (tid : Nat) :
    ∀ (prog : List Action) (s : State), kept s (run_actions call tid prog s).2 := by
  intro prog
  induction prog with
  | nil => intro s; exact kept_refl s
  | cons a rest ih =>
    intro s
    have ka := run_action_kept call hk tid a s
    cases hst : (run_action call tid a s).1 with
    | ok =>
      have : run_actions call tid (a :: rest) s =
          run_actions call tid rest (run_action call tid a s).2 := by
        simp [run_actions, hst]
      rw [this]
      exact kept_trans ka (ih _)
    | raised err =>
      have : run_actions call tid (a :: rest) s = run_action call tid a s := by
        simp [run_actions, hst]
      rw [this]; exact ka
    | blocked =>
      have : run_actions call tid (a :: rest) s = run_action call tid a s := by
        simp [run_actions, hst]
      rw [this]; exact ka
    | out_of_fuel =>
      have : run_actions call tid (a :: rest) s = run_action call tid a s := by
        simp [run_actions, hst]
      rw [this]; exact ka

/-- Once an entry has been subscribed the sequence of registrations is never
empty again: pruning only happens in `register_impl`, which appends. -/
theorem exec_kept (tid : Nat) : ∀ (fuel : Nat) (prog : List Action) (s : State),
    kept s (exec fuel tid prog s).2 := by
  intro fuel
  induction fuel with
  | zero => intro prog s; exact kept_refl s
  | succ n ih =>
    intro prog s
    exact run_actions_kept (exec n tid) ih tid prog s

end registration

namespace registration

/-- C12 (counterexample): `is_empty` returns `true` for a holder that was never
subscribed to and `false` for a holder whose only entry has expired and has not
been pruned. -/
theorem is_empty_distinguishes_counterexample :
    is_empty State.init = (Status.ok, true) ∧
    (exec 1 0 (one_subscriber ++ [Action.unsubscribe 0]) State.init).2.m_registrations = [0] ∧
    expired (exec 1 0 (one_subscriber ++ [Action.unsubscribe 0]) State.init).2 0 = true ∧
    is_empty (exec 1 0 (one_subscriber ++ [Action.unsubscribe 0]) State.init).2 =
      (Status.ok, false) := by
  refine ⟨by decide, by decide, by decide, by decide⟩

/-- C12 (amended): `is_empty` reports whether the sequence of registrations
has zero entries, expired entries that are not yet pruned included.  After
every run from a fresh holder it returns normally; it returns `true` exactly
when no entry was ever subscribed, and `false` when the sequence holds entries
that have all expired.  For every state in which nobody holds the
registrations lock it returns whether `m_registrations` is empty. -/
theorem is_empty_counts_expired_entries (fuel tid : Nat) (prog : List Action) :
    is_empty (exec fuel tid prog State.init).2 =
      (Status.ok, (exec fuel tid prog State.init).2.m_registrations.isEmpty) ∧
    (is_empty (exec fuel tid prog State.init).2 = (Status.ok, true) ↔
      (exec fuel tid prog State.init).2.heap = []) ∧
    ((exec fuel tid prog State.init).2.m_registrations ≠ [] →
      (∀ e ∈ (exec fuel tid prog State.init).2.m_registrations,
        expired (exec fuel tid prog State.init).2 e = true) →
      is_empty (exec fuel tid prog State.init).2 = (Status.ok, false)) ∧
    is_empty State.init = (Status.ok, true) ∧
    (∀ s : State, s.m_registrations_lock = false →
      is_empty s = (Status.ok, s.m_registrations.isEmpty)) := by
  have hw := (exec_sound tid fuel prog State.init wellformed_init).1
  have hk := exec_kept tid fuel prog State.init
  have gen : ∀ s : State, s.m_registrations_lock = false →
      is_empty s = (Status.ok, s.m_registrations.isEmpty) := by
    intro s hs
    simp [is_empty, hs]
  generalize (exec fuel tid prog State.init).2 = s at hw hk
  have h1 := gen s hw.regs_free
  refine ⟨h1, ?_, ?_, rfl, gen⟩
  · rw [h1]
    constructor
    · intro h
      simp only [Prod.mk.injEq, true_and, List.isEmpty_iff] at h
      rcases hk with ⟨a, _⟩ | b
      · exact List.length_eq_zero.1 (by rw [a]; rfl)
      · exact absurd h b
    · intro h
      cases hr : s.m_registrations with
      | nil => rfl
      | cons e rest =>
        have := hw.regs_bound e (by rw [hr]; exact List.mem_cons_self _ _)
        rw [h] at this
        exact absurd this (by simp)
  · intro hne _
    rw [h1]
    cases hr : s.m_registrations with
    | nil => exact absurd hr hne
    | cons e rest => rfl

/-- C12 (witness): after the only token has been released the sequence still
holds the expired entry, and `is_empty` returns `false`. -/
theorem is_empty_counts_expired_entries_witness :
    (exec 1 0 (one_subscriber ++ [Action.unsubscribe 0]) State.init).2.m_registrations ≠ [] ∧
    (∀ e ∈ (exec 1 0 (one_subscriber ++ [Action.unsubscribe 0]) State.init).2.m_registrations,
      expired (exec 1 0 (one_subscriber ++ [Action.unsubscribe 0]) State.init).2 e = true) ∧
    is_empty (exec 1 0 (one_subscriber ++ [Action.unsubscribe 0]) State.init).2 =
      (Status.ok, false) :=
  ⟨by decide, by decide,
   (is_empty_counts_expired_entries 1 0 (one_subscriber ++ [Action.unsubscribe 0])).2.2.1
     (by decide) (by decide)⟩

end registration

namespace registration

/-! ## C13: `subscribe` prunes the expired entries and appends the new one -/

/-- C13. For every state in which nobody holds the registrations lock,
`subscribe` returns normally and the sequence of weak references afterwards is
the previous sequence without its expired entries, followed by the new entry:
the part before the new entry holds exactly the entries of the previous
sequence that have not expired, in their previous relative order and as many
times as before; the new entry is the last element, it is a newly allocated
entry holding the callback and the end handler, with one strong reference; and
no entry allocated before changes. -/
theorem subscribe_prunes_expired_and_appends (s : State)
    (hfree : s.m_registrations_lock = false)
    (cb : Nat → List Action × Nat) (eh : Option Nat) :
    (register_impl cb eh s).1 = Status.ok ∧
    (register_impl cb eh s).2.m_registrations =
      s.m_registrations.filter (fun e => !expired s e) ++ [s.heap.length] ∧
    (register_impl cb eh s).2.m_registrations.dropLast.Sublist s.m_registrations ∧
    (∀ e, e ∈ (register_impl cb eh s).2.m_registrations.dropLast ↔
      (e ∈ s.m_registrations ∧ expired s e = false)) ∧
    (∀ e, expired s e = false →
      List.count e (register_impl cb eh s).2.m_registrations.dropLast =
        List.count e s.m_registrations) ∧
    (register_impl cb eh s).2.m_registrations.getLast? = some s.heap.length ∧
    (register_impl cb eh s).2.heap[s.heap.length]? =
      some { entry := { m_callback := cb, m_endhandler := eh }, strong := 1 } ∧
    (∀ e, e < s.heap.length → (register_impl cb eh s).2.heap[e]? = s.heap[e]?) ∧
    (∀ e, e < s.heap.length → expired (register_impl cb eh s).2 e = expired s e) ∧
    subscribe_with cb eh s = register_impl cb eh s ∧
    subscribe cb s = register_impl cb none s := by
  have e1 : subscribe_with cb eh s = register_impl cb eh s := rfl
  have e2 : subscribe cb s = register_impl cb none s := rfl
  refine ⟨?_, ?_, ?_, ?_, ?_, ?_, ?_, ?_, ?_, e1, e2⟩ <;> rw [register_impl_eq hfree]
  · simp only [List.dropLast_concat]
    exact List.filter_sublist _
  · intro e
    simp only [List.dropLast_concat, List.mem_filter, Bool.not_eq_true']
  · intro e he
    simp only [List.dropLast_concat]
    exact List.count_filter (by simp [he])
  · exact List.getLast?_concat _
  · simp
  · intro e he
    exact List.getElem?_append_left he
  · intro e he
    simp only [expired, use_count]
    rw [List.getElem?_append_left he]

/-- C13, an instance of the theorem: of two subscribers the first has
released its token; a third subscription removes entry 0 from the sequence
`[0, 1]` and appends entry 2. -/
theorem subscribe_prunes_expired_and_appends_witness :
    (exec 1 0 (two_subscribers ++ [Action.unsubscribe 0]) State.init).2.m_registrations
      = [0, 1] ∧
    expired (exec 1 0 (two_subscribers ++ [Action.unsubscribe 0]) State.init).2 0 = true ∧
    expired (exec 1 0 (two_subscribers ++ [Action.unsubscribe 0]) State.init).2 1 = false ∧
    (register_impl (logging_callback 3 3) none
      (exec 1 0 (two_subscribers ++ [Action.unsubscribe 0]) State.init).2).2.m_registrations
      = [1, 2] :=
  ⟨by decide, by decide, by decide,
   ((subscribe_prunes_expired_and_appends
      (exec 1 0 (two_subscribers ++ [Action.unsubscribe 0]) State.init).2 (by decide)
      (logging_callback 3 3) none).2.1).trans (by decide)⟩

end registration

namespace scope_guard

/-! ## C14: the handlers of a `scope_guard` run in reverse order of addition -/

theorem add_each_succeeding {σ : Type} : ∀ (hs : List (σ → σ)) (g : scope_guard σ) (st : σ),
    (add_each g (hs.map (fun h => (h, false))) st).thrown = false ∧
    (add_each g (hs.map (fun h => (h, false))) st).state = st ∧
    (add_each g (hs.map (fun h => (h, false))) st).guard.m_policy = g.m_policy ∧
    (add_each g (hs.map (fun h => (h, false))) st).guard.m_handlers =
      hs.reverse ++ g.m_handlers
  | [], g, st => ⟨rfl, rfl, rfl, rfl⟩
  | h :: hs, g, st => by
    have ih := add_each_succeeding hs { g with m_handlers := h :: g.m_handlers } st
    have e : add_each g ((h :: hs).map (fun h => (h, false))) st =
        add_each { g with m_handlers := h :: g.m_handlers }
          (hs.map (fun h => (h, false))) st := by
      simp [add_each, add_assign]
    rw [e]
    refine ⟨ih.1, ih.2.1, ih.2.2.1, ?_⟩
    rw [ih.2.2.2]
    simp

theorem foldl_recording (labels : List Nat) : ∀ (log : List Nat),
    (labels.map recording).foldl (fun x f => f x) log = log ++ labels := by
  induction labels with
  | nil => intro log; simp
  | cons l rest ih =>
    intro log
    simp only [List.map_cons, List.foldl_cons, recording]
    have := ih (log ++ [l])
    simp only [recording] at this
    rw [this]; simp

/-- C14. For every `scope_guard` with policy `always` (holding the handlers
`hs0` already) to which the handlers `hs = [h1, ..., hn]` are added in that
order with `operator +=`, each addition succeeding: the additions leave the
program state unchanged and the deque holds `hn, ..., h1` before `hs0`;
destruction, whether an exception is propagating or not, calls `hn` first and
`h1` last, each once, and then the handlers of `hs0`; for handlers that record
their label in a log and a guard created empty, destruction appends exactly
the labels in reverse order of addition; and after `dismiss()`, destruction
calls no handler, whatever the policy. -/
theorem handlers_run_in_reverse_order_of_addition {σ : Type} (hs0 hs : List (σ → σ))
    (st st1 : σ) (uncaught_exception : Bool) (labels log : List Nat) :
    (add_each { m_handlers := hs0, m_policy := execution.always }
      (hs.map (fun h => (h, false))) st).thrown = false ∧
    (add_each { m_handlers := hs0, m_policy := execution.always }
      (hs.map (fun h => (h, false))) st).state = st ∧
    (add_each { m_handlers := hs0, m_policy := execution.always }
      (hs.map (fun h => (h, false))) st).guard.m_handlers = hs.reverse ++ hs0 ∧
    destroy (add_each { m_handlers := hs0, m_policy := execution.always }
      (hs.map (fun h => (h, false))) st).guard uncaught_exception st1 =
        hs0.foldl (fun x f => f x) (hs.foldr (fun f x => f x) st1) ∧
    destroy (add_each (create execution.always)
      (hs.map (fun h => (h, false))) st).guard uncaught_exception st1 =
        hs.foldr (fun f x => f x) st1 ∧
    destroy (add_each (create execution.always)
      ((labels.map recording).map (fun h => (h, false))) log).guard uncaught_exception log =
        log ++ labels.reverse ∧
    (∀ g : scope_guard σ, destroy (dismiss g) uncaught_exception st1 = st1) := by
  have key : ∀ (g : scope_guard σ) (l : List (σ → σ)) (x y : σ),
      g.m_policy = execution.always →
      destroy (add_each g (l.map (fun h => (h, false))) x).guard uncaught_exception y =
        g.m_handlers.foldl (fun x f => f x) (l.foldr (fun f x => f x) y) := by
    intro g l x y hp
    obtain ⟨_, _, h3, h4⟩ := add_each_succeeding l g x
    unfold destroy
    rw [h3, hp, h4]
    simp [List.foldl_append, List.foldl_reverse]
  have h0 := add_each_succeeding hs { m_handlers := hs0, m_policy := execution.always } st
  refine ⟨h0.1, h0.2.1, h0.2.2.2, key _ hs st st1 rfl, ?_, ?_, ?_⟩
  · exact key (create execution.always) hs st st1 rfl
  · obtain ⟨_, _, h3, h4⟩ := add_each_succeeding (labels.map recording)
      (create execution.always) log
    unfold destroy
    rw [h3, h4]
    simp only [create, true_or, if_true, List.append_nil]
    rw [← List.map_reverse, foldl_recording]
  · intro g
    unfold destroy dismiss
    simp

/-- C14, an instance of the theorem, the guard of `read_data` in `ini.cpp`:
the handlers added first, second and third (recording 1, 2, 3) are called
third, second, first; after `dismiss()` none is called. -/
theorem handlers_run_in_reverse_order_of_addition_witness :
    destroy (add_each (create execution.always)
      [(recording 1, false), (recording 2, false), (recording 3, false)] []).guard
      false [] = [3, 2, 1] ∧
    destroy (dismiss (add_each (create execution.always)
      [(recording 1, false), (recording 2, false), (recording 3, false)] []).guard)
      false [] = [] :=
  ⟨(handlers_run_in_reverse_order_of_addition ([] : List (List Nat → List Nat)) [] [] []
      false [1, 2, 3] []).2.2.2.2.2.1,
   (handlers_run_in_reverse_order_of_addition ([] : List (List Nat → List Nat)) [] [] []
      false [1, 2, 3] []).2.2.2.2.2.2 _⟩

end scope_guard

namespace registration

/-! ## The entries a pass invokes are those alive at their turn -/

theorem turns_skip {call : List Action → State → Status × State} {p arg e : Nat}
    {rest : List Nat} {s : State} (hwl : weak_lock s e = none) :
    turns call p arg (e :: rest) s = (e, s) :: turns call p arg rest s := by
  simp [turns, hwl]

theorem turns_ok {call : List Action → State → Status × State} {p arg e : Nat}
    {rest : List Nat} {s s1 : State} {c : registration_entry}
    (hwl : weak_lock s e = some (c, s1))
    (hst : (call (c.m_callback arg).1 (emit (Event.call p e arg) s1)).1 = Status.ok) :
    turns call p arg (e :: rest) s = (e, s) :: turns call p arg rest
      (shared_release e (emit (Event.ret p e)
        (call (c.m_callback arg).1 (emit (Event.call p e arg) s1)).2)) := by
  simp [turns, hwl, hst]

theorem turns_stop {call : List Action → State → Status × State} {p arg e : Nat}
    {rest : List Nat} {s s1 : State} {c : registration_entry}
    (hwl : weak_lock s e = some (c, s1))
    (hst : (call (c.m_callback arg).1 (emit (Event.call p e arg) s1)).1 ≠ Status.ok) :
    turns call p arg (e :: rest) s = [(e, s)] := by
  cases h : (call (c.m_callback arg).1 (emit (Event.call p e arg) s1)).1 with
  | ok => exact absurd h hst
  | raised err => simp [turns, hwl, h]
  | blocked => simp [turns, hwl, h]
  | out_of_fuel => simp [turns, hwl, h]

theorem alive_at_turn_dead {e : Nat} {s : State} (ts : List (Nat × State))
    (h : expired s e = true) : alive_at_turn ((e, s) :: ts) = alive_at_turn ts := by
  simp [alive_at_turn, h]

theorem alive_at_turn_alive {e : Nat} {s : State} (ts : List (Nat × State))
    (h : expired s e = false) : alive_at_turn ((e, s) :: ts) = e :: alive_at_turn ts := by
  simp [alive_at_turn, h]

theorem alive_at_turn_append (a b : List (Nat × State)) :
    alive_at_turn (a ++ b) = alive_at_turn a ++ alive_at_turn b := by
  simp [alive_at_turn]

theorem expired_of_weak_lock_none {s : State} {e : Nat} (h : weak_lock s e = none) :
    expired s e = true := by
  have := weak_lock_none h
  simp [expired, this]

theorem alive_of_weak_lock_some {s s1 : State} {e : Nat} {c : registration_entry}
    (h : weak_lock s e = some (c, s1)) : expired s e = false := by
  obtain ⟨c0, hc, hpos, _, _⟩ := weak_lock_some h
  simp [expired, use_count_of_lookup hc, hpos]

/-- The loop reaches the entries of the snapshot in order, from the first on. -/
theorem turns_initial (call : List Action → State → Status × State) (p arg : Nat) :
    ∀ (snap : List Nat) (s : State), (turns call p arg snap s).map Prod.fst <+: snap := by
  intro snap
  induction snap with
  | nil => intro s; simp [turns]
  | cons e rest ih =>
    intro s
    cases hwl : weak_lock s e with
    | none =>
      rw [turns_skip hwl, List.map_cons]
      exact (List.prefix_cons_inj e).2 (ih s)
    | some cs =>
      obtain ⟨c, s1⟩ := cs
      by_cases hst : (call (c.m_callback arg).1 (emit (Event.call p e arg) s1)).1 = Status.ok
      · rw [turns_ok hwl hst, List.map_cons]
        exact (List.prefix_cons_inj e).2 (ih _)
      · rw [turns_stop hwl hst]
        exact ⟨rest, rfl⟩

end registration

namespace registration

/-- The loop of a pass invokes exactly the entries of the snapshot that are
alive in the state in which it reaches them.  When the loop ends normally it
has reached every entry of the snapshot and every invoked callback has
returned; otherwise the last entry it has reached is the one whose invocation
did not return normally, and the entries after it are not reached. -/
theorem notify_loop_turns (call : List Action → State → Status × State)
    (hcall : ∀ prog s, wellformed s → sound s (call prog s)) (p arg : Nat) :
    ∀ (snap : List Nat) (s : State), wellformed s → p < s.passes →
      invoked_by p (notify_loop call p arg snap s).2.trace =
        invoked_by p s.trace ++ alive_at_turn (turns call p arg snap s) ∧
      ((notify_loop call p arg snap s).1 = Status.ok →
        (turns call p arg snap s).map Prod.fst = snap ∧
        returned_by p (notify_loop call p arg snap s).2.trace =
          returned_by p s.trace ++ alive_at_turn (turns call p arg snap s) ∧
        raised_by p (notify_loop call p arg snap s).2.trace = raised_by p s.trace) ∧
      ((notify_loop call p arg snap s).1 ≠ Status.ok →
        ∃ ts k st post, turns call p arg snap s = ts ++ [(k, st)] ∧
          snap = ts.map Prod.fst ++ k :: post ∧ expired st k = false ∧
          returned_by p (notify_loop call p arg snap s).2.trace =
            returned_by p s.trace ++ alive_at_turn ts ∧
          (∀ err, (notify_loop call p arg snap s).1 = Status.raised err →
            raised_by p (notify_loop call p arg snap s).2.trace =
              raised_by p s.trace ++ [(k, err)])) := by
  intro snap
  induction snap with
  | nil =>
    intro s _ _
    refine ⟨by simp [notify_loop, turns, alive_at_turn], ?_, ?_⟩
    · intro _; simp [notify_loop, turns, alive_at_turn]
    · intro hne; simp [notify_loop] at hne
  | cons e rest ih =>
    intro s h hp
    cases hwl : weak_lock s e with
    | none =>
      have heq : notify_loop call p arg (e :: rest) s = notify_loop call p arg rest s := by
        simp [notify_loop, hwl]
      have hdead := expired_of_weak_lock_none hwl
      obtain ⟨i1, i2, i3⟩ := ih s h hp
      rw [heq, turns_skip hwl, alive_at_turn_dead _ hdead]
      refine ⟨i1, ?_, ?_⟩
      · intro hok
        obtain ⟨a, b, c⟩ := i2 hok
        exact ⟨by rw [List.map_cons, a], b, c⟩
      · intro hne
        obtain ⟨ts, k, st, post, a, b, c, d, f⟩ := i3 hne
        refine ⟨(e, s) :: ts, k, st, post, by rw [a]; rfl, by rw [b]; rfl, c, ?_, f⟩
        rw [alive_at_turn_dead _ hdead]; exact d
    | some cs =>
      obtain ⟨c, s1⟩ := cs
      have halive := alive_of_weak_lock_some hwl
      obtain ⟨c0, hc, hpos, hce, hs1⟩ := weak_lock_some hwl
      subst hs1
      have hwE := wellformed_enter h hc hpos hp arg
      obtain ⟨hw2, he2, hb2⟩ := hcall (c.m_callback arg).1 _ hwE
      have hp2 : p < (call (c.m_callback arg).1
          (emit (Event.call p e arg) (shared_acquire e s))).2.passes := by
        have := he2.passes_le
        simp only [emit_passes, (shared_acquire_frame e s).2.2.2.2.1] at this
        omega
      obtain ⟨o1, o2, o3⟩ := own_events_body hp he2
      cases hst : (call (c.m_callback arg).1
          (emit (Event.call p e arg) (shared_acquire e s))).1 with
      | ok =>
        have hbal := hb2 (by rw [hst]; rfl)
        have hin := in_progress_after_body h hbal
        have hwL := wellformed_leave (v := Event.ret p e) hw2 hin hp2 (Or.inl rfl)
        have hpL : p < (shared_release e (emit (Event.ret p e) (call (c.m_callback arg).1
            (emit (Event.call p e arg) (shared_acquire e s))).2)).passes := by
          rw [(shared_release_frame e _).2.2.2.2.1]; exact hp2
        have heq : notify_loop call p arg (e :: rest) s = notify_loop call p arg rest
            (shared_release e (emit (Event.ret p e) (call (c.m_callback arg).1
              (emit (Event.call p e arg) (shared_acquire e s))).2)) := by
          simp [notify_loop, hwl, hst]
        have q1 : invoked_by p (shared_release e (emit (Event.ret p e) (call (c.m_callback arg).1
            (emit (Event.call p e arg) (shared_acquire e s))).2)).trace =
            invoked_by p s.trace ++ [e] := by
          rw [(own_events_leave p _ e _).1, o1, (own_events_ret p e).1, List.append_nil]
        have q2 : returned_by p (shared_release e (emit (Event.ret p e)
            (call (c.m_callback arg).1
            (emit (Event.call p e arg) (shared_acquire e s))).2)).trace =
            returned_by p s.trace ++ [e] := by
          rw [(own_events_leave p _ e _).2.1, o2, (own_events_ret p e).2.1]
        have q3 : raised_by p (shared_release e (emit (Event.ret p e)
            (call (c.m_callback arg).1
            (emit (Event.call p e arg) (shared_acquire e s))).2)).trace =
            raised_by p s.trace := by
          rw [(own_events_leave p _ e _).2.2, o3, (own_events_ret p e).2.2, List.append_nil]
        obtain ⟨i1, i2, i3⟩ := ih _ hwL hpL
        rw [heq, turns_ok hwl hst, alive_at_turn_alive _ halive]
        refine ⟨by rw [i1, q1]; simp, ?_, ?_⟩
        · intro hok
          obtain ⟨a, b, c1⟩ := i2 hok
          exact ⟨by rw [List.map_cons, a], by rw [b, q2]; simp, by rw [c1, q3]⟩
        · intro hne
          obtain ⟨ts, k, st, post, a, b, c1, d, f⟩ := i3 hne
          refine ⟨(e, s) :: ts, k, st, post, by rw [a]; rfl, by rw [b]; rfl, c1, ?_, ?_⟩
          · rw [alive_at_turn_alive _ halive, d, q2]; simp
          · intro err herr
            rw [f err herr, q3]
      | raised err =>
        have heq : notify_loop call p arg (e :: rest) s = (Status.raised err,
            shared_release e (emit (Event.exc p e err) (call (c.m_callback arg).1
              (emit (Event.call p e arg) (shared_acquire e s))).2)) := by
          simp [notify_loop, hwl, hst]
        rw [heq, turns_stop hwl (by rw [hst]; simp), alive_at_turn_alive _ halive]
        refine ⟨?_, fun hok => absurd hok (by simp), fun _ => ?_⟩
        · show invoked_by p (shared_release e (emit (Event.exc p e err) _)).trace = _
          rw [(own_events_leave p _ e _).1, o1, (own_events_exc p e err).1]
          simp [alive_at_turn]
        · refine ⟨[], e, s, rest, rfl, rfl, halive, ?_, ?_⟩
          · show returned_by p (shared_release e (emit (Event.exc p e err) _)).trace = _
            rw [(own_events_leave p _ e _).2.1, o2, (own_events_exc p e err).2.1]
            simp [alive_at_turn]
          · intro err1 herr
            simp only [Status.raised.injEq] at herr
            subst herr
            show raised_by p (shared_release e (emit (Event.exc p e err) _)).trace = _
            rw [(own_events_leave p _ e _).2.2, o3, (own_events_exc p e err).2.2]
      | blocked =>
        have heq : notify_loop call p arg (e :: rest) s = (Status.blocked,
            (call (c.m_callback arg).1
              (emit (Event.call p e arg) (shared_acquire e s))).2) := by
          simp [notify_loop, hwl, hst]
        rw [heq, turns_stop hwl (by rw [hst]; simp), alive_at_turn_alive _ halive]
        refine ⟨?_, fun hok => absurd hok (by simp), fun _ => ?_⟩
        · show invoked_by p _ = _
          rw [o1]; simp [alive_at_turn]
        · refine ⟨[], e, s, rest, rfl, rfl, halive, ?_, ?_⟩
          · show returned_by p _ = _
            rw [o2]; simp [alive_at_turn]
          · intro err1 herr; simp at herr
      | out_of_fuel =>
        have heq : notify_loop call p arg (e :: rest) s = (Status.out_of_fuel,
            (call (c.m_callback arg).1
              (emit (Event.call p e arg) (shared_acquire e s))).2) := by
          simp [notify_loop, hwl, hst]
        rw [heq, turns_stop hwl (by rw [hst]; simp), alive_at_turn_alive _ halive]
        refine ⟨?_, fun hok => absurd hok (by simp), fun _ => ?_⟩
        · show invoked_by p _ = _
          rw [o1]; simp [alive_at_turn]
        · refine ⟨[], e, s, rest, rfl, rfl, halive, ?_, ?_⟩
          · show returned_by p _ = _
            rw [o2]; simp [alive_at_turn]
          · intro err1 herr; simp at herr

end registration

namespace registration

theorem pair_unique {e : Nat} {a b : State} : ∀ (l : List (Nat × State)),
    (l.map Prod.fst).Nodup → (e, a) ∈ l → (e, b) ∈ l → a = b
  | [], _, h, _ => by cases h
  | x :: l, hn, ha, hb => by
    rw [List.map_cons, List.nodup_cons] at hn
    rcases List.mem_cons.1 ha with ha | ha
    · rcases List.mem_cons.1 hb with hb | hb
      · rw [← ha] at hb
        exact (Prod.mk.inj hb).2.symm
      · exact absurd (List.mem_map.2 ⟨(e, b), hb, by rw [← ha]⟩) hn.1
    · rcases List.mem_cons.1 hb with hb | hb
      · exact absurd (List.mem_map.2 ⟨(e, a), ha, by rw [← hb]⟩) hn.1
      · exact pair_unique l hn.2 ha hb

theorem mem_alive_at_turn {e : Nat} {ts : List (Nat × State)} :
    e ∈ alive_at_turn ts ↔ ∃ st, (e, st) ∈ ts ∧ expired st e = false := by
  simp [alive_at_turn]

/-- An entry the loop has reached is among the entries alive at their turn
exactly when it is alive in the state in which the loop has reached it. -/
theorem alive_at_turn_iff {e : Nat} {st : State} {ts : List (Nat × State)}
    (hn : (ts.map Prod.fst).Nodup) (hm : (e, st) ∈ ts) :
    e ∈ alive_at_turn ts ↔ expired st e = false := by
  rw [mem_alive_at_turn]
  constructor
  · rintro ⟨st1, h1, h2⟩
    rw [pair_unique ts hn hm h1]; exact h2
  · intro h; exact ⟨st, hm, h⟩

/-- What a call of `notify_all_impl` that has taken the notification lock in
state `s1` invokes: the entries of the snapshot that are alive in the state in
which the loop reaches them. -/
theorem notify_all_impl_turns (call : List Action → State → Status × State)
    (hcall : ∀ prog s, wellformed s → sound s (call prog s)) (tid arg : Nat)
    {s s1 : State} (h : wellformed s) (hm : lock_notification tid (begin_pass s) = some s1) :
    invoked_by s.passes (notify_all_impl call tid arg s).2.trace =
      alive_at_turn (turns call s.passes arg s.m_registrations s1) ∧
    ((turns call s.passes arg s.m_registrations s1).map Prod.fst).Nodup ∧
    ((notify_all_impl call tid arg s).1 = Status.ok →
      (turns call s.passes arg s.m_registrations s1).map Prod.fst = s.m_registrations ∧
      returned_by s.passes (notify_all_impl call tid arg s).2.trace =
        alive_at_turn (turns call s.passes arg s.m_registrations s1) ∧
      raised_by s.passes (notify_all_impl call tid arg s).2.trace = []) ∧
    ((notify_all_impl call tid arg s).1 ≠ Status.ok →
      ∃ ts k st post, turns call s.passes arg s.m_registrations s1 = ts ++ [(k, st)] ∧
        s.m_registrations = ts.map Prod.fst ++ k :: post ∧ expired st k = false ∧
        returned_by s.passes (notify_all_impl call tid arg s).2.trace = alive_at_turn ts ∧
        (∀ err, (notify_all_impl call tid arg s).1 = Status.raised err →
          raised_by s.passes (notify_all_impl call tid arg s).2.trace = [(k, err)])) := by
  have hw1 := wellformed_lock_notification (wellformed_begin_pass h) hm
  obtain ⟨m, _, hs⟩ := lock_notification_some hm
  have hp1 : s.passes < s1.passes := by rw [hs]; exact Nat.lt_succ_self _
  have htr1 : s1.trace = s.trace := by rw [hs]; rfl
  obtain ⟨f1, f2, f3⟩ := own_events_fresh h (Nat.le_refl s.passes)
  obtain ⟨i1, i2, i3⟩ := notify_loop_turns call hcall s.passes arg s.m_registrations s1 hw1 hp1
  rw [htr1, f1, List.nil_append] at i1
  rw [htr1, f2, f3] at i2
  rw [htr1, f2, f3] at i3
  simp only [List.nil_append] at i2 i3
  have hnd : ((turns call s.passes arg s.m_registrations s1).map Prod.fst).Nodup :=
    (regs_nodup h).sublist (turns_initial call s.passes arg s.m_registrations s1).sublist
  have hfree : ¬ s.m_registrations_lock = true := by simp [h.regs_free]
  have hst : (notify_all_impl call tid arg s).1 =
      (notify_loop call s.passes arg s.m_registrations s1).1 ∧
      (notify_all_impl call tid arg s).2.trace =
      (notify_loop call s.passes arg s.m_registrations s1).2.trace := by
    unfold notify_all_impl
    rw [if_neg hfree]
    dsimp only
    rw [hm]
    dsimp only
    cases hl : (notify_loop call s.passes arg s.m_registrations s1).1 <;> exact ⟨rfl, rfl⟩
  rw [hst.1, hst.2]
  exact ⟨i1, hnd, i2, i3⟩

/-- A call of `notify_all_impl` that cannot take the notification lock invokes
nothing. -/
theorem notify_all_impl_waits (call : List Action → State → Status × State) (tid arg : Nat)
    {s : State} (h : wellformed s) (hm : lock_notification tid (begin_pass s) = none) :
    (notify_all_impl call tid arg s).1 = Status.blocked ∧
    (notify_all_impl call tid arg s).2.trace = s.trace := by
  have hfree : ¬ s.m_registrations_lock = true := by simp [h.regs_free]
  unfold notify_all_impl
  rw [if_neg hfree]
  dsimp only
  rw [hm]
  exact ⟨rfl, rfl⟩

end registration

namespace registration

/-- From the state in which the loop reaches an entry, the loop goes on as
the loop over that entry and the entries after it. -/
theorem turns_suffix (call : List Action → State → Status × State)
    (hcall : ∀ prog s, wellformed s → sound s (call prog s)) (p arg : Nat) :
    ∀ (snap : List Nat) (s : State), wellformed s → p < s.passes →
      ∀ e st, (e, st) ∈ turns call p arg snap s →
        ∃ rest, wellformed st ∧ p < st.passes ∧ s.heap.length ≤ st.heap.length ∧
          notify_loop call p arg snap s = notify_loop call p arg (e :: rest) st := by
  intro snap
  induction snap with
  | nil => intro s _ _ e st hm; simp [turns] at hm
  | cons x rest ih =>
    intro s h hp e st hm
    cases hwl : weak_lock s x with
    | none =>
      rw [turns_skip hwl] at hm
      rcases List.mem_cons.1 hm with hm | hm
      · obtain ⟨rfl, rfl⟩ := Prod.mk.inj hm
        exact ⟨rest, h, hp, Nat.le_refl _, rfl⟩
      · obtain ⟨r1, a, b, c, d⟩ := ih s h hp e st hm
        refine ⟨r1, a, b, c, ?_⟩
        rw [← d]; simp [notify_loop, hwl]
    | some cs =>
      obtain ⟨c, s1⟩ := cs
      by_cases hst : (call (c.m_callback arg).1 (emit (Event.call p x arg) s1)).1 = Status.ok
      · rw [turns_ok hwl hst] at hm
        rcases List.mem_cons.1 hm with hm | hm
        · obtain ⟨rfl, rfl⟩ := Prod.mk.inj hm
          exact ⟨rest, h, hp, Nat.le_refl _, rfl⟩
        · obtain ⟨c0, hc, hpos, hce, hs1⟩ := weak_lock_some hwl
          subst hs1
          have hwE := wellformed_enter h hc hpos hp arg
          have heE : extends_from p s (emit (Event.call p x arg) (shared_acquire x s)) :=
            extends_from_enter hc hpos (Nat.le_refl p) arg
          obtain ⟨hw2, he2, hb2⟩ := hcall (c.m_callback arg).1 _ hwE
          have hpE : p ≤ (emit (Event.call p x arg) (shared_acquire x s)).passes := by
            simp [(shared_acquire_frame x s).2.2.2.2.1]; omega
          have hes2 := extends_from_trans heE he2 hpE
          have hp2 : p < (call (c.m_callback arg).1
              (emit (Event.call p x arg) (shared_acquire x s))).2.passes :=
            Nat.lt_of_lt_of_le hp hes2.passes_le
          have hbal := hb2 (by rw [hst]; rfl)
          have hin := in_progress_after_body h hbal
          have hwL := wellformed_leave (v := Event.ret p x) hw2 hin hp2 (Or.inl rfl)
          have heL : extends_from p _ (shared_release x (emit (Event.ret p x) _)) :=
            extends_from_leave (s := (call (c.m_callback arg).1
              (emit (Event.call p x arg) (shared_acquire x s))).2) (Nat.le_refl p)
              (Or.inl rfl)
          have hesL := extends_from_trans hes2 heL (Nat.le_refl p)
          have hpL : p < (shared_release x (emit (Event.ret p x) (call (c.m_callback arg).1
              (emit (Event.call p x arg) (shared_acquire x s))).2)).passes := by
            rw [(shared_release_frame x _).2.2.2.2.1]; exact hp2
          obtain ⟨r1, a, b, c1, d⟩ := ih _ hwL hpL e st hm
          refine ⟨r1, a, b, Nat.le_trans hesL.heap_le c1, ?_⟩
          rw [← d]; simp [notify_loop, hwl, hst]
      · rw [turns_stop hwl hst] at hm
        simp only [List.mem_singleton] at hm
        obtain ⟨rfl, rfl⟩ := Prod.mk.inj hm
        exact ⟨rest, h, hp, Nat.le_refl _, rfl⟩

/-- An entry that has expired when the loop reaches it is still expired when
the loop has ended. -/
theorem expired_after_turn (call : List Action → State → Status × State)
    (hcall : ∀ prog s, wellformed s → sound s (call prog s)) (p arg : Nat)
    {snap : List Nat} {s : State} (h : wellformed s) (hp : p < s.passes)
    {e : Nat} {st : State} (hm : (e, st) ∈ turns call p arg snap s)
    (hlt : e < s.heap.length) (hdead : expired st e = true) :
    expired (notify_loop call p arg snap s).2 e = true := by
  obtain ⟨rest, a, b, c, d⟩ := turns_suffix call hcall p arg snap s h hp e st hm
  have hs := (notify_loop_sound call hcall p arg (e :: rest) st a b).2.1
  rw [d]
  have hz : use_count st e = 0 := by simpa [expired] using hdead
  have := hs.dead e (Nat.lt_of_lt_of_le hlt c) hz
  simp [expired, this]

end registration

namespace registration

/-! ## An entry that no token holds is never held again -/

theorem unheld_refl (e : Nat) (s : State) : unheld e s s := ⟨Nat.le_refl _, fun _ h => h⟩

theorem unheld_trans {e : Nat} {s s1 s2 : State} (h1 : unheld e s s1) (h2 : unheld e s1 s2) :
    unheld e s s2 :=
  ⟨Nat.le_trans h1.1 h2.1, fun hlt hz => h2.2 (Nat.lt_of_lt_of_le hlt h1.1) (h1.2 hlt hz)⟩

theorem unheld_of_frame {e : Nat} {s s1 : State} (h1 : s1.heap.length = s.heap.length)
    (h2 : s1.tokens = s.tokens) : unheld e s s1 :=
  ⟨by omega, fun _ hz => by rw [holders_congr h2]; exact hz⟩

theorem unheld_release (e x : Nat) (s : State) : unheld e s (shared_release x s) :=
  unheld_of_frame (shared_release_frame x s).2.2.2.2.2 (shared_release_frame x s).1

theorem unheld_leave (e x : Nat) (v : Event) (s : State) :
    unheld e s (shared_release x (emit v s)) :=
  unheld_trans (unheld_of_frame rfl rfl : unheld e s (emit v s)) (unheld_release e x (emit v s))

theorem unheld_acquire (e x : Nat) (s : State) : unheld e s (shared_acquire x s) :=
  unheld_of_frame (shared_acquire_frame x s).2.2.2.2.2.2 (shared_acquire_frame x s).1

theorem token_reset_tokens {s : State} {i : Nat} {t : token} (ht : s.tokens[i]? = some t) :
    (token_reset i s).tokens = s.tokens.set i token.null := by
  cases hh : t.m_registration_holder with
  | none => rw [token_reset_of_none ht hh]
  | some x =>
    rw [token_reset_of_some ht hh]
    simp [(shared_release_frame x s).1]

theorem unheld_token_reset (e i : Nat) (s : State) : unheld e s (token_reset i s) := by
  refine ⟨by rw [(token_reset_frame i s).2.2.2.2.1], fun _ hz => ?_⟩
  cases ht : s.tokens[i]? with
  | none => rw [token_reset_none ht]; exact hz
  | some t =>
    have := holders_set ht (token_reset_tokens ht) e
    omega

theorem unheld_token_copy (e i : Nat) (s : State) : unheld e s (token_copy i s) := by
  cases ht : s.tokens[i]? with
  | none =>
    have : token_copy i s = s := by simp [token_copy, ht]
    rw [this]; exact unheld_refl e s
  | some t =>
    have hne : holders s e = 0 → ¬ t.m_registration_holder = some e := by
      intro hz hh
      have := holders_pos_of_lookup ht hh
      omega
    cases hh : t.m_registration_holder with
    | none =>
      rw [token_copy_of_none ht hh]
      refine ⟨Nat.le_refl _, fun _ hz => ?_⟩
      rw [holders_append s _ t rfl e]
      simp [hh, hz]
    | some x =>
      rw [token_copy_of_some ht hh]
      refine ⟨by simp [(shared_acquire_frame x s).2.2.2.2.2.2], fun _ hz => ?_⟩
      rw [holders_append (shared_acquire x s) _ t rfl e,
        holders_congr (shared_acquire_frame x s).1]
      have := hne hz
      rw [hh] at this
      simp [hh, hz, this]

theorem unheld_unsubscribe (e tid i : Nat) (s : State) : unheld e s (unsubscribe tid i s).2 := by
  unfold unsubscribe
  cases ht : s.tokens[i]? with
  | none => exact unheld_refl e s
  | some t =>
    dsimp only
    by_cases hm : t.m_notify_mutex = true
    · rw [if_pos hm]
      cases hl : lock_notification tid s with
      | none => exact unheld_refl e s
      | some s1 =>
        obtain ⟨m, _, hs1⟩ := lock_notification_some hl
        subst hs1
        exact unheld_trans (unheld_of_frame rfl rfl : unheld e s { s with m_notification_lock := m })
          (unheld_trans (unheld_token_reset e i _) (unheld_of_frame rfl rfl))
    · rw [if_neg hm]
      exact unheld_token_reset e i s

theorem unheld_register_impl (e : Nat) (cb : Nat → List Action × Nat) (eh : Option Nat)
    (s : State) : unheld e s (register_impl cb eh s).2 := by
  by_cases hfree : s.m_registrations_lock = false
  · rw [register_impl_eq hfree]
    refine ⟨by simp, fun hlt hz => ?_⟩
    rw [holders_append s _ { m_registration_holder := some s.heap.length, m_notify_mutex := true }
      rfl e]
    have : ¬ s.heap.length = e := by omega
    simp [hz, this]
  · simp only [Bool.not_eq_false] at hfree
    have : register_impl cb eh s = (Status.blocked, s) := by simp [register_impl, hfree]
    rw [this]; exact unheld_refl e s

theorem notify_loop_unheld (x : Nat) (call : List Action → State → Status × State)
    (hk : ∀ prog s, unheld x s (call prog s).2) (p arg : Nat) :
    ∀ (snap : List Nat) (s : State), unheld x s (notify_loop call p arg snap s).2 := by
  intro snap
  induction snap with
  | nil => intro s; exact unheld_refl x s
  | cons e rest ih =>
    intro s
    cases hwl : weak_lock s e with
    | none =>
      have : notify_loop call p arg (e :: rest) s = notify_loop call p arg rest s := by
        simp [notify_loop, hwl]
      rw [this]; exact ih s
    | some cs =>
      obtain ⟨c, s1⟩ := cs
      obtain ⟨c0, _, _, _, hs1⟩ := weak_lock_some hwl
      subst hs1
      have k1 : unheld x s (emit (Event.call p e arg) (shared_acquire e s)) :=
        unheld_trans (unheld_acquire x e s) (unheld_of_frame rfl rfl)
      have k2 := unheld_trans k1 (hk (c.m_callback arg).1 _)
      cases hst : (call (c.m_callback arg).1
          (emit (Event.call p e arg) (shared_acquire e s))).1 with
      | ok =>
        have : notify_loop call p arg (e :: rest) s = notify_loop call p arg rest
            (shared_release e (emit (Event.ret p e) (call (c.m_callback arg).1
              (emit (Event.call p e arg) (shared_acquire e s))).2)) := by
          simp [notify_loop, hwl, hst]
        rw [this]
        exact unheld_trans (unheld_trans k2 (unheld_leave x e (Event.ret p e) _)) (ih _)
      | raised err =>
        have : notify_loop call p arg (e :: rest) s = (Status.raised err,
            shared_release e (emit (Event.exc p e err) (call (c.m_callback arg).1
              (emit (Event.call p e arg) (shared_acquire e s))).2)) := by
          simp [notify_loop, hwl, hst]
        rw [this]
        exact unheld_trans k2 (unheld_leave x e (Event.exc p e err) _)
      | blocked =>
        have : notify_loop call p arg (e :: rest) s = (Status.blocked,
            (call (c.m_callback arg).1
              (emit (Event.call p e arg) (shared_acquire e s))).2) := by
          simp [notify_loop, hwl, hst]
        rw [this]; exact k2
      | out_of_fuel =>
        have : notify_loop call p arg (e :: rest) s = (Status.out_of_fuel,
            (call (c.m_callback arg).1
              (emit (Event.call p e arg) (shared_acquire e s))).2) := by
          simp [notify_loop, hwl, hst]
        rw [this]; exact k2

theorem notify_all_impl_unheld (x : Nat) (call : List Action → State → Status × State)
    (hk : ∀ prog s, unheld x s (call prog s).2) (tid arg : Nat) (s : State) :
    unheld x s (notify_all_impl call tid arg s).2 := by
  unfold notify_all_impl
  by_cases hl : s.m_registrations_lock = true
  · rw [if_pos hl]; exact unheld_refl x s
  · rw [if_neg hl]
    dsimp only
    cases hm : lock_notification tid (begin_pass s) with
    | none => exact unheld_of_frame rfl rfl
    | some s1 =>
      dsimp only
      obtain ⟨m, _, hs⟩ := lock_notification_some hm
      have k1 : unheld x s s1 := by rw [hs]; exact unheld_of_frame rfl rfl
      have k2 := unheld_trans k1 (notify_loop_unheld x call hk s.passes arg s.m_registrations s1)
      cases hst : (notify_loop call s.passes arg s.m_registrations s1).1 with
      | ok => exact unheld_trans k2 (unheld_of_frame rfl rfl)
      | raised err => exact unheld_trans k2 (unheld_of_frame rfl rfl)
      | blocked => exact k2
      | out_of_fuel => exact k2

theorem run_action_unheld (x : Nat) (call : List Action → State → Status × State)
    (hk : ∀ prog s, unheld x s (call prog s).2) (tid : Nat) (a : Action) (s : State) :
    unheld x s (run_action call tid a s).2 := by
  cases a with
  | log l => exact unheld_of_frame rfl rfl
  | raise err => exact unheld_refl x s
  | subscribe cb eh => exact unheld_register_impl x cb eh s
  | copy i => exact unheld_token_copy x i s
  | make_default =>
    refine ⟨Nat.le_refl _, fun _ hz => ?_⟩
    have hr : (run_action call tid Action.make_default s).2 = token_default s := rfl
    rw [hr, holders_append s (token_default s) token.null rfl x]
    simp [hz, token.null]
  | unsubscribe i => exact unheld_unsubscribe x tid i s
  | notify_all arg => exact notify_all_impl_unheld x call hk tid arg s
  | notify_all2 arg =>
    have h1 := notify_all_impl_unheld x call hk tid arg s
    have h2 := notify_all_impl2_eq call tid arg s
    have hr : (run_action call tid (Action.notify_all2 arg) s).2 =
        (notify_all_impl2 call tid arg s).2.2 := rfl
    rw [hr, h2.2]; exact h1

theorem run_actions_unheld (x : Nat) (call : List Action → State → Status × State)
    (hk : ∀ prog s, unheld x s (call prog s).2) (tid : Nat) :
    ∀ (prog : List Action) (s : State), unheld x s (run_actions call tid prog s).2 := by
  intro prog
  induction prog with
  | nil => intro s; exact unheld_refl x s
  | cons a rest ih =>
    intro s
    have ka := run_action_unheld x call hk tid a s
    cases hst : (run_action call tid a s).1 with
    | ok =>
      have : run_actions call tid (a :: rest) s =
          run_actions call tid rest (run_action call tid a s).2 := by
        simp [run_actions, hst]
      rw [this]
      exact unheld_trans ka (ih _)
    | raised err =>
      have : run_actions call tid (a :: rest) s = run_action call tid a s := by
        simp [run_actions, hst]
      rw [this]; exact ka
    | blocked =>
      have : run_actions call tid (a :: rest) s = run_action call tid a s := by
        simp [run_actions, hst]
      rw [this]; exact ka
    | out_of_fuel =>
      have : run_actions call tid (a :: rest) s = run_action call tid a s := by
        simp [run_actions, hst]
      rw [this]; exact ka

/-- No run of user code makes a token hold an entry that no token held: a
token comes to hold an entry by subscription of that entry or by copy of a
token that holds it. -/
theorem exec_unheld (x tid : Nat) : ∀ (fuel : Nat) (prog : List Action) (s : State),
    unheld x s (exec fuel tid prog s).2 := by
  intro fuel
  induction fuel with
  | zero => intro prog s; exact unheld_refl x s
  | succ n ih =>
    intro prog s
    exact run_actions_unheld x (exec n tid) ih tid prog s

end registration

namespace registration

/-! ## C4: a callback that releases its own token -/

/-- While an invocation of the callback of an entry is in progress, the entry
is alive and neither its end handler nor its deleter has run. -/
theorem alive_in_progress {st : State} {e : Nat} (hw : wellformed st)
    (hin : finished st.trace e < started st.trace e) :
    expired st e = false ∧ handled st.trace e = 0 ∧ destroyed st.trace e = 0 := by
  have hcnt := hw.counts e
  have hpos : 0 < use_count st e := by omega
  obtain ⟨c, hc, hcs⟩ := lookup_of_use_count_pos hpos
  have hne : ¬ c.strong = 0 := by omega
  refine ⟨by simp [expired]; omega, ?_, ?_⟩
  · have := hw.ended e
    rw [hc] at this
    simpa [hne] using this
  · have := hw.deleted e
    have hne2 : ¬ use_count st e = 0 := by omega
    simpa [hne2] using this

theorem entered_counts (s : State) (p e arg : Nat) :
    started (emit (Event.call p e arg) (shared_acquire e s)).trace e = started s.trace e + 1 ∧
    finished (emit (Event.call p e arg) (shared_acquire e s)).trace e = finished s.trace e := by
  simp only [emit_trace, (shared_acquire_frame e s).2.2.2.2.2.1, started_append,
    finished_append, (counts_call p e arg e).1, (counts_call p e arg e).2.1, if_true]
  exact ⟨trivial, rfl⟩

theorem unsubscribe_tokens {s : State} {tid i : Nat} {t : token} (ht : s.tokens[i]? = some t)
    (hret : (unsubscribe tid i s).1 = Status.ok) :
    (unsubscribe tid i s).2.tokens = s.tokens.set i token.null := by
  unfold unsubscribe at hret ⊢
  simp only [ht] at hret ⊢
  by_cases hm : t.m_notify_mutex = true
  · simp only [hm, if_true] at hret ⊢
    cases hl : lock_notification tid s with
    | none => simp [hl] at hret
    | some s1 =>
      obtain ⟨m, _, hs1⟩ := lock_notification_some hl
      subst hs1
      simp only []
      exact token_reset_tokens (s := { s with m_notification_lock := m }) ht
  · simp only [hm]
    exact token_reset_tokens ht

/-- The body of a callback that releases token `i` after `pre` has run
continues with the rest of the body from the state the release leaves. -/
theorem exec_release_split {n tid i : Nat} {pre post : List Action} {s1 s2 : State}
    (hpre : exec (n + 1) tid pre s1 = (Status.ok, s2))
    (hrel : (unsubscribe tid i s2).1 = Status.ok) :
    exec (n + 1) tid (pre ++ Action.unsubscribe i :: post) s1 =
      exec (n + 1) tid post (unsubscribe tid i s2).2 := by
  show run_actions (exec n tid) tid _ _ = run_actions (exec n tid) tid _ _
  rw [run_actions_append_ok (exec n tid) tid pre _ s1 s2 hpre]
  have hr : (run_action (exec n tid) tid (Action.unsubscribe i) s2) = unsubscribe tid i s2 := rfl
  simp only [run_actions, hr, hrel]

end registration

namespace registration

/-! ## C1: the callbacks a pass invokes -/

/-- C1 (as amended). A single `notify_all` call invokes, each exactly once and
in subscription order, exactly those entries of the snapshot that are still
alive when the loop reaches them.  With `turns` giving for each snapshot entry
the state in which the loop reaches it (`s1`, in which the call has taken the
lock, for the first one): the entries invoked by the pass are the entries
alive at their turn, in order; an entry the loop has reached is invoked exactly
when it is alive in the state in which the loop reaches it; from that state
the loop goes on as the loop over that entry and the entries after it; and a
call that returns normally has reached every entry of the snapshot.  Hence the invoked
entries form a sublist of the snapshot (strictly increasing, so without
repetition), every invoked entry was alive when the snapshot was taken, and
when the call returns normally every snapshot entry that was not invoked has
expired; if moreover no entry alive at snapshot time has expired by the end of
the call, the invoked entries are exactly the entries alive at snapshot time.
A call that has to wait for the notification lock invokes nothing. -/
theorem notify_all_invokes_entries_alive_at_their_turn (fuel tid arg : Nat) (s : State)
    (h : wellformed s) :
    (invoked_by s.passes (notify_all fuel tid arg s).2.trace).Sublist s.m_registrations ∧
    (invoked_by s.passes (notify_all fuel tid arg s).2.trace).Pairwise (fun a b => a < b) ∧
    (∀ e ∈ invoked_by s.passes (notify_all fuel tid arg s).2.trace, expired s e = false) ∧
    ((notify_all fuel tid arg s).1 = Status.ok →
      (∀ e ∈ s.m_registrations,
        e ∉ invoked_by s.passes (notify_all fuel tid arg s).2.trace →
        expired (notify_all fuel tid arg s).2 e = true) ∧
      ((∀ e ∈ s.m_registrations, expired s e = false →
          expired (notify_all fuel tid arg s).2 e = false) →
        invoked_by s.passes (notify_all fuel tid arg s).2.trace =
          s.m_registrations.filter (fun e => !expired s e))) ∧
    (∀ s1, lock_notification tid (begin_pass s) = some s1 →
      invoked_by s.passes (notify_all fuel tid arg s).2.trace =
        alive_at_turn (turns (exec fuel tid) s.passes arg s.m_registrations s1) ∧
      (∀ e st, (e, st) ∈ turns (exec fuel tid) s.passes arg s.m_registrations s1 →
        (e ∈ invoked_by s.passes (notify_all fuel tid arg s).2.trace ↔
          expired st e = false)) ∧
      (∀ e rest, s.m_registrations = e :: rest →
        (e, s1) ∈ turns (exec fuel tid) s.passes arg s.m_registrations s1) ∧
      (∀ e st, (e, st) ∈ turns (exec fuel tid) s.passes arg s.m_registrations s1 →
        ∃ rest, notify_loop (exec fuel tid) s.passes arg s.m_registrations s1 =
          notify_loop (exec fuel tid) s.passes arg (e :: rest) st) ∧
      ((notify_all fuel tid arg s).1 = Status.ok →
        (turns (exec fuel tid) s.passes arg s.m_registrations s1).map Prod.fst =
          s.m_registrations)) ∧
    (lock_notification tid (begin_pass s) = none →
      (notify_all fuel tid arg s).1 = Status.blocked ∧
      invoked_by s.passes (notify_all fuel tid arg s).2.trace = []) := by
  obtain ⟨L, hL⟩ := notify_all_impl_spec (exec fuel tid) (exec_sound tid fuel) tid arg h
  have hinv1 : invoked_by s.passes (notify_all fuel tid arg s).2.trace = L :=
    (pass_outcome_fresh h hL).1
  have halive : ∀ e ∈ L, expired s e = false := by
    intro e he
    have := hL.alive e he
    simp [expired]; omega
  refine ⟨by rw [hinv1]; exact hL.sublist,
    by rw [hinv1]; exact h.regs_sorted.sublist hL.sublist,
    by rw [hinv1]; exact halive, ?_, ?_, ?_⟩
  · intro hok
    rw [hinv1]
    obtain ⟨_, _, h3⟩ := hL.on_ok hok
    have hdead : ∀ e ∈ s.m_registrations, e ∉ L →
        expired (notify_all fuel tid arg s).2 e = true := by
      intro e he hn
      have := h3 e he hn
      simp [expired]; exact this
    refine ⟨hdead, ?_⟩
    intro hkeep
    refine sublist_eq_filter (fun e => !expired s e) (regs_nodup h) hL.sublist ?_ ?_
    · intro e he; simp [halive e he]
    · intro e he hn
      have h1 := hdead e he hn
      cases hx : expired s e with
      | true => simp [hx]
      | false =>
        have h2 := hkeep e he hx
        rw [h1] at h2; cases h2
  · intro s1 hm
    obtain ⟨t1, t2, t3, _⟩ :=
      notify_all_impl_turns (exec fuel tid) (exec_sound tid fuel) tid arg h hm
    have t1a : invoked_by s.passes (notify_all fuel tid arg s).2.trace =
        alive_at_turn (turns (exec fuel tid) s.passes arg s.m_registrations s1) := t1
    refine ⟨t1a, ?_, ?_, ?_, ?_⟩
    · intro e st hmem
      rw [t1a]
      exact alive_at_turn_iff t2 hmem
    · intro e rest hr
      rw [hr]
      simp [turns]
    · intro e st hmem
      have hw1 := wellformed_lock_notification (wellformed_begin_pass h) hm
      obtain ⟨m, _, hs⟩ := lock_notification_some hm
      have hp1 : s.passes < s1.passes := by rw [hs]; exact Nat.lt_succ_self _
      obtain ⟨rest, _, _, _, d⟩ := turns_suffix (exec fuel tid) (exec_sound tid fuel)
        s.passes arg s.m_registrations s1 hw1 hp1 e st hmem
      exact ⟨rest, d⟩
    · intro hok
      exact (t3 hok).1
  · intro hm
    obtain ⟨w1, w2⟩ := notify_all_impl_waits (exec fuel tid) tid arg h hm
    refine ⟨w1, ?_⟩
    show invoked_by s.passes (notify_all_impl (exec fuel tid) tid arg s).2.trace = []
    rw [w2]
    exact (own_events_fresh h (Nat.le_refl s.passes)).1

/-- C1, the scenario of the claim and instances of the theorem: after `A`,
`B`, `C` have subscribed, `notify_all` logs `[A, B, C]`; after the release of
the token of `B` a second `notify_all` appends `[A, C]`.  With two subscribers
of which the first releases the token of the second in its callback, the loop
reaches both entries, the second is expired in the state in which the loop
reaches it, and the pass invokes the first only. -/
theorem notify_all_invokes_entries_alive_at_their_turn_witness :
    wellformed (exec 1 0 three_subscribers State.init).2 ∧
    invoked_by 0 (notify_all 1 0 0 (exec 1 0 three_subscribers State.init).2).2.trace =
      [0, 1, 2] ∧
    logged (exec 2 0 (three_subscribers ++ [Action.notify_all 0]) State.init).2.trace =
      [1, 2, 3] ∧
    logged (exec 2 0 (three_subscribers ++
      [Action.notify_all 0, Action.unsubscribe 1, Action.notify_all 0]) State.init).2.trace =
      [1, 2, 3, 1, 3] ∧
    lock_notification 0 (begin_pass (exec 1 0 releasing_subscribers State.init).2) =
      some releasing_in_pass ∧
    (turns (exec 1 0) 0 0 [0, 1] releasing_in_pass).map
      (fun t => (t.1, expired t.2 t.1)) = [(0, false), (1, true)] ∧
    invoked_by 0 (notify_all 1 0 0 (exec 1 0 releasing_subscribers State.init).2).2.trace =
      alive_at_turn (turns (exec 1 0) 0 0 [0, 1] releasing_in_pass) ∧
    alive_at_turn (turns (exec 1 0) 0 0 [0, 1] releasing_in_pass) = [0] :=
  ⟨(exec_sound 0 1 three_subscribers State.init wellformed_init).1,
   ((notify_all_invokes_entries_alive_at_their_turn 1 0 0
      (exec 1 0 three_subscribers State.init).2
      (exec_sound 0 1 three_subscribers State.init wellformed_init).1).2.2.2.1
        (by decide)).2 (by decide),
   by decide, by decide, rfl, by decide,
   ((notify_all_invokes_entries_alive_at_their_turn 1 0 0
      (exec 1 0 releasing_subscribers State.init).2
      (exec_sound 0 1 releasing_subscribers State.init wellformed_init).1).2.2.2.2.1
        releasing_in_pass rfl).1,
   by decide⟩

end registration

namespace registration

/-! ## C3: a callback that throws -/

theorem alive_at_turn_all {ts : List (Nat × State)}
    (h : ∀ t ∈ ts, expired t.2 t.1 = false) : alive_at_turn ts = ts.map Prod.fst := by
  unfold alive_at_turn
  rw [List.filter_eq_self.2]
  intro t ht
  simp [h t ht]

theorem alive_at_turn_subset {ts : List (Nat × State)} {e : Nat}
    (h : e ∈ alive_at_turn ts) : e ∈ ts.map Prod.fst := by
  obtain ⟨st, hm, _⟩ := mem_alive_at_turn.1 h
  exact List.mem_map.2 ⟨(e, st), hm, rfl⟩

theorem notify_all_impl_expired (call : List Action → State → Status × State) (tid arg : Nat)
    {s s1 : State} (h : wellformed s) (hm : lock_notification tid (begin_pass s) = some s1)
    (e : Nat) :
    expired (notify_all_impl call tid arg s).2 e =
      expired (notify_loop call s.passes arg s.m_registrations s1).2 e := by
  have hfree : ¬ s.m_registrations_lock = true := by simp [h.regs_free]
  unfold notify_all_impl
  rw [if_neg hfree]
  dsimp only
  rw [hm]
  dsimp only
  cases hl : (notify_loop call s.passes arg s.m_registrations s1).1 <;> rfl

/-- What a pass in which the callback of entry `k` has thrown `err` has done:
the loop has reached the entries before `k` and `k`, it has invoked those of
the entries before `k` that were alive when it reached them, all of which have
returned, and then `k`; it has not reached the entries after `k`. -/
theorem notify_all_impl_raising (call : List Action → State → Status × State)
    (hcall : ∀ prog s, wellformed s → sound s (call prog s)) (tid arg : Nat)
    {s : State} (h : wellformed s) {k err : Nat}
    (hexc : Event.exc s.passes k err ∈ (notify_all_impl call tid arg s).2.trace) :
    ∃ s1 ts st post, lock_notification tid (begin_pass s) = some s1 ∧
      turns call s.passes arg s.m_registrations s1 = ts ++ [(k, st)] ∧
      s.m_registrations = ts.map Prod.fst ++ k :: post ∧
      expired st k = false ∧
      invoked_by s.passes (notify_all_impl call tid arg s).2.trace =
        alive_at_turn ts ++ [k] ∧
      returned_by s.passes (notify_all_impl call tid arg s).2.trace = alive_at_turn ts ∧
      raised_by s.passes (notify_all_impl call tid arg s).2.trace = [(k, err)] ∧
      (∀ e st1, (e, st1) ∈ ts →
        (e ∈ invoked_by s.passes (notify_all_impl call tid arg s).2.trace ↔
          expired st1 e = false)) ∧
      (∀ e ∈ ts.map Prod.fst,
        e ∉ invoked_by s.passes (notify_all_impl call tid arg s).2.trace →
        expired (notify_all_impl call tid arg s).2 e = true) ∧
      ((∀ e ∈ ts.map Prod.fst, expired (notify_all_impl call tid arg s).2 e = false) →
        invoked_by s.passes (notify_all_impl call tid arg s).2.trace =
          ts.map Prod.fst ++ [k]) ∧
      (∀ e ∈ post, e ∉ invoked_by s.passes (notify_all_impl call tid arg s).2.trace) := by
  obtain ⟨L, hL⟩ := notify_all_impl_spec call hcall tid arg h
  have hstatus := (pass_outcome_of_exc h hL hexc).1
  cases hm : lock_notification tid (begin_pass s) with
  | none =>
    obtain ⟨_, w2⟩ := notify_all_impl_waits call tid arg h hm
    rw [w2] at hexc
    have := h.tags _ hexc s.passes rfl
    omega
  | some s1 =>
    obtain ⟨t1, t2, _, t4⟩ := notify_all_impl_turns call hcall tid arg h hm
    obtain ⟨ts, k1, st, post, a, b, c, d, f⟩ := t4 (by rw [hstatus]; simp)
    have hr := f err hstatus
    have hk : k = k1 := by
      have hmem := mem_raised_by hexc
      rw [hr] at hmem
      simp only [List.mem_singleton, Prod.mk.injEq] at hmem
      exact hmem.1
    subst hk
    have hw1 := wellformed_lock_notification (wellformed_begin_pass h) hm
    obtain ⟨m, _, hs⟩ := lock_notification_some hm
    have hp1 : s.passes < s1.passes := by rw [hs]; exact Nat.lt_succ_self _
    have hheap : s1.heap = s.heap := by rw [hs]; rfl
    have hinv : invoked_by s.passes (notify_all_impl call tid arg s).2.trace =
        alive_at_turn ts ++ [k] := by
      rw [t1, a, alive_at_turn_append, alive_at_turn_alive [] c]
      rfl
    have hiff : ∀ e st1, (e, st1) ∈ ts →
        (e ∈ invoked_by s.passes (notify_all_impl call tid arg s).2.trace ↔
          expired st1 e = false) := by
      intro e st1 hmem
      rw [t1]
      exact alive_at_turn_iff t2 (by rw [a]; exact List.mem_append_left _ hmem)
    have hdead : ∀ e ∈ ts.map Prod.fst,
        e ∉ invoked_by s.passes (notify_all_impl call tid arg s).2.trace →
        expired (notify_all_impl call tid arg s).2 e = true := by
      intro e he hn
      obtain ⟨t, hmem, hte⟩ := List.mem_map.1 he
      obtain ⟨e1, st1⟩ := t
      simp only at hte
      subst hte
      have hx : expired st1 e1 = true := by
        cases hx : expired st1 e1 with
        | true => rfl
        | false => exact absurd ((hiff e1 st1 hmem).2 hx) hn
      rw [notify_all_impl_expired call tid arg h hm]
      refine expired_after_turn call hcall s.passes arg hw1 hp1
        (by rw [a]; exact List.mem_append_left _ hmem) ?_ hx
      rw [hheap]
      exact h.regs_bound e1 (by rw [b]; exact List.mem_append_left _ he)
    have hnd := regs_nodup h
    rw [b] at hnd
    have hdis := List.nodup_append.mp hnd
    have hk2 := List.nodup_cons.mp hdis.2.1
    refine ⟨s1, ts, st, post, rfl, a, b, c, hinv, d, hr, hiff, hdead, ?_, ?_⟩
    · intro hall
      rw [hinv, alive_at_turn_all]
      intro t ht
      cases hx : expired t.2 t.1 with
      | false => rfl
      | true =>
        have hmem : t.1 ∈ ts.map Prod.fst := List.mem_map.2 ⟨t, ht, rfl⟩
        have hn : t.1 ∉ invoked_by s.passes (notify_all_impl call tid arg s).2.trace := by
          intro hin
          have := (hiff t.1 t.2 ht).1 hin
          rw [hx] at this; cases this
        have h1 := hdead t.1 hmem hn
        rw [hall t.1 hmem] at h1
        cases h1
    · intro e he hin
      rw [hinv] at hin
      rcases List.mem_append.mp hin with hm1 | hm1
      · exact hdis.2.2 (alive_at_turn_subset hm1) (List.mem_cons_of_mem _ he)
      · simp only [List.mem_singleton] at hm1
        subst hm1
        exact hk2.1 he

end registration

namespace registration

/-- C3. If in a `notify_all` pass the callback of entry `k` throws `err`, then
`notify_all` ends with that same error; the snapshot splits into the entries
before `k`, `k` itself and the entries after it; the loop has reached every
entry before `k` and has invoked it exactly when it was alive in the state in
which the loop reached it, so that the callbacks invoked by the pass are those
of the entries before `k` that were alive at their turn, in order and each
once, followed by `k`; all of those before `k` have returned normally; an
entry before `k` that was not invoked has expired, and when every entry before
`k` is still alive after the pass, all of them have been invoked; and no
callback of an entry after `k` is invoked in the pass.  The same holds for the
variant that returns the list of results. -/
theorem raising_callback_ends_the_pass (fuel tid arg : Nat) (s : State) (h : wellformed s)
    (k err : Nat) :
    (Event.exc s.passes k err ∈ (notify_all fuel tid arg s).2.trace →
      (notify_all fuel tid arg s).1 = Status.raised err ∧
      (∃ pre post L1, s.m_registrations = pre ++ k :: post ∧ List.Sublist L1 pre ∧
        invoked_by s.passes (notify_all fuel tid arg s).2.trace = L1 ++ [k] ∧
        returned_by s.passes (notify_all fuel tid arg s).2.trace = L1 ∧
        (L1 ++ [k]).Nodup ∧
        ∀ e ∈ post, e ∉ invoked_by s.passes (notify_all fuel tid arg s).2.trace) ∧
      ∃ s1 ts st post, lock_notification tid (begin_pass s) = some s1 ∧
        turns (exec fuel tid) s.passes arg s.m_registrations s1 = ts ++ [(k, st)] ∧
        s.m_registrations = ts.map Prod.fst ++ k :: post ∧
        expired st k = false ∧
        invoked_by s.passes (notify_all fuel tid arg s).2.trace = alive_at_turn ts ++ [k] ∧
        returned_by s.passes (notify_all fuel tid arg s).2.trace = alive_at_turn ts ∧
        raised_by s.passes (notify_all fuel tid arg s).2.trace = [(k, err)] ∧
        (∀ e st1, (e, st1) ∈ ts →
          (e ∈ invoked_by s.passes (notify_all fuel tid arg s).2.trace ↔ expired st1 e = false)) ∧
        (∀ e ∈ ts.map Prod.fst, e ∉ invoked_by s.passes (notify_all fuel tid arg s).2.trace →
          expired (notify_all fuel tid arg s).2 e = true) ∧
        ((∀ e ∈ ts.map Prod.fst, expired (notify_all fuel tid arg s).2 e = false) →
          invoked_by s.passes (notify_all fuel tid arg s).2.trace = ts.map Prod.fst ++ [k]) ∧
        (∀ e ∈ post, e ∉ invoked_by s.passes (notify_all fuel tid arg s).2.trace)) ∧
    (Event.exc s.passes k err ∈ (notify_all2 fuel tid arg s).2.2.trace →
      (notify_all2 fuel tid arg s).1 = Status.raised err ∧
      (∃ pre post L1, s.m_registrations = pre ++ k :: post ∧ List.Sublist L1 pre ∧
        invoked_by s.passes (notify_all2 fuel tid arg s).2.2.trace = L1 ++ [k] ∧
        returned_by s.passes (notify_all2 fuel tid arg s).2.2.trace = L1 ∧
        (L1 ++ [k]).Nodup ∧
        ∀ e ∈ post, e ∉ invoked_by s.passes (notify_all2 fuel tid arg s).2.2.trace) ∧
      ∃ s1 ts st post, lock_notification tid (begin_pass s) = some s1 ∧
        turns (exec fuel tid) s.passes arg s.m_registrations s1 = ts ++ [(k, st)] ∧
        s.m_registrations = ts.map Prod.fst ++ k :: post ∧
        expired st k = false ∧
        invoked_by s.passes (notify_all2 fuel tid arg s).2.2.trace = alive_at_turn ts ++ [k] ∧
        returned_by s.passes (notify_all2 fuel tid arg s).2.2.trace = alive_at_turn ts ∧
        raised_by s.passes (notify_all2 fuel tid arg s).2.2.trace = [(k, err)] ∧
        (∀ e st1, (e, st1) ∈ ts →
          (e ∈ invoked_by s.passes (notify_all2 fuel tid arg s).2.2.trace ↔ expired st1 e = false)) ∧
        (∀ e ∈ ts.map Prod.fst, e ∉ invoked_by s.passes (notify_all2 fuel tid arg s).2.2.trace →
          expired (notify_all2 fuel tid arg s).2.2 e = true) ∧
        ((∀ e ∈ ts.map Prod.fst, expired (notify_all2 fuel tid arg s).2.2 e = false) →
          invoked_by s.passes (notify_all2 fuel tid arg s).2.2.trace = ts.map Prod.fst ++ [k]) ∧
        (∀ e ∈ post, e ∉ invoked_by s.passes (notify_all2 fuel tid arg s).2.2.trace)) := by
  obtain ⟨L, hL⟩ := notify_all_impl_spec (exec fuel tid) (exec_sound tid fuel) tid arg h
  have h2 := notify_all_impl2_eq (exec fuel tid) tid arg s
  have e1 : (notify_all2 fuel tid arg s).1 = (notify_all fuel tid arg s).1 := h2.1
  have e2 : (notify_all2 fuel tid arg s).2.2 = (notify_all fuel tid arg s).2 := h2.2
  rw [e1, e2]
  refine ⟨fun hexc => ⟨(pass_outcome_of_exc h hL hexc).1, (pass_outcome_of_exc h hL hexc).2,
      notify_all_impl_raising (exec fuel tid) (exec_sound tid fuel) tid arg h hexc⟩,
    fun hexc => ⟨(pass_outcome_of_exc h hL hexc).1, (pass_outcome_of_exc h hL hexc).2,
      notify_all_impl_raising (exec fuel tid) (exec_sound tid fuel) tid arg h hexc⟩⟩

/-- C3, instances of the theorem: of three subscribers the second throws 7;
the first callback has run, the third has not, and both variants of
`notify_all` end with error 7.  Of three subscribers of which the first
releases the token of the second and the third throws 7, the loop reaches all
three, the second has expired when the loop reaches it, and the pass invokes
the first and the third. -/
theorem raising_callback_ends_the_pass_witness :
    wellformed (exec 1 0 raising_subscribers State.init).2 ∧
    Event.exc 0 1 7 ∈ (notify_all 1 0 0 (exec 1 0 raising_subscribers State.init).2).2.trace ∧
    (notify_all 1 0 0 (exec 1 0 raising_subscribers State.init).2).1 = Status.raised 7 ∧
    (notify_all2 1 0 0 (exec 1 0 raising_subscribers State.init).2).1 = Status.raised 7 ∧
    logged (notify_all 1 0 0 (exec 1 0 raising_subscribers State.init).2).2.trace = [1, 2] ∧
    invoked_by 0 (notify_all 1 0 0 (exec 1 0 raising_subscribers State.init).2).2.trace =
      [0, 1] ∧
    Event.exc 0 2 7 ∈
      (notify_all 1 0 0 (exec 1 0 releasing_raising_subscribers State.init).2).2.trace ∧
    (notify_all 1 0 0 (exec 1 0 releasing_raising_subscribers State.init).2).1 =
      Status.raised 7 ∧
    lock_notification 0 (begin_pass (exec 1 0 releasing_raising_subscribers State.init).2) =
      some releasing_raising_in_pass ∧
    (turns (exec 1 0) 0 0 [0, 1, 2] releasing_raising_in_pass).map
      (fun t => (t.1, expired t.2 t.1)) = [(0, false), (1, true), (2, false)] ∧
    invoked_by 0
      (notify_all 1 0 0 (exec 1 0 releasing_raising_subscribers State.init).2).2.trace =
      [0, 2] :=
  ⟨(exec_sound 0 1 raising_subscribers State.init wellformed_init).1, by decide,
   ((raising_callback_ends_the_pass 1 0 0 (exec 1 0 raising_subscribers State.init).2
      (exec_sound 0 1 raising_subscribers State.init wellformed_init).1 1 7).1 (by decide)).1,
   ((raising_callback_ends_the_pass 1 0 0 (exec 1 0 raising_subscribers State.init).2
      (exec_sound 0 1 raising_subscribers State.init wellformed_init).1 1 7).2 (by decide)).1,
   by decide, by decide, by decide,
   ((raising_callback_ends_the_pass 1 0 0
      (exec 1 0 releasing_raising_subscribers State.init).2
      (exec_sound 0 1 releasing_raising_subscribers State.init wellformed_init).1 2 7).1
        (by decide)).1,
   rfl, by decide, by decide⟩

end registration

namespace registration

/-! ## C6: the list of results -/

/-- C6 (as amended). When `notify_all` of a holder with a result type returns
normally, the list it returns holds exactly one result per callback the pass
invoked, in the order of invocation, which is the subscription order.  The
loop has reached every entry of the snapshot, and the callbacks invoked are
exactly the entries that were alive in the state in which the loop reached
them, so that the list holds the results of the entries alive at their turn
and expired entries contribute nothing: the invoked entries were alive at
snapshot time and every snapshot entry not invoked has expired.  If moreover no
entry alive at snapshot time has expired by the end of the call, the list holds
exactly one result per callback alive at snapshot time. -/
theorem notify_all_results (fuel tid arg : Nat) (s : State) (h : wellformed s)
    (hok : (notify_all2 fuel tid arg s).1 = Status.ok) :
    (notify_all2 fuel tid arg s).2.1 =
      (invoked_by s.passes (notify_all2 fuel tid arg s).2.2.trace).map
        (callback_result s arg) ∧
    (invoked_by s.passes (notify_all2 fuel tid arg s).2.2.trace).Sublist s.m_registrations ∧
    (invoked_by s.passes (notify_all2 fuel tid arg s).2.2.trace).Pairwise (fun a b => a < b) ∧
    (∀ e ∈ invoked_by s.passes (notify_all2 fuel tid arg s).2.2.trace, expired s e = false) ∧
    (∀ e ∈ s.m_registrations,
      e ∉ invoked_by s.passes (notify_all2 fuel tid arg s).2.2.trace →
      expired (notify_all2 fuel tid arg s).2.2 e = true) ∧
    ((∀ e ∈ s.m_registrations, expired s e = false →
        expired (notify_all2 fuel tid arg s).2.2 e = false) →
      (notify_all2 fuel tid arg s).2.1 =
        (s.m_registrations.filter (fun e => !expired s e)).map (callback_result s arg)) ∧
    (∃ s1, lock_notification tid (begin_pass s) = some s1 ∧
      (turns (exec fuel tid) s.passes arg s.m_registrations s1).map Prod.fst =
        s.m_registrations ∧
      invoked_by s.passes (notify_all2 fuel tid arg s).2.2.trace =
        alive_at_turn (turns (exec fuel tid) s.passes arg s.m_registrations s1) ∧
      (∀ e st, (e, st) ∈ turns (exec fuel tid) s.passes arg s.m_registrations s1 →
        (e ∈ invoked_by s.passes (notify_all2 fuel tid arg s).2.2.trace ↔
          expired st e = false)) ∧
      (notify_all2 fuel tid arg s).2.1 =
        (alive_at_turn (turns (exec fuel tid) s.passes arg s.m_registrations s1)).map
          (callback_result s arg)) := by
  have h2 := notify_all_impl2_eq (exec fuel tid) tid arg s
  have e1 : (notify_all2 fuel tid arg s).1 = (notify_all fuel tid arg s).1 := h2.1
  have e2 : (notify_all2 fuel tid arg s).2.2 = (notify_all fuel tid arg s).2 := h2.2
  have hres := notify_all_impl2_results (exec fuel tid) (exec_sound tid fuel) tid arg h hok
  have hres1 : (notify_all2 fuel tid arg s).2.1 =
      (invoked_by s.passes (notify_all2 fuel tid arg s).2.2.trace).map
        (callback_result s arg) := hres
  obtain ⟨L, hL⟩ := notify_all_impl_spec (exec fuel tid) (exec_sound tid fuel) tid arg h
  obtain ⟨c1, c2, c3, c4⟩ := invoked_entries_of_outcome h hL
  have c1a : invoked_by s.passes (notify_all fuel tid arg s).2.trace = L := c1
  rw [e1] at hok
  obtain ⟨c5, c6⟩ := c4 hok
  rw [e2] at hres1 ⊢
  have hturns : ∃ s1, lock_notification tid (begin_pass s) = some s1 ∧
      (turns (exec fuel tid) s.passes arg s.m_registrations s1).map Prod.fst =
        s.m_registrations ∧
      invoked_by s.passes (notify_all fuel tid arg s).2.trace =
        alive_at_turn (turns (exec fuel tid) s.passes arg s.m_registrations s1) ∧
      (∀ e st, (e, st) ∈ turns (exec fuel tid) s.passes arg s.m_registrations s1 →
        (e ∈ invoked_by s.passes (notify_all fuel tid arg s).2.trace ↔
          expired st e = false)) := by
    cases hm : lock_notification tid (begin_pass s) with
    | none =>
      have hb := (notify_all_impl_waits (exec fuel tid) tid arg h hm).1
      have hok1 : (notify_all_impl (exec fuel tid) tid arg s).1 = Status.ok := hok
      rw [hb] at hok1; cases hok1
    | some s1 =>
      obtain ⟨t1, t2, t3, _⟩ :=
        notify_all_impl_turns (exec fuel tid) (exec_sound tid fuel) tid arg h hm
      have t1a : invoked_by s.passes (notify_all fuel tid arg s).2.trace =
          alive_at_turn (turns (exec fuel tid) s.passes arg s.m_registrations s1) := t1
      refine ⟨s1, rfl, (t3 hok).1, t1a, ?_⟩
      intro e st hmem
      rw [t1a]
      exact alive_at_turn_iff t2 hmem
  obtain ⟨s1, u1, u2, u3, u4⟩ := hturns
  refine ⟨hres1, by rw [c1a]; exact hL.sublist, by rw [c1a]; exact c2,
    by rw [c1a]; exact c3, by rw [c1a]; exact c5, ?_, s1, u1, u2, u3, u4, ?_⟩
  · intro hkeep
    rw [hres1, c1a, c6 hkeep]
  · rw [hres1, u3]

/-- C6, the scenario of the claim and instances of the theorem: two callbacks
returning 1 and 2 give `[1, 2]`, an empty holder gives the empty list; with two
subscribers returning 10 and 20 of which the first releases the token of the
second in its callback, the list is `[10]`, the result of the only entry alive
at its turn. -/
theorem notify_all_results_witness :
    wellformed (exec 1 0 two_subscribers State.init).2 ∧
    (notify_all2 1 0 0 (exec 1 0 two_subscribers State.init).2).1 = Status.ok ∧
    (notify_all2 1 0 0 (exec 1 0 two_subscribers State.init).2).2.1 = [1, 2] ∧
    (notify_all2 1 0 0 State.init).2.1 = [] ∧
    (notify_all2 1 0 0 (exec 1 0 two_subscribers State.init).2).2.1 =
      (invoked_by 0 (notify_all2 1 0 0 (exec 1 0 two_subscribers State.init).2).2.2.trace).map
        (callback_result (exec 1 0 two_subscribers State.init).2 0) ∧
    (notify_all2 1 0 0 (exec 1 0 releasing_subscribers State.init).2).1 = Status.ok ∧
    alive_at_turn (turns (exec 1 0) 0 0 [0, 1] releasing_in_pass) = [0] ∧
    (notify_all2 1 0 0 (exec 1 0 releasing_subscribers State.init).2).2.1 = [10] ∧
    (∃ s1, lock_notification 0 (begin_pass (exec 1 0 releasing_subscribers State.init).2) =
        some s1 ∧
      (notify_all2 1 0 0 (exec 1 0 releasing_subscribers State.init).2).2.1 =
        (alive_at_turn (turns (exec 1 0)
          (exec 1 0 releasing_subscribers State.init).2.passes 0
          (exec 1 0 releasing_subscribers State.init).2.m_registrations s1)).map
          (callback_result (exec 1 0 releasing_subscribers State.init).2 0)) :=
  ⟨(exec_sound 0 1 two_subscribers State.init wellformed_init).1, by decide, by decide,
   by decide,
   (notify_all_results 1 0 0 (exec 1 0 two_subscribers State.init).2
      (exec_sound 0 1 two_subscribers State.init wellformed_init).1 (by decide)).1,
   by decide, by decide, by decide,
   ((notify_all_results 1 0 0 (exec 1 0 releasing_subscribers State.init).2
      (exec_sound 0 1 releasing_subscribers State.init wellformed_init).1
      (by decide)).2.2.2.2.2.2).elim (fun s1 w => ⟨s1, w.1, w.2.2.2.2⟩)⟩

end registration

namespace registration

/-- C4 (as amended). In a pass of thread `tid` (which holds the notification
lock) let the loop reach entry `e`, alive, whose callback body is `pre`, then
`unsubscribe` on token `i`, then `post`, for arbitrary code `pre` and `post`;
let `pre` run to its end, leaving state `s2` in which token `i` holds `e` (it
is the callback's own token).  Then the release returns without blocking (as
every `unsubscribe` by the owner of the lock does) and leaves token `i` null;
after the release the entry is alive and neither its end handler nor its
deleter has run, and this remains so after whatever code the callback runs to
its end from there, the rest of its body included; when the callback returns
normally, the loop goes on with the remaining snapshot entries.  If moreover
token `i` was the only token of the entry when it was released, and the
invocation is not nested in another invocation of the same callback, then the
entry is deleted when the invocation returns, and from then on no invocation
of the callback is ever started, neither by the rest of the loop nor by any
later run of user code. -/
theorem self_release_in_callback (n tid p arg e i : Nat) (pre post : List Action)
    (rest : List Nat) (c : control_block) (t : token) (s s2 : State)
    (h : wellformed s) (hp : p < s.passes)
    (hown : s.m_notification_lock.owner = tid) (hheld : 0 < s.m_notification_lock.count)
    (hc : s.heap[e]? = some c) (halive : 0 < c.strong)
    (hbody : (c.entry.m_callback arg).1 = pre ++ Action.unsubscribe i :: post)
    (hpre : exec (n + 1) tid pre (emit (Event.call p e arg) (shared_acquire e s)) =
      (Status.ok, s2))
    (ht : s2.tokens[i]? = some t) (hh : t.m_registration_holder = some e) :
    (unsubscribe tid i s2).1 = Status.ok ∧
    (∀ x : State, x.m_notification_lock.owner = tid → ∀ j, (unsubscribe tid j x).1 = Status.ok) ∧
    (unsubscribe tid i s2).2.tokens[i]? = some token.null ∧
    (expired (unsubscribe tid i s2).2 e = false ∧
      handled (unsubscribe tid i s2).2.trace e = 0 ∧
      destroyed (unsubscribe tid i s2).2.trace e = 0) ∧
    (∀ m prog, (exec m tid prog (unsubscribe tid i s2).2).1.completed = true →
      expired (exec m tid prog (unsubscribe tid i s2).2).2 e = false ∧
      handled (exec m tid prog (unsubscribe tid i s2).2).2.trace e = 0 ∧
      destroyed (exec m tid prog (unsubscribe tid i s2).2).2.trace e = 0) ∧
    exec (n + 1) tid (c.entry.m_callback arg).1
        (emit (Event.call p e arg) (shared_acquire e s)) =
      exec (n + 1) tid post (unsubscribe tid i s2).2 ∧
    ((exec (n + 1) tid post (unsubscribe tid i s2).2).1 = Status.ok →
      notify_loop (exec (n + 1) tid) p arg (e :: rest) s =
        notify_loop (exec (n + 1) tid) p arg rest
          (shared_release e (emit (Event.ret p e)
            (exec (n + 1) tid post (unsubscribe tid i s2).2).2)) ∧
      (holders s2 e = 1 → started s.trace e = finished s.trace e →
        expired (shared_release e (emit (Event.ret p e)
          (exec (n + 1) tid post (unsubscribe tid i s2).2).2)) e = true ∧
        destroyed (shared_release e (emit (Event.ret p e)
          (exec (n + 1) tid post (unsubscribe tid i s2).2).2)).trace e = 1 ∧
        started (notify_loop (exec (n + 1) tid) p arg rest
          (shared_release e (emit (Event.ret p e)
            (exec (n + 1) tid post (unsubscribe tid i s2).2).2))).2.trace e =
          started (shared_release e (emit (Event.ret p e)
            (exec (n + 1) tid post (unsubscribe tid i s2).2).2)).trace e ∧
        ∀ fuel tid1 prog,
          started (exec fuel tid1 prog (shared_release e (emit (Event.ret p e)
            (exec (n + 1) tid post (unsubscribe tid i s2).2).2))).2.trace e =
          started (shared_release e (emit (Event.ret p e)
            (exec (n + 1) tid post (unsubscribe tid i s2).2).2)).trace e)) := by
  have hne : c.strong ≠ 0 := by omega
  have hwl : weak_lock s e = some (c.entry, shared_acquire e s) := weak_lock_of_lookup hc hne
  have hwE := wellformed_enter h hc hne hp arg
  have hfa := shared_acquire_frame e s
  have hlt := lt_length_of_lookup hc
  -- the code before the release
  have hs1 := exec_sound tid (n + 1) pre _ hwE
  rw [hpre] at hs1
  have hw2 : wellformed s2 := hs1.1
  have he2 : extends_to (emit (Event.call p e arg) (shared_acquire e s)) s2 := hs1.2.1
  have hb12 : balanced (emit (Event.call p e arg) (shared_acquire e s)) s2 := hs1.2.2 rfl
  have hcount2 : 0 < s2.m_notification_lock.count := by
    have := hb12.lock_count
    simp only [emit_notif_lock, hfa.2.2.2.1] at this
    omega
  have hown2 : s2.m_notification_lock.owner = tid := by
    have := hb12.lock_owner
    simp only [emit_notif_lock, hfa.2.2.2.1] at this
    rw [this hheld]; exact hown
  -- the release
  have h1 : (unsubscribe tid i s2).1 = Status.ok := unsubscribe_by_owner tid s2 hown2 i
  obtain ⟨hw3, he3, hb3⟩ := unsubscribe_sound hw2 tid i
  have hb23 := hb3 (by rw [h1]; rfl)
  have hb13 := balanced_trans hb12 hb23
  have hin3 := in_progress_after_body h hb13
  have h5 : exec (n + 1) tid (c.entry.m_callback arg).1
      (emit (Event.call p e arg) (shared_acquire e s)) =
      exec (n + 1) tid post (unsubscribe tid i s2).2 := by
    rw [hbody]; exact exec_release_split hpre h1
  refine ⟨h1, fun x hx j => unsubscribe_by_owner tid x hx j,
    tokens_after_unsubscribe ht h1, alive_in_progress hw3 hin3, ?_, h5, ?_⟩
  · intro m prog hcomp
    obtain ⟨hw4, _, hb4⟩ := exec_sound tid m prog _ hw3
    exact alive_in_progress hw4 (in_progress_after_body h (balanced_trans hb13 (hb4 hcomp)))
  · intro hok
    obtain ⟨hwB, heB, hbB⟩ := exec_sound tid (n + 1) post _ hw3
    have hb1B := balanced_trans hb13 (hbB (by rw [hok]; rfl))
    have hinB := in_progress_after_body h hb1B
    have hpB : p < (exec (n + 1) tid post (unsubscribe tid i s2).2).2.passes := by
      have a1 := he2.passes_le
      have a2 := he3.passes_le
      have a3 := heB.passes_le
      simp only [emit_passes, hfa.2.2.2.2.1] at a1
      omega
    have hwL := wellformed_leave (v := Event.ret p e) hwB hinB hpB (Or.inl rfl)
    have hst : (exec (n + 1) tid (c.entry.m_callback arg).1
        (emit (Event.call p e arg) (shared_acquire e s))).1 = Status.ok := by
      rw [h5]; exact hok
    have hloop : notify_loop (exec (n + 1) tid) p arg (e :: rest) s =
        notify_loop (exec (n + 1) tid) p arg rest
          (shared_release e (emit (Event.ret p e)
            (exec (n + 1) tid post (unsubscribe tid i s2).2).2)) := by
      rw [← h5]
      simp [notify_loop, hwl, hst]
    refine ⟨hloop, ?_⟩
    intro hone hnest
    -- no token holds the entry after the release, nor at the end of the body
    have hz3 : holders (unsubscribe tid i s2).2 e = 0 := by
      have := holders_set ht (unsubscribe_tokens ht h1) e
      simp only [hh, if_true] at this
      omega
    have hlt3 : e < (unsubscribe tid i s2).2.heap.length := by
      have a1 := he2.heap_le
      have a2 := he3.heap_le
      simp only [emit_heap, hfa.2.2.2.2.2.2] at a1
      omega
    have hzB := (exec_unheld e tid (n + 1) post (unsubscribe tid i s2).2).2 hlt3 hz3
    have hcntB := hwB.counts e
    have hipB := hb1B.in_progress e
    obtain ⟨en1, en2⟩ := entered_counts s p e arg
    rw [en1, en2] at hipB
    have huB : use_count (exec (n + 1) tid post (unsubscribe tid i s2).2).2 e = 1 := by omega
    obtain ⟨cB, hcB, hcBs⟩ := lookup_of_use_count_pos (s :=
      (exec (n + 1) tid post (unsubscribe tid i s2).2).2) (e := e) (by omega)
    have hcB1 : (emit (Event.ret p e)
        (exec (n + 1) tid post (unsubscribe tid i s2).2).2).heap[e]? = some cB := hcB
    have hdead : use_count (shared_release e (emit (Event.ret p e)
        (exec (n + 1) tid post (unsubscribe tid i s2).2).2)) e = 0 := by
      rw [shared_release_use_count hcB1 e]
      simp only [if_true]
      omega
    have hlt5 : e < (shared_release e (emit (Event.ret p e)
        (exec (n + 1) tid post (unsubscribe tid i s2).2).2)).heap.length := by
      rw [(shared_release_frame e _).2.2.2.2.2]
      have a3 := heB.heap_le
      simp only [emit_heap]
      omega
    have hpL : p < (shared_release e (emit (Event.ret p e)
        (exec (n + 1) tid post (unsubscribe tid i s2).2).2)).passes := by
      rw [(shared_release_frame e _).2.2.2.2.1]; exact hpB
    refine ⟨by simp [expired, hdead], ?_, ?_, ?_⟩
    · have := hwL.deleted e
      rw [this]
      simp [hlt5, hdead]
    · obtain ⟨ext, hext, _, hst1⟩ :=
        (notify_loop_sound (exec (n + 1) tid) (exec_sound tid (n + 1)) p arg rest _ hwL
          hpL).2.1.trace_ext
      rw [hext, started_append, hst1 e hlt5 hdead]; rfl
    · intro fuel tid1 prog
      obtain ⟨ext, hext, _, hst1⟩ := (exec_sound tid1 fuel prog _ hwL).2.1.trace_ext
      rw [hext, started_append, hst1 e hlt5 hdead]; rfl

end registration

namespace registration

/-- C4, an instance of the theorem and the whole scenario: the first subscriber
releases its own token in its callback, between two log entries; the release
returns, the entry is still alive after it, the pass goes on to the second
subscriber, the entry is deleted when the invocation has returned (the end
handler, label 9, runs after the callback has returned), and the second pass
invokes the second subscriber only. -/
theorem self_release_in_callback_witness :
    wellformed self_releasing_in_pass ∧
    (unsubscribe 0 0 self_releasing_before_release).1 = Status.ok ∧
    expired (unsubscribe 0 0 self_releasing_before_release).2 0 = false ∧
    notify_loop (exec 1 0) 0 0 [0, 1] self_releasing_in_pass =
      notify_loop (exec 1 0) 0 0 [1]
        (shared_release 0 (emit (Event.ret 0 0)
          (exec 1 0 [Action.log 2] (unsubscribe 0 0 self_releasing_before_release).2).2)) ∧
    expired (shared_release 0 (emit (Event.ret 0 0)
      (exec 1 0 [Action.log 2] (unsubscribe 0 0 self_releasing_before_release).2).2)) 0 = true ∧
    (exec 2 0 (self_releasing_subscribers ++ [Action.notify_all 0, Action.notify_all 0])
      State.init).2.trace =
      [Event.call 0 0 0, Event.log 1, Event.log 2, Event.ret 0 0,
       Event.endhandler 0 9 { owner := 0, count := 1 } false, Event.destroy 0,
       Event.call 0 1 0, Event.log 3, Event.ret 0 1,
       Event.call 1 1 0, Event.log 3, Event.ret 1 1] :=
  ⟨wellformed_self_releasing_in_pass,
   (self_release_in_callback 0 0 0 0 0 0 [Action.log 1] [Action.log 2] [1]
      { entry := { m_callback := self_releasing_callback, m_endhandler := some 9 },
        strong := 1 }
      { m_registration_holder := some 0, m_notify_mutex := true }
      self_releasing_in_pass self_releasing_before_release
      wellformed_self_releasing_in_pass (by decide) rfl (by decide)
      rfl (by decide) rfl rfl rfl rfl).1,
   (self_release_in_callback 0 0 0 0 0 0 [Action.log 1] [Action.log 2] [1]
      { entry := { m_callback := self_releasing_callback, m_endhandler := some 9 },
        strong := 1 }
      { m_registration_holder := some 0, m_notify_mutex := true }
      self_releasing_in_pass self_releasing_before_release
      wellformed_self_releasing_in_pass (by decide) rfl (by decide)
      rfl (by decide) rfl rfl rfl rfl).2.2.2.1.1,
   ((self_release_in_callback 0 0 0 0 0 0 [Action.log 1] [Action.log 2] [1]
      { entry := { m_callback := self_releasing_callback, m_endhandler := some 9 },
        strong := 1 }
      { m_registration_holder := some 0, m_notify_mutex := true }
      self_releasing_in_pass self_releasing_before_release
      wellformed_self_releasing_in_pass (by decide) rfl (by decide)
      rfl (by decide) rfl rfl rfl rfl).2.2.2.2.2.2 (by decide)).1,
   (((self_release_in_callback 0 0 0 0 0 0 [Action.log 1] [Action.log 2] [1]
      { entry := { m_callback := self_releasing_callback, m_endhandler := some 9 },
        strong := 1 }
      { m_registration_holder := some 0, m_notify_mutex := true }
      self_releasing_in_pass self_releasing_before_release
      wellformed_self_releasing_in_pass (by decide) rfl (by decide)
      rfl (by decide) rfl rfl rfl rfl).2.2.2.2.2.2 (by decide)).2
        (by decide) (by decide)).1,
   by decide⟩

end registration
